import Mathlib

/-!
# A shallow embedding of `gosimplifier` (simplifier.go, package gosimplifier)

This file models the Go library that deep-copies a value and redacts named
fields/keys according to a compiled rule tree, and proves or refutes the
spec's claims about it.

Modelling choices (documented once, used throughout):

* A Go runtime value is a finite tree (`Value`): scalars, structs (ordered
  field lists carrying the field name, an exported flag mirroring
  `CanInterface`, and the value), slices (element lists), pointers (inline
  target, `none` = nil), and maps.  Maps are *references* (`Value.vmap`)
  into an explicit `Heap`, because `deepCopy` has no `reflect.Map` case and
  therefore aliases maps between the clone and the original: mutation of a
  map must be observable through both.  Pointers and slices never survive
  `deepCopy` with aliasing (fresh targets / fresh backing arrays), so they
  are stored inline; values are assumed to form trees apart from map
  sharing, matching the spec's acyclic single-owner value model.
* `reflect.Value.Set` panics when the destination is not settable or the
  source was obtained through an unexported field (the read-only flag).
  Panics are modelled as `Option.none`; the two flags are threaded through
  `deepCopy` explicitly (`ds` = destination settable, `ro` = source
  read-only).
* Go map iteration order is unspecified; the model iterates association
  lists in list order.  Each rule acts only on its own name/key, so the
  final state does not depend on this order for well-formed (duplicate-free)
  rule maps.
-/

set_option linter.unreachableTactic false
set_option linter.unusedTactic false
set_option linter.unusedVariables false

namespace Gosimplifier

/-- A Go runtime value (see the header comment for the modelling choices). -/
inductive Value where
  | vint : Int → Value
  | vstr : String → Value
  | vbool : Bool → Value
  /-- A struct: field name, exported flag (`CanInterface`), field value. -/
  | vstruct : List (String × Bool × Value) → Value
  /-- A slice of elements (backing array always freshly allocated on copy). -/
  | vslice : List Value → Value
  /-- A map reference: `none` is a nil map, `some a` points at heap cell `a`. -/
  | vmap : Option Nat → Value
  /-- A pointer: `none` is nil, `some t` holds the target inline. -/
  | vptr : Option Value → Value
deriving Repr

open Value

mutual

/-- Structural equality test on values (Go `reflect.DeepEqual` restricted to
the model's tree values; map references compare by address). -/
def beqV : Value → Value → Bool
  | vint a, vint b => a == b
  | vstr a, vstr b => a == b
  | vbool a, vbool b => a == b
  | vstruct a, vstruct b => beqFields a b
  | vslice a, vslice b => beqElems a b
  | vmap a, vmap b => a == b
  | vptr none, vptr none => true
  | vptr (some a), vptr (some b) => beqV a b
  | _, _ => false

def beqFields : List (String × Bool × Value) → List (String × Bool × Value) → Bool
  | [], [] => true
  | (n1, e1, v1) :: r1, (n2, e2, v2) :: r2 =>
      n1 == n2 && (e1 == e2 && (beqV v1 v2 && beqFields r1 r2))
  | _, _ => false

def beqElems : List Value → List Value → Bool
  | [], [] => true
  | a :: r1, b :: r2 => beqV a b && beqElems r1 r2
  | _, _ => false

end

mutual

theorem beqV_iff : ∀ a b : Value, beqV a b = true ↔ a = b := by
  intro a b
  cases a <;> cases b <;> simp [beqV]
  case vstruct.vstruct x y => exact beqFields_iff x y
  case vslice.vslice x y => exact beqElems_iff x y
  case vptr.vptr x y =>
    cases x <;> cases y <;> simp [beqV]
    exact beqV_iff _ _

theorem beqFields_iff :
    ∀ a b : List (String × Bool × Value), beqFields a b = true ↔ a = b := by
  intro a b
  cases a <;> cases b <;> simp [beqFields]
  case cons.cons x r1 y r2 =>
    obtain ⟨n1, e1, v1⟩ := x
    obtain ⟨n2, e2, v2⟩ := y
    simp [beqFields, beqV_iff, beqFields_iff r1 r2, and_assoc]

theorem beqElems_iff : ∀ a b : List Value, beqElems a b = true ↔ a = b := by
  intro a b
  cases a <;> cases b <;> simp [beqElems]
  case cons.cons x r1 y r2 =>
    simp [beqElems, beqV_iff x y, beqElems_iff r1 r2]

end

instance : DecidableEq Value := fun a b =>
  if h : beqV a b then .isTrue ((beqV_iff a b).1 h)
  else .isFalse (fun hh => h ((beqV_iff a b).2 hh))

/-- A Go map's contents: an association list from (string-rendered) keys to
values.  Go map keys are unique; arbitrary association lists are allowed by
the model and behave like Go maps under first-match lookup. -/
abbrev MapData := List (String × Value)

/-- The store of all map objects; `Value.vmap (some a)` refers to cell `a`.
`applyRules` never allocates maps, so the heap's length is fixed. -/
abbrev Heap := List MapData

/-- Read heap cell `a` (a missing address reads as an empty map). -/
def hGet (h : Heap) (a : Nat) : MapData := h.getD a []

/-- Overwrite heap cell `a`. -/
def hSet (h : Heap) (a : Nat) (m : MapData) : Heap := h.set a m

/-- First-match lookup in an association list (Go map lookup). -/
def alook {α : Type} (m : List (String × α)) (k : String) : Option α :=
  match m with
  | [] => none
  | p :: rest => if p.1 = k then some p.2 else alook rest k

/-- Go `delete(m, k)` (`SetMapIndex` with an empty value). -/
def mdel (m : MapData) (k : String) : MapData := m.filter (fun p => p.1 ≠ k)

/-- Replace the value stored at key `k`, if present (in-place mutation of an
entry's value as seen through the shared map); Go map keys are unique, so
only the first match is replaced. -/
def mupd {α : Type} : List (String × α) → String → α → List (String × α)
  | [], _, _ => []
  | p :: rest, k, u => if p.1 = k then (p.1, u) :: rest else p :: mupd rest k u

/-- The keys of a map, as snapshotted by `reflect.Value.MapKeys`. -/
def mkeys (m : MapData) : List String := m.map (·.1)

/-- First-match field lookup, mirroring `reflect.Value.FieldByName`:
returns the exported flag and the value. -/
def fGet (flds : List (String × Bool × Value)) (n : String) : Option (Bool × Value) :=
  match flds with
  | [] => none
  | f :: rest => if f.1 = n then some f.2 else fGet rest n

/-- Overwrite the named field's value (`reflect.Value.Set` on the field
found by `FieldByName`, i.e. the first field with that name). -/
def fSet : List (String × Bool × Value) → String → Value → List (String × Bool × Value)
  | [], _, _ => []
  | f :: rest, n, u => if f.1 = n then (f.1, f.2.1, u) :: rest else f :: fSet rest n u

mutual

/-- `reflect.Zero(t)` for the type of the given runtime value: numeric zero,
empty string, false, nil pointer, nil slice, nil map, all-zero struct. -/
def zeroOf : Value → Value
  | vint _ => vint 0
  | vstr _ => vstr ""
  | vbool _ => vbool false
  | vstruct flds => vstruct (zeroFields flds)
  | vslice _ => vslice []
  | vmap _ => vmap none
  | vptr _ => vptr none

/-- `reflect.Zero` on every field of a struct (exported or not). -/
def zeroFields : List (String × Bool × Value) → List (String × Bool × Value)
  | [] => []
  | (n, ex, v) :: rest => (n, ex, zeroOf v) :: zeroFields rest

end

/-! ## Rule trees and their compiled form -/

/-- The declarative rule tree (`type Rule struct`): `remove_properties` and
`property_simplifiers`.  The child map is an association list; Go map keys
are unique (see `RuleWF`). -/
inductive Rule where
  | mk : List String → List (String × Rule) → Rule
deriving Repr

/-- `Rule.RemoveProperties`. -/
def Rule.removeProperties : Rule → List String
  | .mk r _ => r

/-- `Rule.PropertySimplifiers`. -/
def Rule.propertySimplifiers : Rule → List (String × Rule)
  | .mk _ p => p

/-- The compiled ruler tree: `removeRuler` is the terminal remove action and
`impl` a `simplifierImpl` holding its `propertySimplifiers` map. -/
inductive Ruler where
  | remove : Ruler
  | impl : List (String × Ruler) → Ruler
deriving Repr

/-- Insert-or-overwrite on an association list (`m[k] = v` on a Go map). -/
def aput {α : Type} (m : List (String × α)) (k : String) (v : α) : List (String × α) :=
  if m.any (fun p => p.1 = k) then mupd m k v else m ++ [(k, v)]

/-- The second loop of `createPropertySimplifiers`, over `RemoveProperties`. -/
def addRemoves (rem : List String) (m : List (String × Ruler)) : List (String × Ruler) :=
  match rem with
  | [] => m
  | k :: rest => addRemoves rest (aput m k Ruler.remove)

mutual

/-- `createPropertySimplifiers`: first compile every child into a nested
`simplifierImpl`, then register the terminal remove action for every removal
name — overwriting a same-named child entry, since this loop runs second. -/
def createPropertySimplifiers : Rule → List (String × Ruler)
  | .mk rem ps => addRemoves rem (compileChildren ps)

/-- The first loop of `createPropertySimplifiers`, over `PropertySimplifiers`. -/
def compileChildren : List (String × Rule) → List (String × Ruler)
  | [] => []
  | (k, sub) :: rest => aput (compileChildren rest) k (Ruler.impl (createPropertySimplifiers sub))

end

/-- `newSimplifier0` / `NewSimplifier` after JSON parsing: compilation is
total, so every parsed rule set compiles successfully. -/
def newSimplifier0 (r : Rule) : List (String × Ruler) := createPropertySimplifiers r

/-! ## Rule merging (`ExtendSimplifier`) -/

/-- The `contains` helper of simplifier.go. -/
def containsStr (s : List String) (x : String) : Bool := s.any (fun v => v = x)

/-- The remove-properties merge loop of `mergeRules`: copy the old list, then
append each new name not already present. -/
def mergeRem (acc : List String) : List String → List String
  | [] => acc
  | p :: rest => mergeRem (if containsStr acc p then acc else acc ++ [p]) rest

mutual

/-- `mergeRules`: union of removal names plus recursive merge of children
present on both sides; children on one side only are carried through. -/
def mergeRules : Rule → Rule → Rule
  | r1, .mk rem2 ps2 =>
      .mk (mergeRem r1.removeProperties rem2) (mergeChildren r1.propertySimplifiers ps2)

/-- The `property_simplifiers` merge loop of `mergeRules`. -/
def mergeChildren (m1 : List (String × Rule)) :
    List (String × Rule) → List (String × Rule)
  | [] => m1
  | (k, v) :: rest =>
      mergeChildren
        (match alook m1 k with
          | some old => mupd m1 k (mergeRules old v)
          | none => m1 ++ [(k, v)])
        rest

end

/-! ## `deepCopy`

`deepCopy(copy, original)` copies `original` into `copy` and returns a
value.  Callers inside the struct and slice cases *discard* the returned
value, so what matters there is the content left in the destination
(`deepCopyStored`); only the top-level call in `Simplify` uses the returned
value (`deepCopyRet`).  Crucially:

* the `Ptr` case allocates a fresh target and copies into it but never sets
  the destination, so a nested non-nil pointer leaves the destination at its
  zero value (nil);
* there is no `Map` case, so a map falls into the default branch
  `copy.Set(original)` and the clone aliases the original's map object;
* the `Struct` case iterates all fields with no `CanInterface` guard, so an
  unexported field reaches a `Set` whose source carries the read-only flag
  (or whose destination is unsettable) and panics.

`ds` = the destination is settable; `ro` = the source value was obtained
through an unexported field (`flagRO`); `none` = panic. -/

mutual

/-- Content left in the (initially zero) destination by `deepCopy`. -/
def deepCopyStored (ds ro : Bool) : Value → Option Value
  | vptr none => some (vptr none)
  | vptr (some t) => (deepCopyStored true ro t).map (fun _ => vptr none)
  | vstruct flds => if ds then (deepCopyFields ro flds).map Value.vstruct else none
  | vslice items => if ds then (deepCopyElems ro items).map Value.vslice else none
  | v => if ds && !ro then some v else none

/-- The field loop of `deepCopy`'s `Struct` case: each field's destination is
settable iff the field is exported, and the source of an unexported field is
read-only (the flag is sticky). -/
def deepCopyFields (ro : Bool) : List (String × Bool × Value) →
    Option (List (String × Bool × Value))
  | [] => some []
  | (n, ex, fv) :: rest =>
      match deepCopyStored ex (ro || !ex) fv with
      | none => none
      | some fv' =>
        match deepCopyFields ro rest with
        | none => none
        | some rest' => some ((n, ex, fv') :: rest')

/-- The element loop of `deepCopy`'s `Slice` case: elements of the fresh
backing array are always settable. -/
def deepCopyElems (ro : Bool) : List Value → Option (List Value)
  | [] => some []
  | it :: rest =>
      match deepCopyStored true ro it with
      | none => none
      | some it' =>
        match deepCopyElems ro rest with
        | none => none
        | some rest' => some (it' :: rest')

end

/-- The value `Simplify` works on after `copy = deepCopy(copy, copyValue)`:
the top-level call's *return* value, which for a non-nil pointer is the
freshly allocated pointer. -/
def deepCopyRet : Value → Option Value
  | vptr none => some (vptr none)
  | vptr (some t) => (deepCopyStored true false t).map (fun c => vptr (some c))
  | v => deepCopyStored true false v

/-! ## `applyRules` (the traversal engine)

`simplifierImpl.applyRules(parent, value, valueKey)` mutates the clone in
place.  The functional model returns the updated value together with the
updated heap; writes that Go would reject (`CanSet` false) are guarded by
the settability flag `s`, so the returned value differs from the input only
where Go would actually have mutated shared storage (pointer targets, slice
backing arrays, heap maps), which is exactly what makes writing the result
back equivalent to Go's in-place mutation.

Settability facts used (from package reflect): the `Elem` of a non-nil
pointer is settable; slice elements are always settable (they live in the
backing array) even when the slice value itself was read from an
unaddressable struct; a value read out of a map by `MapIndex` is not
settable; a field of a struct is settable iff the struct is.

`removeRuler.applyRules` is inlined at each call site: with a struct parent
it zeroes the value if settable; with a map parent it deletes the key. -/

/-- A value of the compiled-entry map is structurally smaller than the map. -/
theorem sizeOf_alook {ps : List (String × Ruler)} {k : String} {sub : Ruler}
    (h : alook ps k = some sub) : sizeOf sub < sizeOf ps := by
  induction ps with
  | nil => simp [alook] at h
  | cons p rest ih =>
      simp only [alook] at h
      split at h
      · cases h; obtain ⟨a, b⟩ := p; simp_arith
      · have := ih h; obtain ⟨a, b⟩ := p; simp_arith; omega

mutual

/-- `simplifierImpl.applyRules` with `propertySimplifiers = ps` on `value`
(with its settability `s`): the nil-pointer check, the single pointer
dereference (the `Elem` of a pointer is settable), then the kind switch. -/
def applyImpl (ps : List (String × Ruler)) (h : Heap) (s : Bool) (v : Value) :
    Heap × Value :=
  match v with
  | vptr none => (h, vptr none)
  | vptr (some t) =>
      let r := applyValue ps h true t
      (r.1, vptr (some r.2))
  | w => applyValue ps h s w
termination_by (sizeOf ps, sizeOf v, 2)
decreasing_by
  all_goals simp_wf
  all_goals
    first
    | (apply Prod.Lex.left; simp_arith; done)
    | (apply Prod.Lex.left; have hs := sizeOf_alook halook; simp_arith at hs ⊢; omega)
    | (apply Prod.Lex.right; apply Prod.Lex.left; simp_arith; done)
    | (apply Prod.Lex.right; apply Prod.Lex.left; omega)
    | (apply Prod.Lex.right; apply Prod.Lex.right; simp_arith; done)
    | (apply Prod.Lex.right; apply Prod.Lex.right; omega)

/-- The kind switch of `applyRules`: structs and maps are processed, every
other kind (including a pointer remaining after the single deref) is inert. -/
def applyValue (ps : List (String × Ruler)) (h : Heap) (s : Bool) (v : Value) :
    Heap × Value :=
  match v with
  | vstruct flds =>
      let r := applyStructFields h s flds ps
      (r.1, vstruct r.2)
  | vmap (some a) => (applyMapKeys ps h a (mkeys (hGet h a)), vmap (some a))
  | _ => (h, v)
termination_by (sizeOf ps, sizeOf v, 1)
decreasing_by
  all_goals simp_wf
  all_goals
    first
    | (apply Prod.Lex.left; simp_arith; done)
    | (apply Prod.Lex.left; have hs := sizeOf_alook halook; simp_arith at hs ⊢; omega)
    | (apply Prod.Lex.right; apply Prod.Lex.left; simp_arith; done)
    | (apply Prod.Lex.right; apply Prod.Lex.left; omega)
    | (apply Prod.Lex.right; apply Prod.Lex.right; simp_arith; done)
    | (apply Prod.Lex.right; apply Prod.Lex.right; omega)

/-- The struct case: loop over the rule entries; skip invalid or unexported
fields; a slice-kinded field is processed element-wise regardless of the
action; otherwise remove zeroes the field (if settable) and a nested
simplifier descends into it. -/
def applyStructFields (h : Heap) (s : Bool) (flds : List (String × Bool × Value)) :
    List (String × Ruler) → Heap × List (String × Bool × Value)
  | [] => (h, flds)
  | (n, sub) :: rest =>
      match fGet flds n with
      | none => applyStructFields h s flds rest
      | some (ex, fv) =>
        if ex then
          match fv with
          | vslice items =>
              let r := applySliceElems sub h items
              applyStructFields r.1 s (fSet flds n (vslice r.2)) rest
          | _ =>
            match sub with
            | Ruler.remove =>
                applyStructFields h s (if s then fSet flds n (zeroOf fv) else flds) rest
            | Ruler.impl ps' =>
                let r := applyImpl ps' h s fv
                applyStructFields r.1 s (fSet flds n r.2) rest
        else applyStructFields h s flds rest
termination_by l => (sizeOf l, 0, 0)
decreasing_by
  all_goals simp_wf
  all_goals
    first
    | (apply Prod.Lex.left; simp_arith; done)
    | (apply Prod.Lex.left; have hs := sizeOf_alook halook; simp_arith at hs ⊢; omega)
    | (apply Prod.Lex.right; apply Prod.Lex.left; simp_arith; done)
    | (apply Prod.Lex.right; apply Prod.Lex.left; omega)
    | (apply Prod.Lex.right; apply Prod.Lex.right; simp_arith; done)
    | (apply Prod.Lex.right; apply Prod.Lex.right; omega)

/-- One element of the per-element loop for a slice-kinded field: the
pointer element is dereferenced first (a nil pointer element yields an
invalid value, a no-op); the sub-ruler then acts on the element with the
struct as parent, so a remove action zeroes the element (slice elements are
always settable). -/
def applySliceElem1 (sub : Ruler) (h : Heap) (it : Value) : Heap × Value :=
  match it with
  | vptr none => (h, it)
  | vptr (some t) =>
    match sub with
    | Ruler.remove => (h, vptr (some (zeroOf t)))
    | Ruler.impl ps' =>
        let r := applyImpl ps' h true t
        (r.1, vptr (some r.2))
  | _ =>
    match sub with
    | Ruler.remove => (h, zeroOf it)
    | Ruler.impl ps' => applyImpl ps' h true it
termination_by (sizeOf sub, sizeOf it, 1)
decreasing_by
  all_goals simp_wf
  all_goals
    first
    | (apply Prod.Lex.left; simp_arith; done)
    | (apply Prod.Lex.left; have hs := sizeOf_alook halook; simp_arith at hs ⊢; omega)
    | (apply Prod.Lex.right; apply Prod.Lex.left; simp_arith; done)
    | (apply Prod.Lex.right; apply Prod.Lex.left; omega)
    | (apply Prod.Lex.right; apply Prod.Lex.right; simp_arith; done)
    | (apply Prod.Lex.right; apply Prod.Lex.right; omega)

/-- The per-element loop for a slice-kinded field. -/
def applySliceElems (sub : Ruler) (h : Heap) : List Value → Heap × List Value
  | [] => (h, [])
  | it :: rest =>
      let r1 := applySliceElem1 sub h it
      let r2 := applySliceElems sub r1.1 rest
      (r2.1, r1.2 :: r2.2)
termination_by items => (sizeOf sub, sizeOf items, 2)
decreasing_by
  all_goals simp_wf
  all_goals
    first
    | (apply Prod.Lex.left; simp_arith; done)
    | (apply Prod.Lex.left; have hs := sizeOf_alook halook; simp_arith at hs ⊢; omega)
    | (apply Prod.Lex.right; apply Prod.Lex.left; simp_arith; done)
    | (apply Prod.Lex.right; apply Prod.Lex.left; omega)
    | (apply Prod.Lex.right; apply Prod.Lex.right; simp_arith; done)
    | (apply Prod.Lex.right; apply Prod.Lex.right; omega)

/-- The map case: loop over the snapshot of the keys; keys with no rule are
skipped; a nil-pointer entry value is skipped; remove deletes the entry from
the (shared) map; a nested simplifier descends into the entry's value — not
settable unless reached through a pointer — and the processed value is
written back, which models Go's in-place mutation of the shared parts. -/
def applyMapKeys (ps : List (String × Ruler)) (h : Heap) (a : Nat) :
    List String → Heap
  | [] => h
  | k :: rest =>
      let h' : Heap :=
        match halook : alook ps k with
        | none => h
        | some sub =>
          match alook (hGet h a) k with
          | none =>
            match sub with
            | Ruler.remove => hSet h a (mdel (hGet h a) k)
            | Ruler.impl _ => h
          | some u =>
            match u with
            | vptr none => h
            | vptr (some t) =>
              match sub with
              | Ruler.remove => hSet h a (mdel (hGet h a) k)
              | Ruler.impl ps' =>
                  let r := applyImpl ps' h true t
                  hSet r.1 a (mupd (hGet r.1 a) k (vptr (some r.2)))
            | _ =>
              match sub with
              | Ruler.remove => hSet h a (mdel (hGet h a) k)
              | Ruler.impl ps' =>
                  let r := applyImpl ps' h false u
                  hSet r.1 a (mupd (hGet r.1 a) k r.2)
      applyMapKeys ps h' a rest
termination_by keys => (sizeOf ps, 0, sizeOf keys)
decreasing_by
  all_goals simp_wf
  all_goals
    first
    | (apply Prod.Lex.left; simp_arith; done)
    | (apply Prod.Lex.left; have hs := sizeOf_alook halook; simp_arith at hs ⊢; omega)
    | (apply Prod.Lex.right; apply Prod.Lex.left; simp_arith; done)
    | (apply Prod.Lex.right; apply Prod.Lex.left; omega)
    | (apply Prod.Lex.right; apply Prod.Lex.right; simp_arith; done)
    | (apply Prod.Lex.right; apply Prod.Lex.right; omega)

end

/-- `simplifierImpl.Simplify`: deep-copy the original, apply the rules to
the copy, and return it together with the always-nil error.  `none` is a
reflect panic escaping from `deepCopy`. -/
def simplifyGo (ps : List (String × Ruler)) (h : Heap) (v : Value) :
    Option (Heap × Value × Option String) :=
  (deepCopyRet v).map (fun c =>
    let r := applyImpl ps h true c
    (r.1, r.2, none))

/-- One iteration of the map-key loop of `applyRules`, as a plain function
(the loop body of the `Map` case, for a single key `k`). -/
def mapStep (ps : List (String × Ruler)) (h : Heap) (a : Nat) (k : String) : Heap :=
  match alook ps k with
  | none => h
  | some sub =>
    match alook (hGet h a) k with
    | none =>
      match sub with
      | Ruler.remove => hSet h a (mdel (hGet h a) k)
      | Ruler.impl _ => h
    | some u =>
      match u with
      | vptr none => h
      | vptr (some t) =>
        match sub with
        | Ruler.remove => hSet h a (mdel (hGet h a) k)
        | Ruler.impl ps' =>
            let r := applyImpl ps' h true t
            hSet r.1 a (mupd (hGet r.1 a) k (vptr (some r.2)))
      | _ =>
        match sub with
        | Ruler.remove => hSet h a (mdel (hGet h a) k)
        | Ruler.impl ps' =>
            let r := applyImpl ps' h false u
            hSet r.1 a (mupd (hGet r.1 a) k r.2)

theorem applyMapKeys_nil (ps : List (String × Ruler)) (h : Heap) (a : Nat) :
    applyMapKeys ps h a [] = h := by rw [applyMapKeys]

theorem applyMapKeys_cons (ps : List (String × Ruler)) (h : Heap) (a : Nat)
    (k : String) (rest : List String) :
    applyMapKeys ps h a (k :: rest) = applyMapKeys ps (mapStep ps h a k) a rest := by
  rw [applyMapKeys]
  congr 1
  unfold mapStep
  split
  · rename_i heq
    rw [heq]
  · rename_i sub heq
    simp only [heq]
    cases hu : alook (hGet h a) k with
    | none => cases sub <;> rfl
    | some u =>
        cases u with
        | vptr o =>
            cases o with
            | none => rfl
            | some t => cases sub <;> rfl
        | vint a0 => cases sub <;> rfl
        | vstr a0 => cases sub <;> rfl
        | vbool a0 => cases sub <;> rfl
        | vstruct a0 => cases sub <;> rfl
        | vslice a0 => cases sub <;> rfl
        | vmap a0 => cases sub <;> rfl

theorem applyValue_vstruct (ps : List (String × Ruler)) (h : Heap) (s : Bool)
    (flds : List (String × Bool × Value)) :
    applyValue ps h s (vstruct flds)
      = ((applyStructFields h s flds ps).1, vstruct (applyStructFields h s flds ps).2) := by
  rw [applyValue]

theorem applyValue_vmap_some (ps : List (String × Ruler)) (h : Heap) (s : Bool) (a : Nat) :
    applyValue ps h s (vmap (some a))
      = (applyMapKeys ps h a (mkeys (hGet h a)), vmap (some a)) := by
  rw [applyValue]

/-- Every kind other than struct and (non-nil) map is inert for the switch. -/
theorem applyValue_inert (ps : List (String × Ruler)) (h : Heap) (s : Bool) (v : Value)
    (hst : ∀ flds, v ≠ vstruct flds) (hmp : ∀ a, v ≠ vmap (some a)) :
    applyValue ps h s v = (h, v) := by
  cases v with
  | vstruct flds => exact absurd rfl (hst flds)
  | vmap o =>
      cases o with
      | none => simp [applyValue]
      | some a => exact absurd rfl (hmp a)
  | vint a => simp [applyValue]
  | vstr a => simp [applyValue]
  | vbool a => simp [applyValue]
  | vslice a => simp [applyValue]
  | vptr o => simp [applyValue]

theorem applyImpl_vptr_none (ps : List (String × Ruler)) (h : Heap) (s : Bool) :
    applyImpl ps h s (vptr none) = (h, vptr none) := by rw [applyImpl]

theorem applyImpl_vptr_some (ps : List (String × Ruler)) (h : Heap) (s : Bool) (t : Value) :
    applyImpl ps h s (vptr (some t))
      = ((applyValue ps h true t).1, vptr (some (applyValue ps h true t).2)) := by
  rw [applyImpl]

theorem applyImpl_notptr (ps : List (String × Ruler)) (h : Heap) (s : Bool) (v : Value)
    (hv : ∀ o, v ≠ vptr o) : applyImpl ps h s v = applyValue ps h s v := by
  cases v with
  | vptr o => exact absurd rfl (hv o)
  | vint a => simp [applyImpl]
  | vstr a => simp [applyImpl]
  | vbool a => simp [applyImpl]
  | vstruct a => simp [applyImpl]
  | vslice a => simp [applyImpl]
  | vmap a => simp [applyImpl]

/-! ## Association-list lemmas -/

theorem alook_append {α : Type} (l1 l2 : List (String × α)) (k : String) :
    alook (l1 ++ l2) k = ((alook l1 k).rec (alook l2 k) some : Option α) := by
  induction l1 with
  | nil => simp [alook]
  | cons p rest ih => by_cases hp : p.1 = k <;> simp [alook, hp, ih]

theorem alook_mupd_self {α : Type} (m : List (String × α)) (k : String) (v : α) :
    alook (mupd m k v) k = (alook m k).map (fun _ => v) := by
  induction m with
  | nil => rfl
  | cons p rest ih =>
      by_cases hp : p.1 = k
      · simp [mupd, alook, hp]
      · rw [show mupd (p :: rest) k v = p :: mupd rest k v from by simp [mupd, hp]]
        simp only [alook, if_neg hp]
        exact ih

theorem alook_mupd_ne {α : Type} (m : List (String × α)) {k k' : String} (v : α)
    (hne : k' ≠ k) : alook (mupd m k v) k' = alook m k' := by
  induction m with
  | nil => rfl
  | cons p rest ih =>
      by_cases hp : p.1 = k
      · have hp' : ¬ p.1 = k' := by rw [hp]; exact fun hx => hne hx.symm
        rw [show mupd (p :: rest) k v = (p.1, v) :: rest from by simp [mupd, hp]]
        simp only [alook, if_neg hp']
      · rw [show mupd (p :: rest) k v = p :: mupd rest k v from by simp [mupd, hp]]
        simp only [alook]
        by_cases hp' : p.1 = k'
        · simp only [if_pos hp']
        · simp only [if_neg hp']
          exact ih

theorem alook_none_of_not_any {α : Type} {m : List (String × α)} {k : String}
    (h : m.any (fun p => p.1 = k) = false) : alook m k = none := by
  induction m with
  | nil => rfl
  | cons p rest ih =>
      simp only [List.any_cons, Bool.or_eq_false_iff] at h
      have hp : ¬ p.1 = k := by simpa using h.1
      simp [alook, hp, ih h.2]

theorem alook_isSome_of_any {α : Type} {m : List (String × α)} {k : String}
    (h : m.any (fun p => p.1 = k) = true) : ∃ w, alook m k = some w := by
  induction m with
  | nil => simp at h
  | cons p rest ih =>
      by_cases hp : p.1 = k
      · exact ⟨p.2, by simp [alook, hp]⟩
      · simp only [List.any_cons] at h
        have : rest.any (fun p => p.1 = k) = true := by
          rcases Bool.or_eq_true_iff.mp h with h1 | h1
          · exact absurd (by simpa using h1) hp
          · exact h1
        obtain ⟨w, hw⟩ := ih this
        exact ⟨w, by simp [alook, hp, hw]⟩

theorem alook_aput_self {α : Type} (m : List (String × α)) (k : String) (v : α) :
    alook (aput m k v) k = some v := by
  unfold aput
  by_cases hany : m.any (fun p => p.1 = k)
  · obtain ⟨w, hw⟩ := alook_isSome_of_any hany
    simp [hany, alook_mupd_self, hw]
  · rw [if_neg hany, alook_append,
      alook_none_of_not_any (Bool.eq_false_iff.mpr hany)]
    simp [alook]

theorem alook_aput_ne {α : Type} (m : List (String × α)) {k k' : String} (v : α)
    (hne : k' ≠ k) : alook (aput m k v) k' = alook m k' := by
  unfold aput
  by_cases hany : m.any (fun p => p.1 = k)
  · simp [hany, alook_mupd_ne _ _ hne]
  · rw [if_neg hany, alook_append]
    have hkk : ¬ k = k' := fun hx => hne hx.symm
    have h2 : alook [(k, v)] k' = none := by simp [alook, hkk]
    cases hm : alook m k' <;> simp [hm, h2]

theorem alook_addRemoves_not_mem {rem : List String} {m : List (String × Ruler)} {n : String}
    (h : n ∉ rem) : alook (addRemoves rem m) n = alook m n := by
  induction rem generalizing m with
  | nil => rfl
  | cons k rest ih =>
      have hk : n ≠ k := fun hx => h (hx ▸ List.mem_cons_self _ _)
      have hr : n ∉ rest := fun hx => h (List.mem_cons_of_mem _ hx)
      rw [show addRemoves (k :: rest) m = addRemoves rest (aput m k Ruler.remove) from rfl,
        ih hr, alook_aput_ne _ _ hk]

theorem alook_addRemoves_mem {rem : List String} {m : List (String × Ruler)} {n : String}
    (h : n ∈ rem) : alook (addRemoves rem m) n = some Ruler.remove := by
  induction rem generalizing m with
  | nil => cases h
  | cons k rest ih =>
      by_cases hr : n ∈ rest
      · exact ih hr
      · have hk : n = k := by
          rcases List.mem_cons.mp h with h1 | h1
          · exact h1
          · exact absurd h1 hr
        subst hk
        rw [show addRemoves (n :: rest) m = addRemoves rest (aput m n Ruler.remove) from rfl,
          alook_addRemoves_not_mem hr]
        exact alook_aput_self m n Ruler.remove

/-! ## Exported-only values and the content of the clone -/

mutual

/-- Every struct field reachable outside of maps is exported. -/
def allExportedB : Value → Bool
  | vstruct flds => allExportedFieldsB flds
  | vslice items => allExportedElemsB items
  | vptr (some t) => allExportedB t
  | _ => true

def allExportedFieldsB : List (String × Bool × Value) → Bool
  | [] => true
  | (_, ex, fv) :: rest => ex && (allExportedB fv && allExportedFieldsB rest)

def allExportedElemsB : List Value → Bool
  | [] => true
  | it :: rest => allExportedB it && allExportedElemsB rest

end

mutual

/-- Specification-side description of the content `deepCopy` leaves in a
destination: identical to the source except that every pointer (the copy of
whose target is allocated and then discarded) collapses to nil; map
references are carried over unchanged (aliased). -/
def cleanStored : Value → Value
  | vptr _ => vptr none
  | vstruct flds => vstruct (cleanFields flds)
  | vslice items => vslice (cleanElems items)
  | v => v

def cleanFields : List (String × Bool × Value) → List (String × Bool × Value)
  | [] => []
  | (n, ex, fv) :: rest => (n, ex, cleanStored fv) :: cleanFields rest

def cleanElems : List Value → List Value
  | [] => []
  | it :: rest => cleanStored it :: cleanElems rest

end

/-- Specification-side description of the value `Simplify` hands to
`applyRules`: a top-level non-nil pointer is preserved (its freshly
allocated target holding the stored content), everything else is the stored
content. -/
def cleanTop : Value → Value
  | vptr none => vptr none
  | vptr (some t) => vptr (some (cleanStored t))
  | v => cleanStored v

mutual

theorem deepCopyStored_clean :
    ∀ v : Value, allExportedB v = true →
      deepCopyStored true false v = some (cleanStored v) := by
  intro v hx
  cases v with
  | vptr o =>
      cases o with
      | none => rfl
      | some t =>
          have ht : allExportedB t = true := by simpa [allExportedB] using hx
          simp [deepCopyStored, cleanStored, deepCopyStored_clean t ht]
  | vstruct flds =>
      have hf := deepCopyFields_clean flds (by simpa [allExportedB] using hx)
      simp [deepCopyStored, cleanStored, hf]
  | vslice items =>
      have he := deepCopyElems_clean items (by simpa [allExportedB] using hx)
      simp [deepCopyStored, cleanStored, he]
  | vint a => rfl
  | vstr a => rfl
  | vbool a => rfl
  | vmap a => rfl

theorem deepCopyFields_clean :
    ∀ flds : List (String × Bool × Value), allExportedFieldsB flds = true →
      deepCopyFields false flds = some (cleanFields flds) := by
  intro flds hx
  cases flds with
  | nil => rfl
  | cons f rest =>
      obtain ⟨n, ex, fv⟩ := f
      simp only [allExportedFieldsB, Bool.and_eq_true] at hx
      have hex := hx.1
      have hfv := hx.2.1
      have hrest := hx.2.2
      subst hex
      have h1 := deepCopyStored_clean fv hfv
      have h2 := deepCopyFields_clean rest hrest
      simp [deepCopyFields, cleanFields, h1, h2]

theorem deepCopyElems_clean :
    ∀ items : List Value, allExportedElemsB items = true →
      deepCopyElems false items = some (cleanElems items) := by
  intro items hx
  cases items with
  | nil => rfl
  | cons it rest =>
      simp only [allExportedElemsB, Bool.and_eq_true] at hx
      have h1 := deepCopyStored_clean it hx.1
      have h2 := deepCopyElems_clean rest hx.2
      simp [deepCopyElems, cleanElems, h1, h2]

end

/-! ## Claim C7: removal wins over a same-named descend entry -/

/-- **C7**: When a name appears both in `remove_properties` and as a
`property_simplifiers` key at one level, compilation registers the terminal
remove action for it: the loop over `RemoveProperties` runs after the loop
over `PropertySimplifiers` and overwrites the map entry, so the remove
action deterministically takes precedence, independently of map iteration
order. -/
theorem c7_removal_wins (r : Rule) (n : String) (h : n ∈ r.removeProperties) :
    alook (createPropertySimplifiers r) n = some Ruler.remove := by
  obtain ⟨rem, ps⟩ := r
  exact alook_addRemoves_mem h

/-- Witness for C7 at a rule declaring `a` both for removal and descent. -/
theorem c7_removal_wins_witness :
    "a" ∈ (Rule.mk ["a"] [("a", Rule.mk [] [])]).removeProperties ∧
      alook (createPropertySimplifiers (Rule.mk ["a"] [("a", Rule.mk [] [])])) "a"
        = some Ruler.remove :=
  ⟨by decide, c7_removal_wins (Rule.mk ["a"] [("a", Rule.mk [] [])]) "a" (by decide)⟩

/-! ## Claim C9: `deepCopy` on a struct with an unexported field -/

/-- **C9**: The claim says the copy is visibility-bounded and total —
unexported fields are skipped and the copy never panics.  The gosimplifier
`deepCopy` has no `CanInterface` guard: on a struct with an unexported `int`
field the default branch executes `copy.Set(original)` with a read-only
source and an unsettable destination, which panics (`none`). -/
theorem c9_deepCopy_unexported_panics :
    deepCopyRet (vstruct [("x", false, vint 1)]) = none := by decide

/-! ## Claim C10: the error result of `Simplify` -/

/-- Whenever `Simplify` returns at all, the error it returns is nil: the
only return statement is `return copy.Interface(), nil`. -/
theorem simplifyGo_err_none {ps : List (String × Ruler)} {h : Heap} {v : Value}
    {out : Heap × Value × Option String} (hout : simplifyGo ps h v = some out) :
    out.2.2 = none := by
  unfold simplifyGo at hout
  cases hdc : deepCopyRet v with
  | none => rw [hdc] at hout; cases hout
  | some c =>
      rw [hdc] at hout
      have heq : (((applyImpl ps h true c).1, (applyImpl ps h true c).2,
          (none : Option String))) = out := Option.some.inj hout
      rw [← heq]

/-- **C10 counterexample**: the claim says `Simplify` returns a nil error
for every input value of any kind, including structs; on a struct with an
unexported field `Simplify` panics inside `deepCopy` and does not return at
all. -/
theorem c10_counterexample :
    simplifyGo [] [] (vstruct [("x", false, vint 1)]) = none := by rfl

/-- **C10 (amended)**: whenever `Simplify` returns (the deep copy does not
panic on an invisible field), its error result is nil; it never fails at
traversal time. -/
theorem c10_err_always_nil (ps : List (String × Ruler)) (h : Heap) (v : Value)
    (out : Heap × Value × Option String) (hout : simplifyGo ps h v = some out) :
    out.2.2 = none :=
  simplifyGo_err_none hout

/-- Witness for C10 (amended) at a concrete scalar input. -/
theorem c10_err_always_nil_witness :
    (([], vint 3, (none : Option String)) : Heap × Value × Option String).2.2 = none :=
  c10_err_always_nil [] [] (vint 3) ([], vint 3, none)
    (by simp [simplifyGo, deepCopyRet, deepCopyStored, applyImpl, applyValue])

/-! ## Claim C1: non-mutation of the original -/

/-- **C1** is violated by the code: `deepCopy` has no `reflect.Map` case, so
the map falls into the default `copy.Set(original)` branch and the clone
aliases the caller's map; the remove action then deletes the entry from the
shared map.  At the failing input — the original is the map `{"a": 1}` (heap
cell 0) under the rule `{"remove_properties":["a"]}` — `Simplify` returns
the aliased map and the caller's map content has changed from `{"a": 1}` to
the empty map. -/
theorem c1_simplify_mutates_original_map :
    simplifyGo [("a", Ruler.remove)] [[("a", vint 1)]] (vmap (some 0))
      = some ([[]], vmap (some 0), none)
    ∧ hGet [[]] 0 ≠ hGet [[("a", vint 1)]] 0 := by
  refine ⟨?_, by decide⟩
  simp [simplifyGo, deepCopyRet, deepCopyStored, applyImpl, applyValue, applyMapKeys,
    hGet, hSet, mkeys, alook, mdel]

/-! ## Claim C2: the deep copy of nullable references -/

/-- **C2 counterexample**: the claim says every non-null reference anywhere,
including pointer-typed struct fields, gets a fresh copied target.  The
`Ptr` case of `deepCopy` allocates and fills a fresh target but only
*returns* it; the struct/slice loops discard the returned value, so a
non-nil pointer field comes out nil in the clone instead of a copy. -/
theorem c2_counterexample :
    deepCopyRet (vstruct [("P", true, vptr (some (vint 5)))])
      = some (vstruct [("P", true, vptr none)])
    ∧ vstruct [("P", true, vptr none)] ≠ vstruct [("P", true, vptr (some (vint 5)))] := by
  exact ⟨by decide, by decide⟩

/-- **C2 (amended)**: nil references stay nil, and a *top-level* non-nil
reference is copied into a freshly allocated target; but every non-nil
reference nested inside a struct field, slice element or pointer target is
reset to nil in the clone (so in particular the clone's references alias
nothing).  On exported-only values the clone is exactly `cleanTop`. -/
theorem c2_clone_content (v : Value) (hx : allExportedB v = true) :
    deepCopyRet v = some (cleanTop v) := by
  cases v with
  | vptr o =>
      cases o with
      | none => rfl
      | some t =>
          have ht : allExportedB t = true := by simpa [allExportedB] using hx
          simp [deepCopyRet, cleanTop, deepCopyStored_clean t ht]
  | vint a => exact deepCopyStored_clean _ hx
  | vstr a => exact deepCopyStored_clean _ hx
  | vbool a => exact deepCopyStored_clean _ hx
  | vmap a => exact deepCopyStored_clean _ hx
  | vstruct flds => exact deepCopyStored_clean _ hx
  | vslice items => exact deepCopyStored_clean _ hx

/-- Witness for C2 (amended) at a pointer to a struct that itself has a
pointer field. -/
theorem c2_clone_content_witness :
    allExportedB (vptr (some (vstruct [("P", true, vptr (some (vint 5)))]))) = true ∧
      deepCopyRet (vptr (some (vstruct [("P", true, vptr (some (vint 5)))])))
        = some (cleanTop (vptr (some (vstruct [("P", true, vptr (some (vint 5)))])))) :=
  ⟨by decide, c2_clone_content _ (by decide)⟩

/-! ## Claim C5: the merge of rule trees -/

/-- Unique keys in an association list (a Go map cannot hold duplicates). -/
def keysDistinct : List (String × Rule) → Bool
  | [] => true
  | p :: rest => (alook rest p.1).isNone && keysDistinct rest

mutual

/-- Well-formedness of a parsed rule tree: the `property_simplifiers` keys
at every level are distinct, as Go map keys are. -/
def ruleWFB : Rule → Bool
  | .mk _ ps => keysDistinct ps && childrenWFB ps

def childrenWFB : List (String × Rule) → Bool
  | [] => true
  | p :: rest => ruleWFB p.2 && childrenWFB rest

end

/-- The set of names removed at the scope reached by following `path`
through the nested `property_simplifiers`; empty for an absent scope. -/
def removeNames (r : Rule) : List String → List String
  | [] => r.removeProperties
  | k :: path =>
      match alook r.propertySimplifiers k with
      | none => []
      | some c => removeNames c path

theorem containsStr_iff {s : List String} {x : String} :
    containsStr s x = true ↔ x ∈ s := by
  induction s with
  | nil => simp [containsStr]
  | cons a rest ih =>
      simp [containsStr, List.any_cons] at ih ⊢
      constructor
      · rintro (h | h)
        · exact Or.inl h.symm
        · exact Or.inr (by simpa [containsStr] using h)
      · rintro (h | h)
        · exact Or.inl h.symm
        · exact Or.inr (by simpa [containsStr] using h)

theorem mergeRem_mem {acc l : List String} {n : String} :
    n ∈ mergeRem acc l ↔ n ∈ acc ∨ n ∈ l := by
  induction l generalizing acc with
  | nil => simp [mergeRem]
  | cons p rest ih =>
      rw [show mergeRem acc (p :: rest)
            = mergeRem (if containsStr acc p then acc else acc ++ [p]) rest from rfl, ih]
      by_cases hc : containsStr acc p = true
      · rw [if_pos hc]
        have hp : p ∈ acc := containsStr_iff.mp hc
        simp only [List.mem_cons]
        constructor
        · rintro (h | h)
          · exact Or.inl h
          · exact Or.inr (Or.inr h)
        · rintro (h | h | h)
          · exact Or.inl h
          · exact Or.inl (h ▸ hp)
          · exact Or.inr h
      · rw [if_neg hc]
        simp only [List.mem_append, List.mem_singleton, List.mem_cons]
        tauto

theorem alook_none_iff {α : Type} {m : List (String × α)} {k : String} :
    alook m k = none ↔ ∀ p ∈ m, p.1 ≠ k := by
  induction m with
  | nil => simp [alook]
  | cons p rest ih =>
      by_cases hp : p.1 = k <;> simp [alook, hp, ih]

/-- `mupd` does not change which keys are present. -/
theorem alook_isNone_mupd {α : Type} (m : List (String × α)) (k k' : String) (v : α) :
    (alook (mupd m k v) k').isNone = (alook m k').isNone := by
  by_cases hk : k' = k
  · subst hk; rw [alook_mupd_self]; cases alook m k' <;> rfl
  · rw [alook_mupd_ne _ _ hk]

theorem keysDistinct_mupd {m : List (String × Rule)} (k : String) (v : Rule)
    (h : keysDistinct m = true) : keysDistinct (mupd m k v) = true := by
  induction m with
  | nil => rfl
  | cons p rest ih =>
      simp only [keysDistinct, Bool.and_eq_true] at h
      by_cases hp : p.1 = k
      · rw [show mupd (p :: rest) k v = (p.1, v) :: rest from by simp [mupd, hp]]
        simp only [keysDistinct, Bool.and_eq_true]
        exact ⟨h.1, h.2⟩
      · rw [show mupd (p :: rest) k v = p :: mupd rest k v from by simp [mupd, hp]]
        simp only [keysDistinct, Bool.and_eq_true]
        refine ⟨?_, ih h.2⟩
        rw [alook_isNone_mupd]
        exact h.1

theorem keysDistinct_append {m : List (String × Rule)} {k : String} (v : Rule)
    (hd : keysDistinct m = true) (hn : alook m k = none) :
    keysDistinct (m ++ [(k, v)]) = true := by
  induction m with
  | nil => simp [keysDistinct, alook]
  | cons p rest ih =>
      simp only [keysDistinct, Bool.and_eq_true] at hd
      simp only [alook] at hn
      by_cases hp : p.1 = k
      · rw [if_pos hp] at hn; cases hn
      · rw [if_neg hp] at hn
        rw [show (p :: rest) ++ [(k, v)] = p :: (rest ++ [(k, v)]) from rfl]
        simp only [keysDistinct, Bool.and_eq_true]
        refine ⟨?_, ih hd.2 hn⟩
        rw [alook_append]
        have h1 : alook rest p.1 = none := by
          cases hx : alook rest p.1
          · rfl
          · rw [hx] at hd; simp at hd
        rw [h1]
        have h2 : alook [(k, v)] p.1 = none := by
          simp only [alook]
          rw [if_neg (fun hx => hp hx.symm)]
        rw [h2]
        rfl

theorem childrenWFB_alook {m : List (String × Rule)} {k : String} {r : Rule}
    (hw : childrenWFB m = true) (hl : alook m k = some r) : ruleWFB r = true := by
  induction m with
  | nil => cases hl
  | cons p rest ih =>
      simp only [childrenWFB, Bool.and_eq_true] at hw
      simp only [alook] at hl
      by_cases hp : p.1 = k
      · rw [if_pos hp] at hl; cases hl; exact hw.1
      · rw [if_neg hp] at hl; exact ih hw.2 hl

/-- The central merge-lookup law: with distinct keys on the extension side,
the merged child map at any key is the recursive merge when both sides have
the key, and the surviving side's entry when only one does. -/
theorem alook_mergeChildren (m1 : List (String × Rule)) (m2 : List (String × Rule))
    (k : String) (hd : keysDistinct m2 = true) :
    alook (mergeChildren m1 m2) k =
      match alook m1 k, alook m2 k with
      | some a, some b => some (mergeRules a b)
      | some a, none => some a
      | none, some b => some b
      | none, none => none := by
  induction m2 generalizing m1 with
  | nil =>
      show alook m1 k = _
      simp only [alook]
      cases alook m1 k <;> rfl
  | cons p rest ih =>
      obtain ⟨k0, v⟩ := p
      simp only [keysDistinct, Bool.and_eq_true] at hd
      have hrest := hd.2
      rw [show mergeChildren m1 ((k0, v) :: rest)
            = mergeChildren
                (match alook m1 k0 with
                  | some old => mupd m1 k0 (mergeRules old v)
                  | none => m1 ++ [(k0, v)]) rest from rfl,
        ih _ hrest]
      by_cases hk : k = k0
      · subst hk
        have hnr : alook rest k = none := by
          cases hx : alook rest k
          · rfl
          · rw [hx] at hd; cases hd.1
        rw [hnr]
        cases h1 : alook m1 k with
        | some old =>
            rw [alook_mupd_self, h1]
            simp [alook]
        | none =>
            rw [alook_append, h1]
            simp [alook]
      · have hb : alook ((k0, v) :: rest) k = alook rest k := by
          simp only [alook]
          rw [if_neg (fun hx => hk hx.symm)]
        rw [hb]
        cases h1 : alook m1 k0 with
        | some old =>
            rw [alook_mupd_ne _ _ hk]
        | none =>
            rw [alook_append]
            have h2 : alook [(k0, v)] k = none := by
              simp only [alook]
              rw [if_neg (fun hx => hk hx.symm)]
            rw [h2]
            cases hx : alook m1 k <;> rfl

theorem childrenWFB_mupd {m : List (String × Rule)} {k : String} {v : Rule}
    (hw : childrenWFB m = true) (hv : ruleWFB v = true) :
    childrenWFB (mupd m k v) = true := by
  induction m with
  | nil => rfl
  | cons p rest ih =>
      simp only [childrenWFB, Bool.and_eq_true] at hw
      by_cases hp : p.1 = k
      · rw [show mupd (p :: rest) k v = (p.1, v) :: rest from by simp [mupd, hp]]
        simp only [childrenWFB, Bool.and_eq_true]
        exact ⟨hv, hw.2⟩
      · rw [show mupd (p :: rest) k v = p :: mupd rest k v from by simp [mupd, hp]]
        simp only [childrenWFB, Bool.and_eq_true]
        exact ⟨hw.1, ih hw.2⟩

theorem childrenWFB_append {m : List (String × Rule)} {k : String} {v : Rule}
    (hw : childrenWFB m = true) (hv : ruleWFB v = true) :
    childrenWFB (m ++ [(k, v)]) = true := by
  induction m with
  | nil => simp [childrenWFB, hv]
  | cons p rest ih =>
      simp only [childrenWFB, Bool.and_eq_true] at hw
      simp only [List.cons_append, childrenWFB, Bool.and_eq_true]
      exact ⟨hw.1, ih hw.2⟩

mutual

/-- Merging preserves rule-tree well-formedness. -/
theorem ruleWFB_merge : ∀ A B : Rule, ruleWFB A = true → ruleWFB B = true →
    ruleWFB (mergeRules A B) = true := by
  intro A B hA hB
  obtain ⟨rem1, ps1⟩ := A
  obtain ⟨rem2, ps2⟩ := B
  simp only [ruleWFB, Bool.and_eq_true] at hA hB
  have h := childrenWFB_mergeChildren ps1 ps2 hA.1 hA.2 hB.1 hB.2
  simp only [mergeRules, ruleWFB, Rule.propertySimplifiers, Bool.and_eq_true]
  exact ⟨h.1, h.2⟩

theorem childrenWFB_mergeChildren : ∀ (m1 m2 : List (String × Rule)),
    keysDistinct m1 = true → childrenWFB m1 = true →
    keysDistinct m2 = true → childrenWFB m2 = true →
    keysDistinct (mergeChildren m1 m2) = true
      ∧ childrenWFB (mergeChildren m1 m2) = true := by
  intro m1 m2 hd1 hw1 hd2 hw2
  cases m2 with
  | nil => exact ⟨hd1, hw1⟩
  | cons p rest =>
      obtain ⟨k0, v⟩ := p
      simp only [keysDistinct, childrenWFB, Bool.and_eq_true] at hd2 hw2
      rw [show mergeChildren m1 ((k0, v) :: rest)
            = mergeChildren
                (match alook m1 k0 with
                  | some old => mupd m1 k0 (mergeRules old v)
                  | none => m1 ++ [(k0, v)]) rest from rfl]
      cases h1 : alook m1 k0 with
      | some old =>
          have hold : ruleWFB old = true := childrenWFB_alook hw1 h1
          have hm : ruleWFB (mergeRules old v) = true := ruleWFB_merge old v hold hw2.1
          exact childrenWFB_mergeChildren _ rest (keysDistinct_mupd k0 _ hd1)
            (childrenWFB_mupd hw1 hm) hd2.2 hw2.2
      | none =>
          exact childrenWFB_mergeChildren _ rest (keysDistinct_append v hd1 h1)
            (childrenWFB_append hw1 hw2.1) hd2.2 hw2.2

end

/-- The union law at every scope, by induction on the path. -/
theorem removeNames_merge {A B : Rule} (hB : ruleWFB B = true)
    (path : List String) (n : String) :
    n ∈ removeNames (mergeRules A B) path ↔
      n ∈ removeNames A path ∨ n ∈ removeNames B path := by
  induction path generalizing A B with
  | nil =>
      obtain ⟨rem1, ps1⟩ := A
      obtain ⟨rem2, ps2⟩ := B
      simpa [mergeRules, removeNames, Rule.removeProperties] using mergeRem_mem
  | cons k path ih =>
      obtain ⟨rem1, ps1⟩ := A
      obtain ⟨rem2, ps2⟩ := B
      simp only [ruleWFB, Bool.and_eq_true] at hB
      simp only [removeNames, mergeRules, Rule.propertySimplifiers]
      rw [alook_mergeChildren ps1 ps2 k hB.1]
      cases h1 : alook ps1 k with
      | some a =>
          cases h2 : alook ps2 k with
          | some b =>
              have hb : ruleWFB b = true := childrenWFB_alook hB.2 h2
              exact ih hb
          | none => simp
      | none =>
          cases h2 : alook ps2 k with
          | some b => simp
          | none => simp

/-- **C5**: `mergeRules` is pure (the model is functional; the Go code
copies the slice and map before appending, so neither argument is written).
At every scope the removal-name set of the merge is the union of the two
sides' removal-name sets, and with respect to those removal sets merge is
associative and commutative.  Well-formedness (`ruleWFB`) states that the
`property_simplifiers` keys are distinct, which is automatic for a Go map. -/
theorem c5_merge_union_assoc_comm :
    (∀ (A B : Rule) (path : List String) (n : String), ruleWFB B = true →
        (n ∈ removeNames (mergeRules A B) path ↔
          n ∈ removeNames A path ∨ n ∈ removeNames B path))
    ∧ (∀ (A B C : Rule) (path : List String) (n : String),
        ruleWFB B = true → ruleWFB C = true →
        (n ∈ removeNames (mergeRules (mergeRules A B) C) path ↔
          n ∈ removeNames (mergeRules A (mergeRules B C)) path))
    ∧ (∀ (A B : Rule) (path : List String) (n : String),
        ruleWFB A = true → ruleWFB B = true →
        (n ∈ removeNames (mergeRules A B) path ↔
          n ∈ removeNames (mergeRules B A) path)) := by
  refine ⟨fun A B path n hB => removeNames_merge hB path n, ?_, ?_⟩
  · intro A B C path n hB hC
    rw [removeNames_merge hC path n, removeNames_merge hB path n,
      removeNames_merge (ruleWFB_merge B C hB hC) path n,
      removeNames_merge hC path n, or_assoc]
  · intro A B path n hA hB
    rw [removeNames_merge hB path n, removeNames_merge hA path n, or_comm]

/-- Witness for C5 at two concrete two-level rule trees sharing the child
scope `c`. -/
theorem c5_merge_union_assoc_comm_witness :
    (ruleWFB (Rule.mk ["z"] [("c", Rule.mk ["w"] [])]) = true →
      ("w" ∈ removeNames
          (mergeRules (Rule.mk ["x"] [("c", Rule.mk ["y"] [])])
            (Rule.mk ["z"] [("c", Rule.mk ["w"] [])])) ["c"] ↔
        "w" ∈ removeNames (Rule.mk ["x"] [("c", Rule.mk ["y"] [])]) ["c"]
          ∨ "w" ∈ removeNames (Rule.mk ["z"] [("c", Rule.mk ["w"] [])]) ["c"])) ∧
    ruleWFB (Rule.mk ["z"] [("c", Rule.mk ["w"] [])]) = true :=
  ⟨fun h => c5_merge_union_assoc_comm.1
      (Rule.mk ["x"] [("c", Rule.mk ["y"] [])])
      (Rule.mk ["z"] [("c", Rule.mk ["w"] [])]) ["c"] "w" h,
   by decide⟩

/-! ## Claim C6: unknown names are silently ignored -/

/-- Looking a key up past an entry whose key differs. -/
theorem alook_append_middle {α : Type} (l1 l2 : List (String × α)) (n : String) (x : α)
    {k : String} (hk : k ≠ n) :
    alook (l1 ++ (n, x) :: l2) k = alook (l1 ++ l2) k := by
  induction l1 with
  | nil =>
      simp only [List.nil_append, alook]
      rw [if_neg (fun hx => hk hx.symm)]
  | cons p rest ih =>
      simp only [List.cons_append, alook, List.append_eq]
      rw [ih]

/-- `fSet` does not change which field names are present. -/
theorem fGet_fSet_isNone (flds : List (String × Bool × Value)) (m n : String) (u : Value) :
    (fGet (fSet flds m u) n).isNone = (fGet flds n).isNone := by
  induction flds with
  | nil => rfl
  | cons f rest ih =>
      by_cases hf : f.1 = m
      · rw [show fSet (f :: rest) m u = (f.1, f.2.1, u) :: rest from by simp [fSet, hf]]
        simp only [fGet]
        by_cases hn : f.1 = n
        · rw [if_pos hn, if_pos hn]
          rfl
        · rw [if_neg hn, if_neg hn]
      · rw [show fSet (f :: rest) m u = f :: fSet rest m u from by simp [fSet, hf]]
        simp only [fGet]
        by_cases hn : f.1 = n
        · rw [if_pos hn, if_pos hn]
        · rw [if_neg hn, if_neg hn]
          exact ih

/-- The deep copy preserves which field names are present. -/
theorem fGet_isNone_deepCopyFields {ro : Bool} {flds flds' : List (String × Bool × Value)}
    (hc : deepCopyFields ro flds = some flds') (n : String) :
    (fGet flds' n).isNone = (fGet flds n).isNone := by
  induction flds generalizing flds' with
  | nil =>
      simp only [deepCopyFields, Option.some_inj] at hc
      rw [← hc]
  | cons f rest ih =>
      obtain ⟨m, ex, fv⟩ := f
      simp only [deepCopyFields] at hc
      cases h1 : deepCopyStored ex (ro || !ex) fv with
      | none => rw [h1] at hc; cases hc
      | some fv' =>
          rw [h1] at hc
          cases h2 : deepCopyFields ro rest with
          | none => rw [h2] at hc; cases hc
          | some rest' =>
              rw [h2] at hc
              simp only [Option.some_inj] at hc
              rw [← hc]
              simp only [fGet]
              by_cases hm : m = n
              · rw [if_pos hm, if_pos hm]
                rfl
              · rw [if_neg hm, if_neg hm]
                exact ih h2

/-- Whether the name `n` is absent at the scope `applyRules` dispatches on
(after the pointer dereference): no such struct field, or no such map key. -/
def nameAbsentCore (h : Heap) (n : String) : Value → Bool
  | vstruct flds => (fGet flds n).isNone
  | vmap (some a) => (alook (hGet h a) n).isNone
  | _ => true

/-- Absence of `n` on the value handed to `applyRules` (one pointer deref). -/
def nameAbsentB (h : Heap) (n : String) : Value → Bool
  | vptr (some t) => nameAbsentCore h n t
  | v => nameAbsentCore h n v

/-- The struct loop skips a rule entry whose name has no matching field. -/
theorem applyStructFields_skip (n : String) (sub : Ruler) :
    ∀ (ps1 ps2 : List (String × Ruler)) (h : Heap) (s : Bool)
      (flds : List (String × Bool × Value)), fGet flds n = none →
      applyStructFields h s flds (ps1 ++ (n, sub) :: ps2)
        = applyStructFields h s flds (ps1 ++ ps2) := by
  intro ps1
  induction ps1 with
  | nil =>
      intro ps2 h s flds habs
      rw [List.nil_append, List.nil_append, applyStructFields, habs]
  | cons q ps1 ih =>
      intro ps2 h s flds habs
      obtain ⟨m, su⟩ := q
      rw [List.cons_append, List.cons_append, applyStructFields, applyStructFields]
      cases hf : fGet flds m with
      | none => exact ih ps2 h s flds habs
      | some exfv =>
          obtain ⟨ex, fv⟩ := exfv
          by_cases hex : ex = true
          · subst hex
            simp only [if_true]
            have hpres : ∀ u, fGet (fSet flds m u) n = none := fun u => by
              have := fGet_fSet_isNone flds m n u
              rw [habs] at this
              exact Option.isNone_iff_eq_none.mp (by rw [this]; rfl)
            cases fv with
            | vslice items => exact ih ps2 _ s _ (hpres _)
            | vint a0 =>
                cases su with
                | remove =>
                    by_cases hs : s = true
                    · subst hs; simp only [if_true]; exact ih ps2 h true _ (hpres _)
                    · have : s = false := by
                        cases s
                        · rfl
                        · exact absurd rfl hs
                      subst this
                      simp only [Bool.false_eq_true, if_false]
                      exact ih ps2 h false flds habs
                | impl ps' => exact ih ps2 _ s _ (hpres _)
            | vstr a0 =>
                cases su with
                | remove =>
                    by_cases hs : s = true
                    · subst hs; simp only [if_true]; exact ih ps2 h true _ (hpres _)
                    · have : s = false := by
                        cases s
                        · rfl
                        · exact absurd rfl hs
                      subst this
                      simp only [Bool.false_eq_true, if_false]
                      exact ih ps2 h false flds habs
                | impl ps' => exact ih ps2 _ s _ (hpres _)
            | vbool a0 =>
                cases su with
                | remove =>
                    by_cases hs : s = true
                    · subst hs; simp only [if_true]; exact ih ps2 h true _ (hpres _)
                    · have : s = false := by
                        cases s
                        · rfl
                        · exact absurd rfl hs
                      subst this
                      simp only [Bool.false_eq_true, if_false]
                      exact ih ps2 h false flds habs
                | impl ps' => exact ih ps2 _ s _ (hpres _)
            | vstruct a0 =>
                cases su with
                | remove =>
                    by_cases hs : s = true
                    · subst hs; simp only [if_true]; exact ih ps2 h true _ (hpres _)
                    · have : s = false := by
                        cases s
                        · rfl
                        · exact absurd rfl hs
                      subst this
                      simp only [Bool.false_eq_true, if_false]
                      exact ih ps2 h false flds habs
                | impl ps' => exact ih ps2 _ s _ (hpres _)
            | vmap a0 =>
                cases su with
                | remove =>
                    by_cases hs : s = true
                    · subst hs; simp only [if_true]; exact ih ps2 h true _ (hpres _)
                    · have : s = false := by
                        cases s
                        · rfl
                        · exact absurd rfl hs
                      subst this
                      simp only [Bool.false_eq_true, if_false]
                      exact ih ps2 h false flds habs
                | impl ps' => exact ih ps2 _ s _ (hpres _)
            | vptr o =>
                cases su with
                | remove =>
                    by_cases hs : s = true
                    · subst hs; simp only [if_true]; exact ih ps2 h true _ (hpres _)
                    · have : s = false := by
                        cases s
                        · rfl
                        · exact absurd rfl hs
                      subst this
                      simp only [Bool.false_eq_true, if_false]
                      exact ih ps2 h false flds habs
                | impl ps' => exact ih ps2 _ s _ (hpres _)
          · have : ex = false := by
              cases ex
              · rfl
              · exact absurd rfl hex
            subst this
            simp only [Bool.false_eq_true, if_false]
            exact ih ps2 h s flds habs

/-- The map loop ignores a rule entry whose name matches no snapshot key. -/
theorem applyMapKeys_skip (n : String) (sub : Ruler) :
    ∀ (keys : List String) (ps1 ps2 : List (String × Ruler)) (h : Heap) (a : Nat),
      n ∉ keys →
      applyMapKeys (ps1 ++ (n, sub) :: ps2) h a keys
        = applyMapKeys (ps1 ++ ps2) h a keys := by
  intro keys
  induction keys with
  | nil => intro ps2 ps1 h a hmem; rw [applyMapKeys_nil, applyMapKeys_nil]
  | cons k rest ih =>
      intro ps1 ps2 h a hmem
      have hk : k ≠ n := fun hx => hmem (hx ▸ List.mem_cons_self _ _)
      have hrest : n ∉ rest := fun hx => hmem (List.mem_cons_of_mem _ hx)
      rw [applyMapKeys_cons, applyMapKeys_cons]
      have hstep : mapStep (ps1 ++ (n, sub) :: ps2) h a k = mapStep (ps1 ++ ps2) h a k := by
        unfold mapStep
        rw [alook_append_middle _ _ _ _ hk]
      rw [hstep]
      exact ih ps1 ps2 _ a hrest

/-- A key absent from a map is absent from the snapshot of its keys. -/
theorem not_mem_mkeys {m : MapData} {n : String} (h : (alook m n).isNone = true) :
    n ∉ mkeys m := by
  intro hmem
  obtain ⟨p, hp, hfst⟩ := List.mem_map.mp hmem
  have := alook_none_iff.mp (Option.isNone_iff_eq_none.mp h) p hp
  exact this hfst

/-- `applyRules`' kind switch ignores a rule entry whose name is absent. -/
theorem applyValue_skip_absent (ps1 ps2 : List (String × Ruler)) (n : String) (sub : Ruler)
    (h : Heap) (s : Bool) (c : Value) (habs : nameAbsentCore h n c = true) :
    applyValue (ps1 ++ (n, sub) :: ps2) h s c = applyValue (ps1 ++ ps2) h s c := by
  cases c with
  | vstruct flds =>
      rw [applyValue_vstruct, applyValue_vstruct]
      have hf : fGet flds n = none :=
        Option.isNone_iff_eq_none.mp (by simpa [nameAbsentCore] using habs)
      rw [applyStructFields_skip n sub ps1 ps2 h s flds hf]
  | vmap o =>
      cases o with
      | none =>
          rw [applyValue_inert _ _ _ _ (fun _ hx => by cases hx) (fun _ hx => by cases hx),
            applyValue_inert _ _ _ _ (fun _ hx => by cases hx) (fun _ hx => by cases hx)]
      | some a =>
          rw [applyValue_vmap_some, applyValue_vmap_some]
          have hk : n ∉ mkeys (hGet h a) :=
            not_mem_mkeys (by simpa [nameAbsentCore] using habs)
          rw [applyMapKeys_skip n sub _ ps1 ps2 h a hk]
  | vint a0 =>
      rw [applyValue_inert _ _ _ _ (fun _ hx => by cases hx) (fun _ hx => by cases hx),
        applyValue_inert _ _ _ _ (fun _ hx => by cases hx) (fun _ hx => by cases hx)]
  | vstr a0 =>
      rw [applyValue_inert _ _ _ _ (fun _ hx => by cases hx) (fun _ hx => by cases hx),
        applyValue_inert _ _ _ _ (fun _ hx => by cases hx) (fun _ hx => by cases hx)]
  | vbool a0 =>
      rw [applyValue_inert _ _ _ _ (fun _ hx => by cases hx) (fun _ hx => by cases hx),
        applyValue_inert _ _ _ _ (fun _ hx => by cases hx) (fun _ hx => by cases hx)]
  | vslice a0 =>
      rw [applyValue_inert _ _ _ _ (fun _ hx => by cases hx) (fun _ hx => by cases hx),
        applyValue_inert _ _ _ _ (fun _ hx => by cases hx) (fun _ hx => by cases hx)]
  | vptr o =>
      rw [applyValue_inert _ _ _ _ (fun _ hx => by cases hx) (fun _ hx => by cases hx),
        applyValue_inert _ _ _ _ (fun _ hx => by cases hx) (fun _ hx => by cases hx)]

/-- `applyRules` ignores a rule entry whose name is absent on its value. -/
theorem applyImpl_skip_absent (ps1 ps2 : List (String × Ruler)) (n : String) (sub : Ruler)
    (h : Heap) (s : Bool) (c : Value) (habs : nameAbsentB h n c = true) :
    applyImpl (ps1 ++ (n, sub) :: ps2) h s c = applyImpl (ps1 ++ ps2) h s c := by
  cases c with
  | vptr o =>
      cases o with
      | none => rw [applyImpl_vptr_none, applyImpl_vptr_none]
      | some t =>
          rw [applyImpl_vptr_some, applyImpl_vptr_some]
          have ht : nameAbsentCore h n t = true := by simpa [nameAbsentB] using habs
          rw [applyValue_skip_absent ps1 ps2 n sub h true t ht]
  | vint a0 =>
      rw [applyImpl_notptr _ _ _ _ (fun _ hx => by cases hx),
        applyImpl_notptr _ _ _ _ (fun _ hx => by cases hx),
        applyValue_skip_absent ps1 ps2 n sub h s _ (by simpa [nameAbsentB] using habs)]
  | vstr a0 =>
      rw [applyImpl_notptr _ _ _ _ (fun _ hx => by cases hx),
        applyImpl_notptr _ _ _ _ (fun _ hx => by cases hx),
        applyValue_skip_absent ps1 ps2 n sub h s _ (by simpa [nameAbsentB] using habs)]
  | vbool a0 =>
      rw [applyImpl_notptr _ _ _ _ (fun _ hx => by cases hx),
        applyImpl_notptr _ _ _ _ (fun _ hx => by cases hx),
        applyValue_skip_absent ps1 ps2 n sub h s _ (by simpa [nameAbsentB] using habs)]
  | vstruct a0 =>
      rw [applyImpl_notptr _ _ _ _ (fun _ hx => by cases hx),
        applyImpl_notptr _ _ _ _ (fun _ hx => by cases hx),
        applyValue_skip_absent ps1 ps2 n sub h s _ (by simpa [nameAbsentB] using habs)]
  | vslice a0 =>
      rw [applyImpl_notptr _ _ _ _ (fun _ hx => by cases hx),
        applyImpl_notptr _ _ _ _ (fun _ hx => by cases hx),
        applyValue_skip_absent ps1 ps2 n sub h s _ (by simpa [nameAbsentB] using habs)]
  | vmap a0 =>
      rw [applyImpl_notptr _ _ _ _ (fun _ hx => by cases hx),
        applyImpl_notptr _ _ _ _ (fun _ hx => by cases hx),
        applyValue_skip_absent ps1 ps2 n sub h s _ (by simpa [nameAbsentB] using habs)]

/-- The deep copy preserves absence of a name (same field names, same map
address, same heap). -/
theorem nameAbsentCore_stored {ds ro : Bool} {t c' : Value}
    (hc : deepCopyStored ds ro t = some c') (h : Heap) (n : String)
    (habs : nameAbsentCore h n t = true) : nameAbsentCore h n c' = true := by
  cases t with
  | vstruct flds =>
      simp only [deepCopyStored] at hc
      by_cases hds : ds = true
      · subst hds
        rw [if_pos rfl] at hc
        cases h1 : deepCopyFields ro flds with
        | none => rw [h1] at hc; cases hc
        | some flds' =>
            rw [h1] at hc
            simp only [Option.map_some', Option.some_inj] at hc
            rw [← hc]
            simp only [nameAbsentCore] at habs ⊢
            rw [fGet_isNone_deepCopyFields h1]
            exact habs
      · have : ds = false := by
          cases ds
          · rfl
          · exact absurd rfl hds
        subst this
        simp only [Bool.false_eq_true, if_false] at hc
        cases hc
  | vmap a0 =>
      simp only [deepCopyStored] at hc
      by_cases hok : (ds && !ro) = true
      · rw [if_pos hok] at hc
        simp only [Option.some_inj] at hc
        rw [← hc]
        exact habs
      · rw [if_neg hok] at hc; cases hc
  | vint a0 =>
      simp only [deepCopyStored] at hc
      by_cases hok : (ds && !ro) = true
      · rw [if_pos hok] at hc
        simp only [Option.some_inj] at hc
        rw [← hc]; rfl
      · rw [if_neg hok] at hc; cases hc
  | vstr a0 =>
      simp only [deepCopyStored] at hc
      by_cases hok : (ds && !ro) = true
      · rw [if_pos hok] at hc
        simp only [Option.some_inj] at hc
        rw [← hc]; rfl
      · rw [if_neg hok] at hc; cases hc
  | vbool a0 =>
      simp only [deepCopyStored] at hc
      by_cases hok : (ds && !ro) = true
      · rw [if_pos hok] at hc
        simp only [Option.some_inj] at hc
        rw [← hc]; rfl
      · rw [if_neg hok] at hc; cases hc
  | vslice items =>
      simp only [deepCopyStored] at hc
      by_cases hds : ds = true
      · subst hds
        rw [if_pos rfl] at hc
        cases h1 : deepCopyElems ro items with
        | none => rw [h1] at hc; cases hc
        | some items' =>
            rw [h1] at hc
            simp only [Option.map_some', Option.some_inj] at hc
            rw [← hc]; rfl
      · have : ds = false := by
          cases ds
          · rfl
          · exact absurd rfl hds
        subst this
        simp only [Bool.false_eq_true, if_false] at hc
        cases hc
  | vptr o =>
      cases o with
      | none =>
          simp only [deepCopyStored, Option.some_inj] at hc
          rw [← hc]; rfl
      | some t0 =>
          simp only [deepCopyStored] at hc
          cases h1 : deepCopyStored true ro t0 with
          | none => rw [h1] at hc; cases hc
          | some w =>
              rw [h1] at hc
              simp only [Option.map_some', Option.some_inj] at hc
              rw [← hc]; rfl

/-- The value stored by `deepCopy` is never a non-nil pointer. -/
theorem deepCopyStored_no_ptr_some {ds ro : Bool} {t c' : Value}
    (hc : deepCopyStored ds ro t = some c') (t0 : Value) : c' ≠ vptr (some t0) := by
  intro hcp
  subst hcp
  cases t with
  | vptr o =>
      cases o with
      | none => simp [deepCopyStored] at hc
      | some t1 =>
          simp only [deepCopyStored] at hc
          cases h1 : deepCopyStored true ro t1 with
          | none => rw [h1] at hc; cases hc
          | some w => rw [h1] at hc; simp at hc
  | vstruct flds =>
      simp only [deepCopyStored] at hc
      by_cases hds : ds = true
      · subst hds
        rw [if_pos rfl] at hc
        cases h1 : deepCopyFields ro flds with
        | none => rw [h1] at hc; cases hc
        | some w => rw [h1] at hc; simp at hc
      · have hds0 : ds = false := by
          cases ds
          · rfl
          · exact absurd rfl hds
        subst hds0
        simp at hc
  | vslice items =>
      simp only [deepCopyStored] at hc
      by_cases hds : ds = true
      · subst hds
        rw [if_pos rfl] at hc
        cases h1 : deepCopyElems ro items with
        | none => rw [h1] at hc; cases hc
        | some w => rw [h1] at hc; simp at hc
      · have hds0 : ds = false := by
          cases ds
          · rfl
          · exact absurd rfl hds
        subst hds0
        simp at hc
  | vint a0 =>
      simp only [deepCopyStored] at hc
      by_cases hok : (ds && !ro) = true
      · rw [if_pos hok] at hc
        simp at hc
      · rw [if_neg hok] at hc
        cases hc
  | vstr a0 =>
      simp only [deepCopyStored] at hc
      by_cases hok : (ds && !ro) = true
      · rw [if_pos hok] at hc
        simp at hc
      · rw [if_neg hok] at hc
        cases hc
  | vbool a0 =>
      simp only [deepCopyStored] at hc
      by_cases hok : (ds && !ro) = true
      · rw [if_pos hok] at hc
        simp at hc
      · rw [if_neg hok] at hc
        cases hc
  | vmap a0 =>
      simp only [deepCopyStored] at hc
      by_cases hok : (ds && !ro) = true
      · rw [if_pos hok] at hc
        simp at hc
      · rw [if_neg hok] at hc
        cases hc

/-- On values that are not non-nil pointers the two absence notions agree. -/
theorem nameAbsentB_eq_core (h : Heap) (n : String) (c : Value)
    (hne : ∀ t0, c ≠ vptr (some t0)) : nameAbsentB h n c = nameAbsentCore h n c := by
  cases c with
  | vptr o =>
      cases o with
      | none => rfl
      | some t0 => exact absurd rfl (hne t0)
  | vint a0 => rfl
  | vstr a0 => rfl
  | vbool a0 => rfl
  | vstruct a0 => rfl
  | vslice a0 => rfl
  | vmap a0 => rfl

/-- **C6**: a compiled rule entry naming a field/key absent from the input
has no effect on `Simplify`'s result: the rule set containing the entry
`(n, sub)` anywhere and the rule set without it behave identically
(compilation itself is total, and the error result is nil whenever
`Simplify` returns, so the absent name also produces no error). -/
theorem c6_absent_name_no_effect (ps1 ps2 : List (String × Ruler)) (n : String)
    (sub : Ruler) (h : Heap) (v : Value) (habs : nameAbsentB h n v = true) :
    simplifyGo (ps1 ++ (n, sub) :: ps2) h v = simplifyGo (ps1 ++ ps2) h v := by
  unfold simplifyGo
  cases hdc : deepCopyRet v with
  | none => rfl
  | some c =>
      have hnonptr : ∀ (w : Value), (∀ o, w ≠ vptr o) →
          deepCopyStored true false w = some c →
          nameAbsentB h n w = true → nameAbsentB h n c = true := by
        intro w hwp h1 habsw
        have hcw : nameAbsentCore h n w = true := by
          rw [nameAbsentB_eq_core h n w (fun t0 => hwp (some t0))] at habsw
          exact habsw
        rw [nameAbsentB_eq_core h n c (deepCopyStored_no_ptr_some h1)]
        exact nameAbsentCore_stored h1 h n hcw
      have habsc : nameAbsentB h n c = true := by
        cases v with
        | vptr o =>
            cases o with
            | none =>
                have hvc : vptr none = c := Option.some.inj hdc
                rw [← hvc]
                rfl
            | some t =>
                simp only [deepCopyRet] at hdc
                cases h1 : deepCopyStored true false t with
                | none => rw [h1] at hdc; cases hdc
                | some c2 =>
                    rw [h1] at hdc
                    simp only [Option.map_some', Option.some_inj] at hdc
                    rw [← hdc]
                    show nameAbsentCore h n c2 = true
                    exact nameAbsentCore_stored h1 h n (by simpa [nameAbsentB] using habs)
        | vint a0 => exact hnonptr _ (fun o hx => by cases hx) hdc habs
        | vstr a0 => exact hnonptr _ (fun o hx => by cases hx) hdc habs
        | vbool a0 => exact hnonptr _ (fun o hx => by cases hx) hdc habs
        | vstruct a0 => exact hnonptr _ (fun o hx => by cases hx) hdc habs
        | vslice a0 => exact hnonptr _ (fun o hx => by cases hx) hdc habs
        | vmap a0 => exact hnonptr _ (fun o hx => by cases hx) hdc habs
      simp only [Option.map_some']
      rw [applyImpl_skip_absent ps1 ps2 n sub h true c habsc]

/-- Witness for C6: the rule set also naming the absent field `b` acts on
`{a: 1}` exactly like the rule set without it. -/
theorem c6_absent_name_no_effect_witness :
    nameAbsentB [] "b" (vstruct [("a", true, vint 1)]) = true ∧
      simplifyGo ([] ++ ("b", Ruler.remove) :: [("a", Ruler.remove)]) []
          (vstruct [("a", true, vint 1)])
        = simplifyGo ([] ++ [("a", Ruler.remove)]) [] (vstruct [("a", true, vint 1)]) :=
  ⟨by decide,
   c6_absent_name_no_effect [] [("a", Ruler.remove)] "b" Ruler.remove []
     (vstruct [("a", true, vint 1)]) (by decide)⟩

/-! ## Claim C8: element-wise redaction of slice fields -/

/-- The clone keeps every field's name, exported flag, and position. -/
theorem fGet_cleanFields (flds : List (String × Bool × Value)) (n : String) :
    fGet (cleanFields flds) n = (fGet flds n).map (fun p => (p.1, cleanStored p.2)) := by
  induction flds with
  | nil => rfl
  | cons f rest ih =>
      obtain ⟨m, ex, fv⟩ := f
      rw [show cleanFields ((m, ex, fv) :: rest)
            = (m, ex, cleanStored fv) :: cleanFields rest from rfl]
      simp only [fGet]
      by_cases hm : m = n
      · rw [if_pos hm, if_pos hm]
        rfl
      · rw [if_neg hm, if_neg hm]
        exact ih

theorem cleanElems_length (items : List Value) :
    (cleanElems items).length = items.length := by
  induction items with
  | nil => rfl
  | cons it rest ih =>
      rw [show cleanElems (it :: rest) = cleanStored it :: cleanElems rest from rfl]
      simp [ih]

/-- The element loop preserves the slice's length (and hence its order:
element `i` of the output comes from element `i` of the input). -/
theorem applySliceElems_length (sub : Ruler) :
    ∀ (h : Heap) (items : List Value),
      (applySliceElems sub h items).2.length = items.length := by
  intro h items
  induction items generalizing h with
  | nil => rw [applySliceElems]
  | cons it rest ih =>
      rw [applySliceElems]
      simp only [List.length_cons]
      rw [ih]

/-- **C8**: on a struct whose field `F` holds a slice, a compiled
`Descend(child)` rule for `F` makes `Simplify` process the (cloned) slice
element-wise — `applySliceElems` runs the child simplifier on each element
individually, dereferencing per-element pointers first — writing the
processed elements back into field `F` and leaving every other field as the
clone made it; the output slice has exactly the input slice's length, with
element order preserved. -/
theorem c8_slice_descend (child : List (String × Ruler)) (h : Heap)
    (flds : List (String × Bool × Value)) (F : String) (items : List Value)
    (hx : allExportedFieldsB flds = true)
    (hF : fGet flds F = some (true, vslice items)) :
    simplifyGo [(F, Ruler.impl child)] h (vstruct flds)
        = some ((applySliceElems (Ruler.impl child) h (cleanElems items)).1,
            vstruct (fSet (cleanFields flds) F
              (vslice (applySliceElems (Ruler.impl child) h (cleanElems items)).2)),
            none)
      ∧ (applySliceElems (Ruler.impl child) h (cleanElems items)).2.length
          = items.length := by
  constructor
  · unfold simplifyGo
    rw [show deepCopyRet (vstruct flds) = deepCopyStored true false (vstruct flds) from rfl,
      deepCopyStored_clean (vstruct flds) (by simpa [allExportedB] using hx)]
    simp only [Option.map_some']
    rw [show cleanStored (vstruct flds) = vstruct (cleanFields flds) from rfl,
      applyImpl_notptr _ _ _ _ (fun _ hx0 => by cases hx0), applyValue_vstruct]
    have hFc : fGet (cleanFields flds) F = some (true, vslice (cleanElems items)) := by
      rw [fGet_cleanFields, hF]
      rfl
    rw [applyStructFields, hFc]
    simp only [if_true]
    rw [applyStructFields]
  · rw [applySliceElems_length, cleanElems_length]

/-- Witness for C8: a two-element slice of structs under a child rule that
removes `Secret`. -/
theorem c8_slice_descend_witness :
    allExportedFieldsB
        [("L", true, vslice [vstruct [("Secret", true, vint 1)],
                             vstruct [("Secret", true, vint 2)]])] = true ∧
      fGet [("L", true, vslice [vstruct [("Secret", true, vint 1)],
                                vstruct [("Secret", true, vint 2)]])] "L"
        = some (true, vslice [vstruct [("Secret", true, vint 1)],
                              vstruct [("Secret", true, vint 2)]]) ∧
      ((applySliceElems (Ruler.impl [("Secret", Ruler.remove)]) []
          (cleanElems [vstruct [("Secret", true, vint 1)],
                       vstruct [("Secret", true, vint 2)]])).2.length
        = [vstruct [("Secret", true, vint 1)], vstruct [("Secret", true, vint 2)]].length) :=
  ⟨by decide, by decide,
   (c8_slice_descend [("Secret", Ruler.remove)] []
      [("L", true, vslice [vstruct [("Secret", true, vint 1)],
                           vstruct [("Secret", true, vint 2)]])]
      "L" [vstruct [("Secret", true, vint 1)], vstruct [("Secret", true, vint 2)]]
      (by decide) (by decide)).2⟩

/-! ## Claim C3: what the remove action does to fields and map entries -/

theorem mdel_eq_of_none {m : MapData} {k : String} (h : alook m k = none) :
    mdel m k = m := by
  induction m with
  | nil => rfl
  | cons p rest ih =>
      simp only [alook] at h
      by_cases hp : p.1 = k
      · rw [if_pos hp] at h; cases h
      · rw [if_neg hp] at h
        simp only [mdel, List.filter_cons]
        rw [if_pos (by simpa using hp)]
        rw [show List.filter (fun p => p.1 ≠ k) rest = mdel rest k from rfl, ih h]

theorem alook_mdel_self (m : MapData) (k : String) : alook (mdel m k) k = none := by
  induction m with
  | nil => rfl
  | cons p rest ih =>
      simp only [mdel, List.filter_cons]
      by_cases hp : p.1 = k
      · rw [if_neg (by simpa using hp)]
        exact ih
      · rw [if_pos (by simpa using hp)]
        simp only [alook]
        rw [if_neg hp]
        exact ih

theorem hGet_hSet_self {h : Heap} {a : Nat} (ha : a < h.length) (m : MapData) :
    hGet (hSet h a m) a = m := by
  induction h generalizing a with
  | nil => cases ha
  | cons x rest ih =>
      cases a with
      | zero => rfl
      | succ a0 => exact ih (Nat.lt_of_succ_lt_succ ha)

theorem hSet_hSet (h : Heap) (a : Nat) (m m2 : MapData) :
    hSet (hSet h a m) a m2 = hSet h a m2 := by
  induction h generalizing a with
  | nil => rfl
  | cons x rest ih =>
      cases a with
      | zero => rfl
      | succ a0 =>
          show x :: hSet (hSet rest a0 m) a0 m2 = x :: hSet rest a0 m2
          rw [ih]

theorem hSet_hGet_self (h : Heap) (a : Nat) : hSet h a (hGet h a) = h := by
  induction h generalizing a with
  | nil => rfl
  | cons x rest ih =>
      cases a with
      | zero => rfl
      | succ a0 =>
          show x :: hSet rest a0 (hGet rest a0) = x :: rest
          rw [ih]

theorem mem_mkeys_of_alook {m : MapData} {k : String} {u : Value}
    (h : alook m k = some u) : k ∈ mkeys m := by
  induction m with
  | nil => cases h
  | cons p rest ih =>
      simp only [alook] at h
      by_cases hp : p.1 = k
      · exact hp ▸ List.mem_map_of_mem _ (List.mem_cons_self _ _)
      · rw [if_neg hp] at h
        exact List.mem_cons_of_mem _ (ih h)

theorem lt_length_of_alook {h : Heap} {a : Nat} {k : String} {u : Value}
    (hu : alook (hGet h a) k = some u) : a < h.length := by
  by_contra hge
  have : hGet h a = [] := List.getD_eq_default _ _ (Nat.le_of_not_lt hge)
  rw [this] at hu
  cases hu

/-- A single-entry remove ruler leaves the heap alone on keys other than
its own. -/
theorem mapStep_single_other {k k0 : String} (hne : k0 ≠ k) (h : Heap) (a : Nat) :
    mapStep [(k, Ruler.remove)] h a k0 = h := by
  unfold mapStep
  rw [show alook [(k, Ruler.remove)] k0 = none from by
    simp only [alook]
    rw [if_neg (fun hx => hne hx.symm)]]

/-- The single-entry remove ruler on a map whose key is already gone. -/
theorem applyMapKeys_single_remove_gone (k : String) (a : Nat) :
    ∀ (keys : List String) (h : Heap), alook (hGet h a) k = none →
      applyMapKeys [(k, Ruler.remove)] h a keys = h := by
  intro keys
  induction keys with
  | nil => intro h hnone; rw [applyMapKeys_nil]
  | cons k0 rest ih =>
      intro h hnone
      rw [applyMapKeys_cons]
      by_cases hk : k0 = k
      · subst hk
        have hstep : mapStep [(k0, Ruler.remove)] h a k0 = h := by
          unfold mapStep
          rw [show alook [(k0, Ruler.remove)] k0 = some Ruler.remove from by
              simp [alook], hnone]
          rw [mdel_eq_of_none hnone, hSet_hGet_self]
        rw [hstep]
        exact ih h hnone
      · rw [mapStep_single_other hk]
        exact ih h hnone

/-- The single-entry remove ruler deletes a present (non-nil) entry. -/
theorem applyMapKeys_single_remove (k : String) (a : Nat) :
    ∀ (keys : List String) (h : Heap) (u : Value), alook (hGet h a) k = some u →
      u ≠ vptr none → k ∈ keys →
      applyMapKeys [(k, Ruler.remove)] h a keys = hSet h a (mdel (hGet h a) k) := by
  intro keys
  induction keys with
  | nil => intro h u hu hnn hmem; cases hmem
  | cons k0 rest ih =>
      intro h u hu hnn hmem
      rw [applyMapKeys_cons]
      by_cases hk : k0 = k
      · subst hk
        have hstep : mapStep [(k0, Ruler.remove)] h a k0
            = hSet h a (mdel (hGet h a) k0) := by
          unfold mapStep
          rw [show alook [(k0, Ruler.remove)] k0 = some Ruler.remove from by
              simp [alook], hu]
          cases u with
          | vptr o =>
              cases o with
              | none => exact absurd rfl hnn
              | some t => rfl
          | vint a0 => rfl
          | vstr a0 => rfl
          | vbool a0 => rfl
          | vstruct a0 => rfl
          | vslice a0 => rfl
          | vmap a0 => rfl
        rw [hstep]
        have ha : a < h.length := lt_length_of_alook hu
        apply applyMapKeys_single_remove_gone
        rw [hGet_hSet_self ha, alook_mdel_self]
      · rw [mapStep_single_other hk]
        have hmem2 : k ∈ rest := by
          rcases List.mem_cons.mp hmem with hx | hx
          · exact absurd hx.symm hk
          · exact hx
        exact ih h u hu hnn hmem2

mutual

/-- Nulling the nested pointers does not change a value's zero value. -/
theorem zeroOf_cleanStored : ∀ v : Value, zeroOf (cleanStored v) = zeroOf v := by
  intro v
  cases v with
  | vstruct flds =>
      show vstruct (zeroFields (cleanFields flds)) = vstruct (zeroFields flds)
      rw [zeroFields_cleanFields flds]
  | vint a0 => rfl
  | vstr a0 => rfl
  | vbool a0 => rfl
  | vslice a0 => rfl
  | vmap a0 => rfl
  | vptr o => rfl

theorem zeroFields_cleanFields :
    ∀ flds : List (String × Bool × Value),
      zeroFields (cleanFields flds) = zeroFields flds := by
  intro flds
  cases flds with
  | nil => rfl
  | cons f rest =>
      obtain ⟨n, ex, fv⟩ := f
      show (n, ex, zeroOf (cleanStored fv)) :: zeroFields (cleanFields rest)
          = (n, ex, zeroOf fv) :: zeroFields rest
      rw [zeroOf_cleanStored fv, zeroFields_cleanFields rest]

end

/-- `cleanStored` never introduces a slice. -/
theorem cleanStored_not_slice {fv : Value} (hns : ∀ its, fv ≠ vslice its) :
    ∀ its, cleanStored fv ≠ vslice its := by
  intro its hx
  cases fv with
  | vslice its0 => exact hns its0 rfl
  | vint a0 => cases hx
  | vstr a0 => cases hx
  | vbool a0 => cases hx
  | vmap a0 => cases hx
  | vptr o => cases hx
  | vstruct a0 => cases hx

/-- The struct loop with one remove entry zeroes the (settable, non-slice)
named field and stops. -/
theorem applyStructFields_remove_single (h : Heap) (flds : List (String × Bool × Value))
    (F : String) (fv : Value) (hF : fGet flds F = some (true, fv))
    (hns : ∀ its, fv ≠ vslice its) :
    applyStructFields h true flds [(F, Ruler.remove)] = (h, fSet flds F (zeroOf fv)) := by
  rw [applyStructFields, hF]
  cases fv with
  | vslice its => exact absurd rfl (hns its)
  | vint a0 => simp only [if_true]; rw [applyStructFields]
  | vstr a0 => simp only [if_true]; rw [applyStructFields]
  | vbool a0 => simp only [if_true]; rw [applyStructFields]
  | vstruct a0 => simp only [if_true]; rw [applyStructFields]
  | vmap a0 => simp only [if_true]; rw [applyStructFields]
  | vptr o => simp only [if_true]; rw [applyStructFields]

/-- **C3 counterexample**: the claim says a Remove action on a field *of
any type, including ordered sequences*, sets the field to its type's zero
value.  On a slice-kinded field, the struct case of `applyRules` enters the
slice branch before inspecting the action and hands each element to
`removeRuler`, so the elements are zeroed in place and the field keeps its
length — it is not set to the zero (nil/empty) slice. -/
theorem c3_counterexample :
    simplifyGo [("L", Ruler.remove)] [] (vstruct [("L", true, vslice [vint 1, vint 2])])
        = some ([], vstruct [("L", true, vslice [vint 0, vint 0])], none)
      ∧ vslice [vint 0, vint 0] ≠ zeroOf (vslice [vint 1, vint 2]) := by
  constructor
  · simp [simplifyGo, deepCopyRet, deepCopyStored, deepCopyFields, deepCopyElems,
      applyImpl, applyValue, applyStructFields, applySliceElems, applySliceElem1,
      fGet, fSet, zeroOf]
  · decide

/-- **C3 (amended)**: when a compiled Remove action matches
(a) a visible, settable struct field that is not an ordered sequence, the
field of the clone is set to its type's zero value and never structurally
removed (slice fields instead have each element zeroed in place, length
preserved — see the counterexample — and fields of records stored directly
as map values are not settable and stay unchanged); and
(b) a key of a map whose entry value is not a nil reference, the entry is
deleted from the clone's (shared) map — an entry holding a nil reference is
skipped and survives. -/
theorem c3_remove_semantics :
    (∀ (h : Heap) (flds : List (String × Bool × Value)) (F : String) (fv : Value),
        allExportedFieldsB flds = true → fGet flds F = some (true, fv) →
        (∀ its, fv ≠ vslice its) →
        simplifyGo [(F, Ruler.remove)] h (vstruct flds)
          = some (h, vstruct (fSet (cleanFields flds) F (zeroOf fv)), none))
    ∧ (∀ (h : Heap) (a : Nat) (k : String) (u : Value),
        alook (hGet h a) k = some u → u ≠ vptr none →
        simplifyGo [(k, Ruler.remove)] h (vmap (some a))
          = some (hSet h a (mdel (hGet h a) k), vmap (some a), none)) := by
  constructor
  · intro h flds F fv hx hF hns
    unfold simplifyGo
    rw [show deepCopyRet (vstruct flds) = deepCopyStored true false (vstruct flds) from rfl,
      deepCopyStored_clean (vstruct flds) (by simpa [allExportedB] using hx)]
    simp only [Option.map_some']
    rw [show cleanStored (vstruct flds) = vstruct (cleanFields flds) from rfl,
      applyImpl_notptr _ _ _ _ (fun _ hx0 => by cases hx0), applyValue_vstruct]
    have hFc : fGet (cleanFields flds) F = some (true, cleanStored fv) := by
      rw [fGet_cleanFields, hF]
      rfl
    rw [applyStructFields_remove_single h (cleanFields flds) F (cleanStored fv) hFc
      (cleanStored_not_slice hns), zeroOf_cleanStored]
  · intro h a k u hu hnn
    unfold simplifyGo
    rw [show deepCopyRet (vmap (some a)) = some (vmap (some a)) from rfl]
    simp only [Option.map_some']
    rw [applyImpl_notptr _ _ _ _ (fun _ hx0 => by cases hx0), applyValue_vmap_some,
      applyMapKeys_single_remove k a (mkeys (hGet h a)) h u hu hnn (mem_mkeys_of_alook hu)]

/-- Witness for C3 (amended): clearing the int field `F` of a struct, and
deleting the entry `k` from the map in heap cell 0. -/
theorem c3_remove_semantics_witness :
    simplifyGo [("F", Ruler.remove)] [] (vstruct [("F", true, vint 7)])
        = some ([], vstruct (fSet (cleanFields [("F", true, vint 7)]) "F"
            (zeroOf (vint 7))), none)
      ∧ simplifyGo [("k", Ruler.remove)] [[("k", vint 1), ("o", vint 2)]] (vmap (some 0))
        = some (hSet [[("k", vint 1), ("o", vint 2)]] 0
            (mdel (hGet [[("k", vint 1), ("o", vint 2)]] 0) "k"), vmap (some 0), none) :=
  ⟨c3_remove_semantics.1 [] [("F", true, vint 7)] "F" (vint 7) (by decide) (by decide)
     (fun _ hx => by cases hx),
   c3_remove_semantics.2 [[("k", vint 1), ("o", vint 2)]] 0 "k" (vint 1) (by decide)
     (fun hx => by cases hx)⟩

/-! ## Claim C4: idempotence.

Every effect of `applyRules` is an *erasure*: it zeroes a settable location
or deletes a map entry.  The development below builds the erasure order on
values (`Erase`), map contents (`SubErase`) and heaps (`HeapErase`), shows
every `applyRules` run is an erasure, and from stability of erased outputs
derives idempotence. -/

mutual

theorem zeroOf_zeroOf : ∀ v : Value, zeroOf (zeroOf v) = zeroOf v := by
  intro v
  cases v with
  | vstruct flds =>
      show vstruct (zeroFields (zeroFields flds)) = vstruct (zeroFields flds)
      rw [zeroFields_zeroFields flds]
  | vint a => rfl
  | vstr a => rfl
  | vbool a => rfl
  | vslice a => rfl
  | vmap a => rfl
  | vptr o => rfl

theorem zeroFields_zeroFields :
    ∀ flds : List (String × Bool × Value), zeroFields (zeroFields flds) = zeroFields flds := by
  intro flds
  cases flds with
  | nil => rfl
  | cons f rest =>
      obtain ⟨n, ex, fv⟩ := f
      show (n, ex, zeroOf (zeroOf fv)) :: zeroFields (zeroFields rest) = _
      rw [zeroOf_zeroOf fv, zeroFields_zeroFields rest]
      rfl

end

mutual

/-- How far a value is from its zero value, as a natural number: erasing
strictly decreases it unless nothing changes. -/
def wtV : Value → Nat
  | vint a => if a = 0 then 0 else 1
  | vstr a => if a = "" then 0 else 1
  | vbool a => if a = false then 0 else 1
  | vmap o => if o = none then 0 else 1
  | vptr none => 0
  | vptr (some t) => 1 + wtV t
  | vstruct flds => wtF flds
  | vslice items => wtL items

def wtF : List (String × Bool × Value) → Nat
  | [] => 0
  | (_, _, v) :: rest => wtV v + wtF rest

def wtL : List Value → Nat
  | [] => 0
  | v :: rest => 1 + wtV v + wtL rest

end

mutual

theorem wtV_zeroOf : ∀ v : Value, wtV (zeroOf v) = 0 := by
  intro v
  cases v with
  | vstruct flds => exact wtF_zeroFields flds
  | vint a => rfl
  | vstr a => rfl
  | vbool a => rfl
  | vslice a => rfl
  | vmap a => rfl
  | vptr o => rfl

theorem wtF_zeroFields : ∀ flds : List (String × Bool × Value), wtF (zeroFields flds) = 0 := by
  intro flds
  cases flds with
  | nil => rfl
  | cons f rest =>
      obtain ⟨n, ex, fv⟩ := f
      show wtV (zeroOf fv) + wtF (zeroFields rest) = 0
      rw [wtV_zeroOf fv, wtF_zeroFields rest]

end

mutual

theorem zeroOf_of_wtV_eq_zero : ∀ v : Value, wtV v = 0 → zeroOf v = v := by
  intro v hv
  cases v with
  | vint a =>
      simp only [wtV] at hv
      by_cases ha : a = 0
      · rw [show zeroOf (vint a) = vint 0 from rfl, ha]
      · rw [if_neg ha] at hv; cases hv
  | vstr a =>
      simp only [wtV] at hv
      by_cases ha : a = ""
      · rw [show zeroOf (vstr a) = vstr "" from rfl, ha]
      · rw [if_neg ha] at hv; cases hv
  | vbool a =>
      simp only [wtV] at hv
      by_cases ha : a = false
      · rw [show zeroOf (vbool a) = vbool false from rfl, ha]
      · rw [if_neg ha] at hv; cases hv
  | vmap o =>
      simp only [wtV] at hv
      by_cases ha : o = none
      · rw [show zeroOf (vmap o) = vmap none from rfl, ha]
      · rw [if_neg ha] at hv; cases hv
  | vptr o =>
      cases o with
      | none => rfl
      | some t => simp [wtV] at hv
  | vstruct flds =>
      show vstruct (zeroFields flds) = vstruct flds
      rw [zeroFields_of_wtF_eq_zero flds hv]
  | vslice items =>
      cases items with
      | nil => rfl
      | cons it rest => simp [wtV, wtL] at hv

theorem zeroFields_of_wtF_eq_zero :
    ∀ flds : List (String × Bool × Value), wtF flds = 0 → zeroFields flds = flds := by
  intro flds hv
  cases flds with
  | nil => rfl
  | cons f rest =>
      obtain ⟨n, ex, fv⟩ := f
      have h1 : wtV fv = 0 ∧ wtF rest = 0 := by
        simp only [wtF] at hv
        omega
      show (n, ex, zeroOf fv) :: zeroFields rest = _
      rw [zeroOf_of_wtV_eq_zero fv h1.1, zeroFields_of_wtF_eq_zero rest h1.2]

end

mutual

/-- `Erase v' v`: `v'` is obtained from `v` by zeroing some sub-locations
(what a settable write of `reflect.Zero` can produce during traversal). -/
inductive Erase : Value → Value → Prop where
  | zero (v : Value) : Erase (zeroOf v) v
  | rint (a : Int) : Erase (vint a) (vint a)
  | rstr (a : String) : Erase (vstr a) (vstr a)
  | rbool (a : Bool) : Erase (vbool a) (vbool a)
  | rmap (o : Option Nat) : Erase (vmap o) (vmap o)
  | rptrn : Erase (vptr none) (vptr none)
  | rptr {t' t : Value} : Erase t' t → Erase (vptr (some t')) (vptr (some t))
  | rstruct {f' f : List (String × Bool × Value)} :
      EraseF f' f → Erase (vstruct f') (vstruct f)
  | rslice {l' l : List Value} : EraseL l' l → Erase (vslice l') (vslice l)

inductive EraseF : List (String × Bool × Value) → List (String × Bool × Value) → Prop where
  | nil : EraseF [] []
  | cons {n : String} {ex : Bool} {v' v : Value} {f' f : List (String × Bool × Value)} :
      Erase v' v → EraseF f' f → EraseF ((n, ex, v') :: f') ((n, ex, v) :: f)

inductive EraseL : List Value → List Value → Prop where
  | nil : EraseL [] []
  | cons {v' v : Value} {l' l : List Value} :
      Erase v' v → EraseL l' l → EraseL (v' :: l') (v :: l)

end

mutual

theorem erase_refl : ∀ v : Value, Erase v v := by
  intro v
  cases v with
  | vint a => exact Erase.rint a
  | vstr a => exact Erase.rstr a
  | vbool a => exact Erase.rbool a
  | vmap o => exact Erase.rmap o
  | vptr o =>
      cases o with
      | none => exact Erase.rptrn
      | some t => exact Erase.rptr (erase_refl t)
  | vstruct flds => exact Erase.rstruct (eraseF_refl flds)
  | vslice items => exact Erase.rslice (eraseL_refl items)

theorem eraseF_refl : ∀ flds : List (String × Bool × Value), EraseF flds flds := by
  intro flds
  cases flds with
  | nil => exact EraseF.nil
  | cons f rest =>
      obtain ⟨n, ex, fv⟩ := f
      exact EraseF.cons (erase_refl fv) (eraseF_refl rest)

theorem eraseL_refl : ∀ items : List Value, EraseL items items := by
  intro items
  cases items with
  | nil => exact EraseL.nil
  | cons it rest => exact EraseL.cons (erase_refl it) (eraseL_refl rest)

end

mutual

theorem erase_into_zero : ∀ (z : Value) {w : Value}, Erase w (zeroOf z) → w = zeroOf z := by
  intro z w hw
  cases z with
  | vint a =>
      cases hw with
      | zero => rfl
      | rint => rfl
  | vstr a =>
      cases hw with
      | zero => rfl
      | rstr => rfl
  | vbool a =>
      cases hw with
      | zero => rfl
      | rbool => rfl
  | vmap o =>
      cases hw with
      | zero => rfl
      | rmap => rfl
  | vptr o =>
      cases hw with
      | zero => rfl
      | rptrn => rfl
  | vslice l =>
      cases hw with
      | zero => rfl
      | rslice hl => cases hl; rfl
  | vstruct f =>
      cases hw with
      | zero =>
          show vstruct (zeroFields (zeroFields f)) = vstruct (zeroFields f)
          rw [zeroFields_zeroFields]
      | rstruct hf => rw [eraseF_into_zero f hf]; rfl

theorem eraseF_into_zero :
    ∀ (f : List (String × Bool × Value)) {w : List (String × Bool × Value)},
      EraseF w (zeroFields f) → w = zeroFields f := by
  intro f w hw
  cases f with
  | nil => cases hw; rfl
  | cons p rest =>
      obtain ⟨n, ex, fv⟩ := p
      cases hw with
      | cons hE hF =>
          rw [erase_into_zero fv hE, eraseF_into_zero rest hF]
          rfl

end

mutual

theorem zeroOf_erase : ∀ {v' v : Value}, Erase v' v → zeroOf v' = zeroOf v := by
  intro v' v hv
  cases hv with
  | zero => exact zeroOf_zeroOf v
  | rint a => rfl
  | rstr a => rfl
  | rbool a => rfl
  | rmap o => rfl
  | rptrn => rfl
  | rptr ht => rfl
  | rslice hl => rfl
  | rstruct hf =>
      show vstruct (zeroFields _) = vstruct (zeroFields _)
      rw [zeroFields_erase hf]

theorem zeroFields_erase :
    ∀ {f' f : List (String × Bool × Value)}, EraseF f' f → zeroFields f' = zeroFields f := by
  intro f' f hf
  cases hf with
  | nil => rfl
  | cons hE hF =>
      show (_, _, zeroOf _) :: zeroFields _ = (_, _, zeroOf _) :: zeroFields _
      rw [zeroOf_erase hE, zeroFields_erase hF]

end

mutual

theorem erase_trans : ∀ {a b c : Value}, Erase a b → Erase b c → Erase a c := by
  intro a b c h1 h2
  cases h2 with
  | zero => rw [erase_into_zero c h1]; exact Erase.zero c
  | rint x => exact h1
  | rstr x => exact h1
  | rbool x => exact h1
  | rmap x => exact h1
  | rptrn => exact h1
  | rptr ht =>
      rename_i t' t
      cases h1 with
      | zero =>
          show Erase (vptr none) (vptr (some t))
          exact Erase.zero (vptr (some t))
      | rptr hs => exact Erase.rptr (erase_trans hs ht)
  | rstruct hf2 =>
      rename_i f' f
      cases h1 with
      | zero =>
          show Erase (vstruct (zeroFields f')) (vstruct f)
          rw [zeroFields_erase hf2]
          exact Erase.zero (vstruct f)
      | rstruct hf1 => exact Erase.rstruct (eraseF_trans hf1 hf2)
  | rslice hl2 =>
      rename_i l' l
      cases h1 with
      | zero =>
          show Erase (vslice []) (vslice l)
          exact Erase.zero (vslice l)
      | rslice hl1 => exact Erase.rslice (eraseL_trans hl1 hl2)

theorem eraseF_trans :
    ∀ {a b c : List (String × Bool × Value)}, EraseF a b → EraseF b c → EraseF a c := by
  intro a b c h1 h2
  cases h2 with
  | nil => exact h1
  | cons hE2 hF2 =>
      cases h1 with
      | cons hE1 hF1 => exact EraseF.cons (erase_trans hE1 hE2) (eraseF_trans hF1 hF2)

theorem eraseL_trans : ∀ {a b c : List Value}, EraseL a b → EraseL b c → EraseL a c := by
  intro a b c h1 h2
  cases h2 with
  | nil => exact h1
  | cons hE2 hL2 =>
      cases h1 with
      | cons hE1 hL1 => exact EraseL.cons (erase_trans hE1 hE2) (eraseL_trans hL1 hL2)

end

mutual

theorem wt_erase :
    ∀ {v' v : Value}, Erase v' v → wtV v' ≤ wtV v ∧ (wtV v' = wtV v → v' = v) := by
  intro v' v hv
  cases hv with
  | zero =>
      refine ⟨by rw [wtV_zeroOf]; exact Nat.zero_le _, fun he => ?_⟩
      rw [wtV_zeroOf] at he
      exact zeroOf_of_wtV_eq_zero v he.symm
  | rint a => exact ⟨Nat.le_refl _, fun _ => rfl⟩
  | rstr a => exact ⟨Nat.le_refl _, fun _ => rfl⟩
  | rbool a => exact ⟨Nat.le_refl _, fun _ => rfl⟩
  | rmap o => exact ⟨Nat.le_refl _, fun _ => rfl⟩
  | rptrn => exact ⟨Nat.le_refl _, fun _ => rfl⟩
  | rptr ht =>
      rename_i t' t
      obtain ⟨hle, heq⟩ := wt_erase ht
      refine ⟨?_, fun he => ?_⟩
      · simp only [wtV]
        omega
      · simp only [wtV] at he
        rw [heq (by omega)]
  | rstruct hf =>
      rename_i f' f
      obtain ⟨hle, heq⟩ := wtF_erase hf
      refine ⟨?_, fun he => ?_⟩
      · simp only [wtV]
        exact hle
      · simp only [wtV] at he
        rw [heq he]
  | rslice hl =>
      rename_i l' l
      obtain ⟨hle, heq⟩ := wtL_erase hl
      refine ⟨?_, fun he => ?_⟩
      · simp only [wtV]
        exact hle
      · simp only [wtV] at he
        rw [heq he]

theorem wtF_erase :
    ∀ {f' f : List (String × Bool × Value)},
      EraseF f' f → wtF f' ≤ wtF f ∧ (wtF f' = wtF f → f' = f) := by
  intro f' f hf
  cases hf with
  | nil => exact ⟨Nat.le_refl _, fun _ => rfl⟩
  | cons hE hF =>
      rename_i n ex v' v f' f
      obtain ⟨hle1, heq1⟩ := wt_erase hE
      obtain ⟨hle2, heq2⟩ := wtF_erase hF
      refine ⟨?_, fun he => ?_⟩
      · simp only [wtF]
        omega
      · simp only [wtF] at he
        rw [heq1 (by omega), heq2 (by omega)]

theorem wtL_erase :
    ∀ {l' l : List Value}, EraseL l' l → wtL l' ≤ wtL l ∧ (wtL l' = wtL l → l' = l) := by
  intro l' l hl
  cases hl with
  | nil => exact ⟨Nat.le_refl _, fun _ => rfl⟩
  | cons hE hL =>
      rename_i v' v l' l
      obtain ⟨hle1, heq1⟩ := wt_erase hE
      obtain ⟨hle2, heq2⟩ := wtL_erase hL
      refine ⟨?_, fun he => ?_⟩
      · simp only [wtL]
        omega
      · simp only [wtL] at he
        rw [heq1 (by omega), heq2 (by omega)]

end

/-- Antisymmetry of the erasure order. -/
theorem erase_antisymm {a b : Value} (h1 : Erase a b) (h2 : Erase b a) : a = b := by
  obtain ⟨hle1, heq1⟩ := wt_erase h1
  obtain ⟨hle2, _⟩ := wt_erase h2
  exact heq1 (Nat.le_antisymm hle1 hle2)

theorem mupd_absent {α : Type} {m : List (String × α)} {k : String} (u : α)
    (hk : alook m k = none) : mupd m k u = m := by
  induction m with
  | nil => rfl
  | cons p rest ih =>
      by_cases hp : p.1 = k
      · rw [show alook (p :: rest) k = some p.2 from by simp [alook, hp]] at hk
        cases hk
      · rw [show alook (p :: rest) k = alook rest k from by simp [alook, hp]] at hk
        show (if p.1 = k then (p.1, u) :: rest else p :: mupd rest k u) = p :: rest
        rw [if_neg hp, ih hk]

/-- `SubErase m' m`: map content `m'` is obtained from `m` by erasing entry
values and deleting entries; a deleted entry's key does not survive in `m'`
ahead of a kept duplicate (Go map keys are unique, so deletions remove the
key outright). -/
inductive SubErase : MapData → MapData → Prop where
  | nil : SubErase [] []
  | keep {k : String} {u' u : Value} {m' m : MapData} :
      Erase u' u → SubErase m' m → SubErase ((k, u') :: m') ((k, u) :: m)
  | drop {k : String} {u : Value} {m' m : MapData} :
      alook m' k = none → SubErase m' m → SubErase m' ((k, u) :: m)

theorem subErase_refl : ∀ m : MapData, SubErase m m := by
  intro m
  induction m with
  | nil => exact SubErase.nil
  | cons p rest ih =>
      obtain ⟨k, u⟩ := p
      exact SubErase.keep (erase_refl u) ih

theorem subErase_alook_none {m' m : MapData} (hs : SubErase m' m) {k : String}
    (hk : alook m k = none) : alook m' k = none := by
  induction hs with
  | nil => rfl
  | keep hE hS ih =>
      rename_i k0 u' u t' t
      by_cases h0 : k0 = k
      · rw [show alook ((k0, u) :: t) k = some u from by simp [alook, h0]] at hk
        cases hk
      · rw [show alook ((k0, u) :: t) k = alook t k from by simp [alook, h0]] at hk
        rw [show alook ((k0, u') :: t') k = alook t' k from by simp [alook, h0]]
        exact ih hk
  | drop hnone hS ih =>
      rename_i k0 u t' t
      by_cases h0 : k0 = k
      · rw [show alook ((k0, u) :: t) k = some u from by simp [alook, h0]] at hk
        cases hk
      · rw [show alook ((k0, u) :: t) k = alook t k from by simp [alook, h0]] at hk
        exact ih hk

theorem subErase_alook_some {m' m : MapData} (hs : SubErase m' m) {k : String} {u' : Value}
    (hk : alook m' k = some u') : ∃ u, alook m k = some u ∧ Erase u' u := by
  induction hs with
  | nil => cases hk
  | keep hE hS ih =>
      rename_i k0 w' w t' t
      by_cases h0 : k0 = k
      · rw [show alook ((k0, w') :: t') k = some w' from by simp [alook, h0]] at hk
        cases hk
        exact ⟨w, by simp [alook, h0], hE⟩
      · rw [show alook ((k0, w') :: t') k = alook t' k from by simp [alook, h0]] at hk
        obtain ⟨u, hu, hEu⟩ := ih hk
        exact ⟨u, by rw [show alook ((k0, w) :: t) k = alook t k from by simp [alook, h0]]; exact hu, hEu⟩
  | drop hnone hS ih =>
      rename_i k0 w t' t
      by_cases h0 : k0 = k
      · rw [h0] at hnone
        rw [hnone] at hk
        cases hk
      · obtain ⟨u, hu, hEu⟩ := ih hk
        exact ⟨u, by rw [show alook ((k0, w) :: t) k = alook t k from by simp [alook, h0]]; exact hu, hEu⟩

theorem subErase_trans : ∀ {a b c : MapData}, SubErase a b → SubErase b c → SubErase a c := by
  intro a b c h1 h2
  induction h2 generalizing a with
  | nil => exact h1
  | keep hE2 hS2 ih =>
      rename_i k u' u mb mc
      cases h1 with
      | keep hE1 hS1 => exact SubErase.keep (erase_trans hE1 hE2) (ih hS1)
      | drop hnone hS1 => exact SubErase.drop hnone (ih hS1)
  | drop hnone hS2 ih =>
      exact SubErase.drop (subErase_alook_none h1 hnone) (ih h1)

theorem subErase_mdel (m : MapData) (k : String) : SubErase (mdel m k) m := by
  induction m with
  | nil => exact SubErase.nil
  | cons p rest ih =>
      obtain ⟨k0, u⟩ := p
      by_cases h0 : k0 = k
      · rw [show mdel ((k0, u) :: rest) k = mdel rest k from by simp [mdel, List.filter, h0]]
        exact SubErase.drop (h0 ▸ alook_mdel_self rest k) ih
      · rw [show mdel ((k0, u) :: rest) k = (k0, u) :: mdel rest k from by simp [mdel, List.filter, h0]]
        exact SubErase.keep (erase_refl u) ih

/-- Updating an entry of an already-erased map with a value that erases the
entry's value in the base map stays below the base map (the key step for the
map-descend write-back, whose update value was computed from the base). -/
theorem subErase_mupd_erase {m' m : MapData} (hs : SubErase m' m) {k : String} {u w : Value}
    (hk : alook m k = some u) (hw : Erase w u) : SubErase (mupd m' k w) m := by
  induction hs with
  | nil => cases hk
  | keep hE hS ih =>
      rename_i k0 v' v t' t
      by_cases h0 : k0 = k
      · rw [show alook ((k0, v) :: t) k = some v from by simp [alook, h0]] at hk
        cases hk
        rw [show mupd ((k0, v') :: t') k w = (k0, w) :: t' from by simp [mupd, h0]]
        exact SubErase.keep hw hS
      · rw [show alook ((k0, v) :: t) k = alook t k from by simp [alook, h0]] at hk
        rw [show mupd ((k0, v') :: t') k w = (k0, v') :: mupd t' k w from by simp [mupd, h0]]
        exact SubErase.keep hE (ih hk)
  | drop hnone hS ih =>
      rename_i k0 v t' t
      by_cases h0 : k0 = k
      · subst h0
        rw [mupd_absent w hnone]
        exact SubErase.drop hnone hS
      · rw [show alook ((k0, v) :: t) k = alook t k from by simp [alook, h0]] at hk
        refine SubErase.drop ?_ (ih hk)
        rw [alook_mupd_ne t' w h0]
        exact hnone

/-- Pointwise `SubErase` on heaps. -/
inductive HeapErase : Heap → Heap → Prop where
  | nil : HeapErase [] []
  | cons {m' m : MapData} {h' h : Heap} :
      SubErase m' m → HeapErase h' h → HeapErase (m' :: h') (m :: h)

theorem heapErase_refl : ∀ h : Heap, HeapErase h h := by
  intro h
  induction h with
  | nil => exact HeapErase.nil
  | cons m rest ih => exact HeapErase.cons (subErase_refl m) ih

theorem heapErase_trans : ∀ {a b c : Heap}, HeapErase a b → HeapErase b c → HeapErase a c := by
  intro a b c h1 h2
  induction h2 generalizing a with
  | nil => exact h1
  | cons hS2 hH2 ih =>
      cases h1 with
      | cons hS1 hH1 => exact HeapErase.cons (subErase_trans hS1 hS2) (ih hH1)

theorem heapErase_hGet {h' h : Heap} (hh : HeapErase h' h) (a : Nat) :
    SubErase (hGet h' a) (hGet h a) := by
  induction hh generalizing a with
  | nil => exact SubErase.nil
  | cons hS hH ih =>
      cases a with
      | zero => exact hS
      | succ a' => exact ih a'

/-- Overwriting a cell of an already-erased heap with content that erases
the base heap's cell content stays below the base heap. -/
theorem heapErase_hSet {h' h : Heap} (hh : HeapErase h' h) {a : Nat} {m' : MapData}
    (hm : SubErase m' (hGet h a)) : HeapErase (hSet h' a m') h := by
  induction hh generalizing a with
  | nil => exact HeapErase.nil
  | cons hS hH ih =>
      cases a with
      | zero => exact HeapErase.cons hm hH
      | succ a' =>
          show HeapErase (_ :: hSet _ a' m') _
          exact HeapErase.cons hS (ih hm)

/-- A field overwrite with an erasure of the field's current value erases
the field list. -/
theorem eraseF_fSet :
    ∀ {flds : List (String × Bool × Value)} {n : String} {ex : Bool} {fv : Value},
      fGet flds n = some (ex, fv) → ∀ {w : Value}, Erase w fv →
      EraseF (fSet flds n w) flds := by
  intro flds
  induction flds with
  | nil => intro n ex fv hf; cases hf
  | cons p rest ih =>
      intro n ex fv hf w hw
      obtain ⟨m, ex0, v0⟩ := p
      by_cases hm : m = n
      · rw [show fGet ((m, ex0, v0) :: rest) n = some (ex0, v0) from by simp [fGet, hm]] at hf
        cases hf
        rw [show fSet ((m, ex, fv) :: rest) n w = (m, ex, w) :: rest from by simp [fSet, hm]]
        exact EraseF.cons hw (eraseF_refl rest)
      · rw [show fGet ((m, ex0, v0) :: rest) n = fGet rest n from by simp [fGet, hm]] at hf
        rw [show fSet ((m, ex0, v0) :: rest) n w
              = (m, ex0, v0) :: fSet rest n w from by simp [fSet, hm]]
        exact EraseF.cons (erase_refl v0) (ih hf hw)

mutual

/-- Every `applyRules` call only erases: the output heap is below the input
heap and the output value below the input value in the erasure order. -/
theorem t0_impl (ps : List (String × Ruler)) (h : Heap) (s : Bool) (v : Value) :
    HeapErase (applyImpl ps h s v).1 h ∧ Erase (applyImpl ps h s v).2 v := by
  cases v with
  | vptr o =>
      cases o with
      | none =>
          rw [applyImpl_vptr_none]
          exact ⟨heapErase_refl h, erase_refl (vptr none)⟩
      | some t =>
          rw [applyImpl_vptr_some]
          obtain ⟨hh, he⟩ := t0_value ps h true t
          exact ⟨hh, Erase.rptr he⟩
  | vint a0 =>
      rw [applyImpl_notptr ps h s (vint a0) (by intro o hx; cases hx)]
      exact t0_value ps h s (vint a0)
  | vstr a0 =>
      rw [applyImpl_notptr ps h s (vstr a0) (by intro o hx; cases hx)]
      exact t0_value ps h s (vstr a0)
  | vbool a0 =>
      rw [applyImpl_notptr ps h s (vbool a0) (by intro o hx; cases hx)]
      exact t0_value ps h s (vbool a0)
  | vstruct flds =>
      rw [applyImpl_notptr ps h s (vstruct flds) (by intro o hx; cases hx)]
      exact t0_value ps h s (vstruct flds)
  | vslice items =>
      rw [applyImpl_notptr ps h s (vslice items) (by intro o hx; cases hx)]
      exact t0_value ps h s (vslice items)
  | vmap o =>
      rw [applyImpl_notptr ps h s (vmap o) (by intro o' hx; cases hx)]
      exact t0_value ps h s (vmap o)
termination_by (sizeOf ps, sizeOf v, 2)
decreasing_by
  all_goals simp_wf
  all_goals
    first
    | (apply Prod.Lex.left; simp_arith; done)
    | (apply Prod.Lex.left; have hs := sizeOf_alook halook; simp_arith at hs ⊢; omega)
    | (apply Prod.Lex.right; apply Prod.Lex.left; simp_arith; done)
    | (apply Prod.Lex.right; apply Prod.Lex.left; omega)
    | (apply Prod.Lex.right; apply Prod.Lex.right; simp_arith; done)
    | (apply Prod.Lex.right; apply Prod.Lex.right; omega)

theorem t0_value (ps : List (String × Ruler)) (h : Heap) (s : Bool) (v : Value) :
    HeapErase (applyValue ps h s v).1 h ∧ Erase (applyValue ps h s v).2 v := by
  cases v with
  | vstruct flds =>
      rw [applyValue_vstruct]
      obtain ⟨hh, hfa⟩ := t0_structFields h s flds ps
      exact ⟨hh, Erase.rstruct hfa⟩
  | vmap o =>
      cases o with
      | none =>
          rw [applyValue_inert ps h s (vmap none) (by intro flds0 hx; cases hx)
                (by intro a hx; simp at hx)]
          exact ⟨heapErase_refl h, erase_refl (vmap none)⟩
      | some a =>
          rw [applyValue_vmap_some]
          exact ⟨t0_mapKeys ps h a (mkeys (hGet h a)), erase_refl (vmap (some a))⟩
  | vint a0 =>
      rw [applyValue_inert ps h s (vint a0) (by intro flds0 hx; cases hx)
            (by intro a hx; cases hx)]
      exact ⟨heapErase_refl h, erase_refl (vint a0)⟩
  | vstr a0 =>
      rw [applyValue_inert ps h s (vstr a0) (by intro flds0 hx; cases hx)
            (by intro a hx; cases hx)]
      exact ⟨heapErase_refl h, erase_refl (vstr a0)⟩
  | vbool a0 =>
      rw [applyValue_inert ps h s (vbool a0) (by intro flds0 hx; cases hx)
            (by intro a hx; cases hx)]
      exact ⟨heapErase_refl h, erase_refl (vbool a0)⟩
  | vslice items =>
      rw [applyValue_inert ps h s (vslice items) (by intro flds0 hx; cases hx)
            (by intro a hx; cases hx)]
      exact ⟨heapErase_refl h, erase_refl (vslice items)⟩
  | vptr o =>
      rw [applyValue_inert ps h s (vptr o) (by intro flds0 hx; cases hx)
            (by intro a hx; cases hx)]
      exact ⟨heapErase_refl h, erase_refl (vptr o)⟩
termination_by (sizeOf ps, sizeOf v, 1)
decreasing_by
  all_goals simp_wf
  all_goals
    first
    | (apply Prod.Lex.left; simp_arith; done)
    | (apply Prod.Lex.left; have hs := sizeOf_alook halook; simp_arith at hs ⊢; omega)
    | (apply Prod.Lex.right; apply Prod.Lex.left; simp_arith; done)
    | (apply Prod.Lex.right; apply Prod.Lex.left; omega)
    | (apply Prod.Lex.right; apply Prod.Lex.right; simp_arith; done)
    | (apply Prod.Lex.right; apply Prod.Lex.right; omega)

theorem t0_structFields (h : Heap) (s : Bool) (flds : List (String × Bool × Value))
    (l : List (String × Ruler)) :
    HeapErase (applyStructFields h s flds l).1 h
      ∧ EraseF (applyStructFields h s flds l).2 flds := by
  cases l with
  | nil =>
      rw [show applyStructFields h s flds [] = (h, flds) from by rw [applyStructFields]]
      exact ⟨heapErase_refl h, eraseF_refl flds⟩
  | cons q rest =>
      obtain ⟨n, sub⟩ := q
      rw [applyStructFields]
      cases hf : fGet flds n with
      | none => exact t0_structFields h s flds rest
      | some exfv =>
          obtain ⟨ex, fv⟩ := exfv
          by_cases hex : ex = true
          · subst hex
            simp only [if_true]
            cases fv with
            | vslice items =>
                obtain ⟨hh1, hl1⟩ := t0_sliceElems sub h items
                obtain ⟨hh2, hf2⟩ := t0_structFields (applySliceElems sub h items).1 s
                  (fSet flds n (vslice (applySliceElems sub h items).2)) rest
                exact ⟨heapErase_trans hh2 hh1,
                  eraseF_trans hf2 (eraseF_fSet hf (Erase.rslice hl1))⟩
            | vint a0 =>
                cases sub with
                | remove =>
                    by_cases hs : s = true
                    · subst hs
                      simp only [if_true]
                      obtain ⟨hh2, hf2⟩ :=
                        t0_structFields h true (fSet flds n (zeroOf (vint a0))) rest
                      exact ⟨hh2, eraseF_trans hf2 (eraseF_fSet hf (Erase.zero (vint a0)))⟩
                    · have hs' : s = false := by
                        cases s
                        · rfl
                        · exact absurd rfl hs
                      subst hs'
                      simp only [Bool.false_eq_true, if_false]
                      exact t0_structFields h false flds rest
                | impl ps' =>
                    obtain ⟨hh1, he1⟩ := t0_impl ps' h s (vint a0)
                    obtain ⟨hh2, hf2⟩ := t0_structFields (applyImpl ps' h s (vint a0)).1 s
                      (fSet flds n (applyImpl ps' h s (vint a0)).2) rest
                    exact ⟨heapErase_trans hh2 hh1, eraseF_trans hf2 (eraseF_fSet hf he1)⟩
            | vstr a0 =>
                cases sub with
                | remove =>
                    by_cases hs : s = true
                    · subst hs
                      simp only [if_true]
                      obtain ⟨hh2, hf2⟩ :=
                        t0_structFields h true (fSet flds n (zeroOf (vstr a0))) rest
                      exact ⟨hh2, eraseF_trans hf2 (eraseF_fSet hf (Erase.zero (vstr a0)))⟩
                    · have hs' : s = false := by
                        cases s
                        · rfl
                        · exact absurd rfl hs
                      subst hs'
                      simp only [Bool.false_eq_true, if_false]
                      exact t0_structFields h false flds rest
                | impl ps' =>
                    obtain ⟨hh1, he1⟩ := t0_impl ps' h s (vstr a0)
                    obtain ⟨hh2, hf2⟩ := t0_structFields (applyImpl ps' h s (vstr a0)).1 s
                      (fSet flds n (applyImpl ps' h s (vstr a0)).2) rest
                    exact ⟨heapErase_trans hh2 hh1, eraseF_trans hf2 (eraseF_fSet hf he1)⟩
            | vbool a0 =>
                cases sub with
                | remove =>
                    by_cases hs : s = true
                    · subst hs
                      simp only [if_true]
                      obtain ⟨hh2, hf2⟩ :=
                        t0_structFields h true (fSet flds n (zeroOf (vbool a0))) rest
                      exact ⟨hh2, eraseF_trans hf2 (eraseF_fSet hf (Erase.zero (vbool a0)))⟩
                    · have hs' : s = false := by
                        cases s
                        · rfl
                        · exact absurd rfl hs
                      subst hs'
                      simp only [Bool.false_eq_true, if_false]
                      exact t0_structFields h false flds rest
                | impl ps' =>
                    obtain ⟨hh1, he1⟩ := t0_impl ps' h s (vbool a0)
                    obtain ⟨hh2, hf2⟩ := t0_structFields (applyImpl ps' h s (vbool a0)).1 s
                      (fSet flds n (applyImpl ps' h s (vbool a0)).2) rest
                    exact ⟨heapErase_trans hh2 hh1, eraseF_trans hf2 (eraseF_fSet hf he1)⟩
            | vstruct flds0 =>
                cases sub with
                | remove =>
                    by_cases hs : s = true
                    · subst hs
                      simp only [if_true]
                      obtain ⟨hh2, hf2⟩ :=
                        t0_structFields h true (fSet flds n (zeroOf (vstruct flds0))) rest
                      exact ⟨hh2,
                        eraseF_trans hf2 (eraseF_fSet hf (Erase.zero (vstruct flds0)))⟩
                    · have hs' : s = false := by
                        cases s
                        · rfl
                        · exact absurd rfl hs
                      subst hs'
                      simp only [Bool.false_eq_true, if_false]
                      exact t0_structFields h false flds rest
                | impl ps' =>
                    obtain ⟨hh1, he1⟩ := t0_impl ps' h s (vstruct flds0)
                    obtain ⟨hh2, hf2⟩ := t0_structFields (applyImpl ps' h s (vstruct flds0)).1 s
                      (fSet flds n (applyImpl ps' h s (vstruct flds0)).2) rest
                    exact ⟨heapErase_trans hh2 hh1, eraseF_trans hf2 (eraseF_fSet hf he1)⟩
            | vmap o0 =>
                cases sub with
                | remove =>
                    by_cases hs : s = true
                    · subst hs
                      simp only [if_true]
                      obtain ⟨hh2, hf2⟩ :=
                        t0_structFields h true (fSet flds n (zeroOf (vmap o0))) rest
                      exact ⟨hh2, eraseF_trans hf2 (eraseF_fSet hf (Erase.zero (vmap o0)))⟩
                    · have hs' : s = false := by
                        cases s
                        · rfl
                        · exact absurd rfl hs
                      subst hs'
                      simp only [Bool.false_eq_true, if_false]
                      exact t0_structFields h false flds rest
                | impl ps' =>
                    obtain ⟨hh1, he1⟩ := t0_impl ps' h s (vmap o0)
                    obtain ⟨hh2, hf2⟩ := t0_structFields (applyImpl ps' h s (vmap o0)).1 s
                      (fSet flds n (applyImpl ps' h s (vmap o0)).2) rest
                    exact ⟨heapErase_trans hh2 hh1, eraseF_trans hf2 (eraseF_fSet hf he1)⟩
            | vptr o0 =>
                cases sub with
                | remove =>
                    by_cases hs : s = true
                    · subst hs
                      simp only [if_true]
                      obtain ⟨hh2, hf2⟩ :=
                        t0_structFields h true (fSet flds n (zeroOf (vptr o0))) rest
                      exact ⟨hh2, eraseF_trans hf2 (eraseF_fSet hf (Erase.zero (vptr o0)))⟩
                    · have hs' : s = false := by
                        cases s
                        · rfl
                        · exact absurd rfl hs
                      subst hs'
                      simp only [Bool.false_eq_true, if_false]
                      exact t0_structFields h false flds rest
                | impl ps' =>
                    obtain ⟨hh1, he1⟩ := t0_impl ps' h s (vptr o0)
                    obtain ⟨hh2, hf2⟩ := t0_structFields (applyImpl ps' h s (vptr o0)).1 s
                      (fSet flds n (applyImpl ps' h s (vptr o0)).2) rest
                    exact ⟨heapErase_trans hh2 hh1, eraseF_trans hf2 (eraseF_fSet hf he1)⟩
          · have hex' : ex = false := by
              cases ex
              · rfl
              · exact absurd rfl hex
            subst hex'
            simp only [Bool.false_eq_true, if_false]
            exact t0_structFields h s flds rest
termination_by (sizeOf l, 0, 0)
decreasing_by
  all_goals simp_wf
  all_goals
    first
    | (apply Prod.Lex.left; simp_arith; done)
    | (apply Prod.Lex.left; have hs := sizeOf_alook halook; simp_arith at hs ⊢; omega)
    | (apply Prod.Lex.right; apply Prod.Lex.left; simp_arith; done)
    | (apply Prod.Lex.right; apply Prod.Lex.left; omega)
    | (apply Prod.Lex.right; apply Prod.Lex.right; simp_arith; done)
    | (apply Prod.Lex.right; apply Prod.Lex.right; omega)

theorem t0_sliceElem1 (sub : Ruler) (h : Heap) (it : Value) :
    HeapErase (applySliceElem1 sub h it).1 h ∧ Erase (applySliceElem1 sub h it).2 it := by
  cases it with
  | vptr o =>
      cases o with
      | none =>
          rw [show applySliceElem1 sub h (vptr none) = (h, vptr none) from by
                rw [applySliceElem1]]
          exact ⟨heapErase_refl h, erase_refl (vptr none)⟩
      | some t =>
          cases sub with
          | remove =>
              rw [show applySliceElem1 Ruler.remove h (vptr (some t))
                    = (h, vptr (some (zeroOf t))) from by rw [applySliceElem1]]
              exact ⟨heapErase_refl h, Erase.rptr (Erase.zero t)⟩
          | impl ps' =>
              rw [show applySliceElem1 (Ruler.impl ps') h (vptr (some t))
                    = ((applyImpl ps' h true t).1, vptr (some (applyImpl ps' h true t).2))
                  from by rw [applySliceElem1]]
              obtain ⟨hh, he⟩ := t0_impl ps' h true t
              exact ⟨hh, Erase.rptr he⟩
  | vint a0 =>
      cases sub with
      | remove =>
          rw [show applySliceElem1 Ruler.remove h (vint a0) = (h, zeroOf (vint a0)) from by
                simp [applySliceElem1]]
          exact ⟨heapErase_refl h, Erase.zero (vint a0)⟩
      | impl ps' =>
          rw [show applySliceElem1 (Ruler.impl ps') h (vint a0)
                = applyImpl ps' h true (vint a0) from by simp [applySliceElem1]]
          exact t0_impl ps' h true (vint a0)
  | vstr a0 =>
      cases sub with
      | remove =>
          rw [show applySliceElem1 Ruler.remove h (vstr a0) = (h, zeroOf (vstr a0)) from by
                simp [applySliceElem1]]
          exact ⟨heapErase_refl h, Erase.zero (vstr a0)⟩
      | impl ps' =>
          rw [show applySliceElem1 (Ruler.impl ps') h (vstr a0)
                = applyImpl ps' h true (vstr a0) from by simp [applySliceElem1]]
          exact t0_impl ps' h true (vstr a0)
  | vbool a0 =>
      cases sub with
      | remove =>
          rw [show applySliceElem1 Ruler.remove h (vbool a0) = (h, zeroOf (vbool a0)) from by
                simp [applySliceElem1]]
          exact ⟨heapErase_refl h, Erase.zero (vbool a0)⟩
      | impl ps' =>
          rw [show applySliceElem1 (Ruler.impl ps') h (vbool a0)
                = applyImpl ps' h true (vbool a0) from by simp [applySliceElem1]]
          exact t0_impl ps' h true (vbool a0)
  | vstruct flds0 =>
      cases sub with
      | remove =>
          rw [show applySliceElem1 Ruler.remove h (vstruct flds0)
                = (h, zeroOf (vstruct flds0)) from by simp [applySliceElem1]]
          exact ⟨heapErase_refl h, Erase.zero (vstruct flds0)⟩
      | impl ps' =>
          rw [show applySliceElem1 (Ruler.impl ps') h (vstruct flds0)
                = applyImpl ps' h true (vstruct flds0) from by simp [applySliceElem1]]
          exact t0_impl ps' h true (vstruct flds0)
  | vslice items0 =>
      cases sub with
      | remove =>
          rw [show applySliceElem1 Ruler.remove h (vslice items0)
                = (h, zeroOf (vslice items0)) from by simp [applySliceElem1]]
          exact ⟨heapErase_refl h, Erase.zero (vslice items0)⟩
      | impl ps' =>
          rw [show applySliceElem1 (Ruler.impl ps') h (vslice items0)
                = applyImpl ps' h true (vslice items0) from by simp [applySliceElem1]]
          exact t0_impl ps' h true (vslice items0)
  | vmap o0 =>
      cases sub with
      | remove =>
          rw [show applySliceElem1 Ruler.remove h (vmap o0) = (h, zeroOf (vmap o0)) from by
                simp [applySliceElem1]]
          exact ⟨heapErase_refl h, Erase.zero (vmap o0)⟩
      | impl ps' =>
          rw [show applySliceElem1 (Ruler.impl ps') h (vmap o0)
                = applyImpl ps' h true (vmap o0) from by simp [applySliceElem1]]
          exact t0_impl ps' h true (vmap o0)
termination_by (sizeOf sub, sizeOf it, 1)
decreasing_by
  all_goals simp_wf
  all_goals
    first
    | (apply Prod.Lex.left; simp_arith; done)
    | (apply Prod.Lex.left; have hs := sizeOf_alook halook; simp_arith at hs ⊢; omega)
    | (apply Prod.Lex.right; apply Prod.Lex.left; simp_arith; done)
    | (apply Prod.Lex.right; apply Prod.Lex.left; omega)
    | (apply Prod.Lex.right; apply Prod.Lex.right; simp_arith; done)
    | (apply Prod.Lex.right; apply Prod.Lex.right; omega)

theorem t0_sliceElems (sub : Ruler) (h : Heap) (items : List Value) :
    HeapErase (applySliceElems sub h items).1 h
      ∧ EraseL (applySliceElems sub h items).2 items := by
  cases items with
  | nil =>
      rw [show applySliceElems sub h [] = (h, []) from by rw [applySliceElems]]
      exact ⟨heapErase_refl h, EraseL.nil⟩
  | cons it rest =>
      rw [applySliceElems]
      obtain ⟨hh1, he1⟩ := t0_sliceElem1 sub h it
      obtain ⟨hh2, hl2⟩ := t0_sliceElems sub (applySliceElem1 sub h it).1 rest
      exact ⟨heapErase_trans hh2 hh1, EraseL.cons he1 hl2⟩
termination_by (sizeOf sub, sizeOf items, 2)
decreasing_by
  all_goals simp_wf
  all_goals
    first
    | (apply Prod.Lex.left; simp_arith; done)
    | (apply Prod.Lex.left; have hs := sizeOf_alook halook; simp_arith at hs ⊢; omega)
    | (apply Prod.Lex.right; apply Prod.Lex.left; simp_arith; done)
    | (apply Prod.Lex.right; apply Prod.Lex.left; omega)
    | (apply Prod.Lex.right; apply Prod.Lex.right; simp_arith; done)
    | (apply Prod.Lex.right; apply Prod.Lex.right; omega)

theorem t0_mapKeys (ps : List (String × Ruler)) (h : Heap) (a : Nat) (keys : List String) :
    HeapErase (applyMapKeys ps h a keys) h := by
  cases keys with
  | nil =>
      rw [applyMapKeys_nil]
      exact heapErase_refl h
  | cons k rest =>
      rw [applyMapKeys_cons]
      have hstep : HeapErase (mapStep ps h a k) h := by
        unfold mapStep
        cases halook : alook ps k with
        | none => exact heapErase_refl h
        | some sub =>
            cases hu : alook (hGet h a) k with
            | none =>
                cases sub with
                | remove =>
                    exact heapErase_hSet (heapErase_refl h) (subErase_mdel (hGet h a) k)
                | impl ps' => exact heapErase_refl h
            | some u =>
                cases u with
                | vptr o =>
                    cases o with
                    | none => exact heapErase_refl h
                    | some t =>
                        cases sub with
                        | remove =>
                            exact heapErase_hSet (heapErase_refl h)
                              (subErase_mdel (hGet h a) k)
                        | impl ps' =>
                            obtain ⟨hh, he⟩ := t0_impl ps' h true t
                            exact heapErase_hSet hh
                              (subErase_mupd_erase (heapErase_hGet hh a) hu (Erase.rptr he))
                | vint a0 =>
                    cases sub with
                    | remove =>
                        exact heapErase_hSet (heapErase_refl h) (subErase_mdel (hGet h a) k)
                    | impl ps' =>
                        obtain ⟨hh, he⟩ := t0_impl ps' h false (vint a0)
                        exact heapErase_hSet hh
                          (subErase_mupd_erase (heapErase_hGet hh a) hu he)
                | vstr a0 =>
                    cases sub with
                    | remove =>
                        exact heapErase_hSet (heapErase_refl h) (subErase_mdel (hGet h a) k)
                    | impl ps' =>
                        obtain ⟨hh, he⟩ := t0_impl ps' h false (vstr a0)
                        exact heapErase_hSet hh
                          (subErase_mupd_erase (heapErase_hGet hh a) hu he)
                | vbool a0 =>
                    cases sub with
                    | remove =>
                        exact heapErase_hSet (heapErase_refl h) (subErase_mdel (hGet h a) k)
                    | impl ps' =>
                        obtain ⟨hh, he⟩ := t0_impl ps' h false (vbool a0)
                        exact heapErase_hSet hh
                          (subErase_mupd_erase (heapErase_hGet hh a) hu he)
                | vstruct flds0 =>
                    cases sub with
                    | remove =>
                        exact heapErase_hSet (heapErase_refl h) (subErase_mdel (hGet h a) k)
                    | impl ps' =>
                        obtain ⟨hh, he⟩ := t0_impl ps' h false (vstruct flds0)
                        exact heapErase_hSet hh
                          (subErase_mupd_erase (heapErase_hGet hh a) hu he)
                | vslice items0 =>
                    cases sub with
                    | remove =>
                        exact heapErase_hSet (heapErase_refl h) (subErase_mdel (hGet h a) k)
                    | impl ps' =>
                        obtain ⟨hh, he⟩ := t0_impl ps' h false (vslice items0)
                        exact heapErase_hSet hh
                          (subErase_mupd_erase (heapErase_hGet hh a) hu he)
                | vmap o0 =>
                    cases sub with
                    | remove =>
                        exact heapErase_hSet (heapErase_refl h) (subErase_mdel (hGet h a) k)
                    | impl ps' =>
                        obtain ⟨hh, he⟩ := t0_impl ps' h false (vmap o0)
                        exact heapErase_hSet hh
                          (subErase_mupd_erase (heapErase_hGet hh a) hu he)
      exact heapErase_trans (t0_mapKeys ps (mapStep ps h a k) a rest) hstep
termination_by (sizeOf ps, 0, sizeOf keys)
decreasing_by
  all_goals simp_wf
  all_goals
    first
    | (apply Prod.Lex.left; simp_arith; done)
    | (apply Prod.Lex.left; have hs := sizeOf_alook halook; simp_arith at hs ⊢; omega)
    | (apply Prod.Lex.right; apply Prod.Lex.left; simp_arith; done)
    | (apply Prod.Lex.right; apply Prod.Lex.left; omega)
    | (apply Prod.Lex.right; apply Prod.Lex.right; simp_arith; done)
    | (apply Prod.Lex.right; apply Prod.Lex.right; omega)

end

mutual

/-- Stability predicate mirroring `applyRules`: `true` when running the
rules on this value changes neither the value nor the heap. -/
def stabImpl (ps : List (String × Ruler)) (h : Heap) (s : Bool) (v : Value) : Bool :=
  match v with
  | vptr none => true
  | vptr (some t) => stabValue ps h true t
  | w => stabValue ps h s w
termination_by (sizeOf ps, sizeOf v, 2)
decreasing_by
  all_goals simp_wf
  all_goals
    first
    | (apply Prod.Lex.left; simp_arith; done)
    | (apply Prod.Lex.right; apply Prod.Lex.left; simp_arith; done)
    | (apply Prod.Lex.right; apply Prod.Lex.left; omega)
    | (apply Prod.Lex.right; apply Prod.Lex.right; simp_arith; done)
    | (apply Prod.Lex.right; apply Prod.Lex.right; omega)

def stabValue (ps : List (String × Ruler)) (h : Heap) (s : Bool) (v : Value) : Bool :=
  match v with
  | vstruct flds => stabFields h s flds ps
  | vmap (some a) => stabKeys h a ps (mkeys (hGet h a))
  | _ => true
termination_by (sizeOf ps, sizeOf v, 1)
decreasing_by
  all_goals simp_wf
  all_goals
    first
    | (apply Prod.Lex.left; simp_arith; done)
    | (apply Prod.Lex.right; apply Prod.Lex.left; simp_arith; done)
    | (apply Prod.Lex.right; apply Prod.Lex.left; omega)
    | (apply Prod.Lex.right; apply Prod.Lex.right; simp_arith; done)
    | (apply Prod.Lex.right; apply Prod.Lex.right; omega)

def stabFields (h : Heap) (s : Bool) (flds : List (String × Bool × Value)) :
    List (String × Ruler) → Bool
  | [] => true
  | (n, sub) :: rest =>
      (match fGet flds n with
       | none => true
       | some (ex, fv) =>
         if ex then
           match fv with
           | vslice items => stabSliceElems sub h items
           | _ =>
             match sub with
             | Ruler.remove => !s || decide (zeroOf fv = fv)
             | Ruler.impl ps' => stabImpl ps' h s fv
         else true)
      && stabFields h s flds rest
termination_by l => (sizeOf l, 0, 0)
decreasing_by
  all_goals simp_wf
  all_goals
    first
    | (apply Prod.Lex.left; simp_arith; done)
    | (apply Prod.Lex.right; apply Prod.Lex.left; simp_arith; done)
    | (apply Prod.Lex.right; apply Prod.Lex.left; omega)
    | (apply Prod.Lex.right; apply Prod.Lex.right; simp_arith; done)
    | (apply Prod.Lex.right; apply Prod.Lex.right; omega)

def stabElem1 (sub : Ruler) (h : Heap) (it : Value) : Bool :=
  match it with
  | vptr none => true
  | vptr (some t) =>
    match sub with
    | Ruler.remove => decide (zeroOf t = t)
    | Ruler.impl ps' => stabImpl ps' h true t
  | _ =>
    match sub with
    | Ruler.remove => decide (zeroOf it = it)
    | Ruler.impl ps' => stabImpl ps' h true it
termination_by (sizeOf sub, sizeOf it, 1)
decreasing_by
  all_goals simp_wf
  all_goals
    first
    | (apply Prod.Lex.left; simp_arith; done)
    | (apply Prod.Lex.right; apply Prod.Lex.left; simp_arith; done)
    | (apply Prod.Lex.right; apply Prod.Lex.left; omega)
    | (apply Prod.Lex.right; apply Prod.Lex.right; simp_arith; done)
    | (apply Prod.Lex.right; apply Prod.Lex.right; omega)

def stabSliceElems (sub : Ruler) (h : Heap) : List Value → Bool
  | [] => true
  | it :: rest => stabElem1 sub h it && stabSliceElems sub h rest
termination_by items => (sizeOf sub, sizeOf items, 2)
decreasing_by
  all_goals simp_wf
  all_goals
    first
    | (apply Prod.Lex.left; simp_arith; done)
    | (apply Prod.Lex.right; apply Prod.Lex.left; simp_arith; done)
    | (apply Prod.Lex.right; apply Prod.Lex.left; omega)
    | (apply Prod.Lex.right; apply Prod.Lex.right; simp_arith; done)
    | (apply Prod.Lex.right; apply Prod.Lex.right; omega)

def stabKeys (h : Heap) (a : Nat) (l : List (String × Ruler)) : List String → Bool
  | [] => true
  | k :: rest =>
      (match alook (hGet h a) k with
       | none => true
       | some u => stabMapEntry h k u l)
      && stabKeys h a l rest
termination_by keys => (sizeOf l, 0, 1 + sizeOf keys)
decreasing_by
  all_goals simp_wf
  all_goals
    first
    | (apply Prod.Lex.left; simp_arith; done)
    | (apply Prod.Lex.right; apply Prod.Lex.left; simp_arith; done)
    | (apply Prod.Lex.right; apply Prod.Lex.left; omega)
    | (apply Prod.Lex.right; apply Prod.Lex.right; simp_arith; done)
    | (apply Prod.Lex.right; apply Prod.Lex.right; omega)

def stabMapEntry (h : Heap) (k : String) (u : Value) : List (String × Ruler) → Bool
  | [] => true
  | (n, sub) :: rest =>
      if n = k then
        match sub with
        | Ruler.remove => decide (u = vptr none)
        | Ruler.impl ps' =>
          match u with
          | vptr none => true
          | vptr (some t) => stabImpl ps' h true t
          | _ => stabImpl ps' h false u
      else stabMapEntry h k u rest
termination_by l => (sizeOf l, 0, 0)
decreasing_by
  all_goals simp_wf
  all_goals
    first
    | (apply Prod.Lex.left; simp_arith; done)
    | (apply Prod.Lex.right; apply Prod.Lex.left; simp_arith; done)
    | (apply Prod.Lex.right; apply Prod.Lex.left; omega)
    | (apply Prod.Lex.right; apply Prod.Lex.right; simp_arith; done)
    | (apply Prod.Lex.right; apply Prod.Lex.right; omega)

end

/-- The stability condition attached to key `k` of heap cell `a`. -/
def stabEntry (h : Heap) (a : Nat) (k : String) (l : List (String × Ruler)) : Bool :=
  match alook (hGet h a) k with
  | none => true
  | some u => stabMapEntry h k u l

theorem mupd_self_id {α : Type} {m : List (String × α)} {k : String} {u : α}
    (hk : alook m k = some u) : mupd m k u = m := by
  induction m with
  | nil => cases hk
  | cons p rest ih =>
      by_cases hp : p.1 = k
      · rw [show alook (p :: rest) k = some p.2 from by simp [alook, hp]] at hk
        cases hk
        show (if p.1 = k then (p.1, p.2) :: rest else p :: mupd rest k p.2) = p :: rest
        rw [if_pos hp]
      · rw [show alook (p :: rest) k = alook rest k from by simp [alook, hp]] at hk
        show (if p.1 = k then (p.1, u) :: rest else p :: mupd rest k u) = p :: rest
        rw [if_neg hp, ih hk]

theorem fSet_self_id {flds : List (String × Bool × Value)} {n : String} {ex : Bool}
    {fv : Value} (hf : fGet flds n = some (ex, fv)) : fSet flds n fv = flds := by
  induction flds with
  | nil => cases hf
  | cons p rest ih =>
      obtain ⟨m, ex0, v0⟩ := p
      by_cases hp : m = n
      · rw [show fGet ((m, ex0, v0) :: rest) n = some (ex0, v0) from by simp [fGet, hp]] at hf
        cases hf
        show (if m = n then (m, ex, fv) :: rest else _ :: fSet rest n fv) = _
        rw [if_pos hp]
      · rw [show fGet ((m, ex0, v0) :: rest) n = fGet rest n from by simp [fGet, hp]] at hf
        show (if m = n then (m, ex0, fv) :: rest else (m, ex0, v0) :: fSet rest n fv) = _
        rw [if_neg hp, ih hf]

theorem hGet_hSet_ne {b a : Nat} (hne : b ≠ a) (h : Heap) (m : MapData) :
    hGet (hSet h a m) b = hGet h b := by
  induction h generalizing a b with
  | nil => rfl
  | cons c rest ih =>
      cases a with
      | zero =>
          cases b with
          | zero => exact absurd rfl hne
          | succ b' => rfl
      | succ a' =>
          cases b with
          | zero => rfl
          | succ b' => exact ih (fun hx => hne (congrArg Nat.succ hx))

theorem stabMapEntry_nil (h : Heap) (k : String) (u : Value) :
    stabMapEntry h k u [] = true := by
  rw [stabMapEntry]

theorem stabMapEntry_of_alook_none {l : List (String × Ruler)} {k : String}
    (hk : alook l k = none) (h : Heap) (u : Value) : stabMapEntry h k u l = true := by
  induction l with
  | nil => exact stabMapEntry_nil h k u
  | cons p rest ih =>
      obtain ⟨n, sub⟩ := p
      by_cases hp : n = k
      · rw [show alook ((n, sub) :: rest) k = some sub from by simp [alook, hp]] at hk
        cases hk
      · rw [show alook ((n, sub) :: rest) k = alook rest k from by simp [alook, hp]] at hk
        rw [show stabMapEntry h k u ((n, sub) :: rest) = stabMapEntry h k u rest from by
              rw [stabMapEntry.eq_def]
              simp only [hp, if_false]]
        exact ih hk

theorem stabKeys_to_forall {h : Heap} {a : Nat} {l : List (String × Ruler)} :
    ∀ {keys : List String}, stabKeys h a l keys = true →
      ∀ k ∈ keys, stabEntry h a k l = true := by
  intro keys
  induction keys with
  | nil => intro _ k hk; cases hk
  | cons k0 rest ih =>
      intro hst k hk
      rw [stabKeys] at hst
      simp only [Bool.and_eq_true] at hst
      obtain ⟨h1, h2⟩ := hst
      rcases List.mem_cons.mp hk with hk1 | hk1
      · subst hk1
        exact h1
      · exact ih h2 k hk1

theorem forall_to_stabKeys {h : Heap} {a : Nat} {l : List (String × Ruler)} :
    ∀ {keys : List String}, (∀ k ∈ keys, stabEntry h a k l = true) →
      stabKeys h a l keys = true := by
  intro keys
  induction keys with
  | nil => intro _; rw [stabKeys]
  | cons k0 rest ih =>
      intro hst
      rw [stabKeys]
      simp only [Bool.and_eq_true]
      refine ⟨hst k0 (List.mem_cons_self _ _), ih ?_⟩
      intro k hk
      exact hst k (List.mem_cons_of_mem _ hk)

theorem mdel_absent {m : MapData} {k : String} (hk : alook m k = none) :
    mdel m k = m := by
  induction m with
  | nil => rfl
  | cons p rest ih =>
      by_cases hp : p.1 = k
      · rw [show alook (p :: rest) k = some p.2 from by simp [alook, hp]] at hk
        cases hk
      · rw [show alook (p :: rest) k = alook rest k from by simp [alook, hp]] at hk
        unfold mdel
        rw [List.filter_cons, if_pos (decide_eq_true hp)]
        show p :: mdel rest k = p :: rest
        rw [ih hk]

theorem stabMapEntry_remove {h : Heap} {k : String} {u : Value} :
    ∀ {l : List (String × Ruler)}, stabMapEntry h k u l = true →
      alook l k = some Ruler.remove → u = vptr none := by
  intro l
  induction l with
  | nil => intro _ hk; cases hk
  | cons p rest ih =>
      intro hst hk
      obtain ⟨n, sub⟩ := p
      by_cases hp : n = k
      · rw [show alook ((n, sub) :: rest) k = some sub from by simp [alook, hp]] at hk
        cases hk
        rw [stabMapEntry.eq_def] at hst
        simp only [hp, if_true] at hst
        exact of_decide_eq_true hst
      · rw [show alook ((n, sub) :: rest) k = alook rest k from by simp [alook, hp]] at hk
        rw [stabMapEntry.eq_def] at hst
        simp only [hp, if_false] at hst
        exact ih hst hk

theorem stabMapEntry_impl {h : Heap} {k : String} {u : Value} {ps' : List (String × Ruler)} :
    ∀ {l : List (String × Ruler)}, stabMapEntry h k u l = true →
      alook l k = some (Ruler.impl ps') →
      (u = vptr none
        ∨ (∃ t, u = vptr (some t) ∧ stabImpl ps' h true t = true)
        ∨ ((∀ o, u ≠ vptr o) ∧ stabImpl ps' h false u = true)) := by
  intro l
  induction l with
  | nil => intro _ hk; cases hk
  | cons p rest ih =>
      intro hst hk
      obtain ⟨n, sub⟩ := p
      by_cases hp : n = k
      · rw [show alook ((n, sub) :: rest) k = some sub from by simp [alook, hp]] at hk
        cases hk
        rw [stabMapEntry.eq_def] at hst
        simp only [hp, if_true] at hst
        cases u with
        | vptr o =>
            cases o with
            | none => exact Or.inl rfl
            | some t => exact Or.inr (Or.inl ⟨t, rfl, hst⟩)
        | vint a0 => exact Or.inr (Or.inr ⟨fun o hx => Value.noConfusion hx, hst⟩)
        | vstr a0 => exact Or.inr (Or.inr ⟨fun o hx => Value.noConfusion hx, hst⟩)
        | vbool a0 => exact Or.inr (Or.inr ⟨fun o hx => Value.noConfusion hx, hst⟩)
        | vstruct flds0 => exact Or.inr (Or.inr ⟨fun o hx => Value.noConfusion hx, hst⟩)
        | vslice items0 => exact Or.inr (Or.inr ⟨fun o hx => Value.noConfusion hx, hst⟩)
        | vmap o0 => exact Or.inr (Or.inr ⟨fun o hx => Value.noConfusion hx, hst⟩)
      · rw [show alook ((n, sub) :: rest) k = alook rest k from by simp [alook, hp]] at hk
        rw [stabMapEntry.eq_def] at hst
        simp only [hp, if_false] at hst
        exact ih hst hk

theorem stabImpl_notptr (ps : List (String × Ruler)) (h : Heap) (s : Bool) (v : Value)
    (hv : ∀ o, v ≠ vptr o) : stabImpl ps h s v = stabValue ps h s v := by
  cases v with
  | vptr o => exact absurd rfl (hv o)
  | vint a => simp [stabImpl]
  | vstr a => simp [stabImpl]
  | vbool a => simp [stabImpl]
  | vstruct flds => simp [stabImpl]
  | vslice items => simp [stabImpl]
  | vmap o => simp [stabImpl]

theorem stabElem1_notptr_remove {h : Heap} {it : Value} (hv : ∀ o, it ≠ vptr o) :
    stabElem1 Ruler.remove h it = decide (zeroOf it = it) := by
  cases it with
  | vptr o => exact absurd rfl (hv o)
  | vint a => simp [stabElem1]
  | vstr a => simp [stabElem1]
  | vbool a => simp [stabElem1]
  | vstruct flds => simp [stabElem1]
  | vslice items => simp [stabElem1]
  | vmap o => simp [stabElem1]

theorem stabElem1_notptr_impl {h : Heap} {it : Value} {ps' : List (String × Ruler)}
    (hv : ∀ o, it ≠ vptr o) : stabElem1 (Ruler.impl ps') h it = stabImpl ps' h true it := by
  cases it with
  | vptr o => exact absurd rfl (hv o)
  | vint a => simp [stabElem1]
  | vstr a => simp [stabElem1]
  | vbool a => simp [stabElem1]
  | vstruct flds => simp [stabElem1]
  | vslice items => simp [stabElem1]
  | vmap o => simp [stabElem1]

mutual

/-- Soundness of the stability predicate: on a stable value the rules run
as the identity on both the heap and the value. -/
theorem ss_impl (ps : List (String × Ruler)) (h : Heap) (s : Bool) (v : Value) :
    stabImpl ps h s v = true → applyImpl ps h s v = (h, v) := by
  cases v with
  | vptr o =>
      cases o with
      | none =>
          intro _
          exact applyImpl_vptr_none ps h s
      | some t =>
          intro hst
          rw [stabImpl] at hst
          rw [applyImpl_vptr_some, ss_value ps h true t hst]
  | vint a0 =>
      intro hst
      rw [stabImpl_notptr ps h s (vint a0) (by intro o hx; cases hx)] at hst
      rw [applyImpl_notptr ps h s (vint a0) (by intro o hx; cases hx)]
      exact ss_value ps h s (vint a0) hst
  | vstr a0 =>
      intro hst
      rw [stabImpl_notptr ps h s (vstr a0) (by intro o hx; cases hx)] at hst
      rw [applyImpl_notptr ps h s (vstr a0) (by intro o hx; cases hx)]
      exact ss_value ps h s (vstr a0) hst
  | vbool a0 =>
      intro hst
      rw [stabImpl_notptr ps h s (vbool a0) (by intro o hx; cases hx)] at hst
      rw [applyImpl_notptr ps h s (vbool a0) (by intro o hx; cases hx)]
      exact ss_value ps h s (vbool a0) hst
  | vstruct flds =>
      intro hst
      rw [stabImpl_notptr ps h s (vstruct flds) (by intro o hx; cases hx)] at hst
      rw [applyImpl_notptr ps h s (vstruct flds) (by intro o hx; cases hx)]
      exact ss_value ps h s (vstruct flds) hst
  | vslice items =>
      intro hst
      rw [stabImpl_notptr ps h s (vslice items) (by intro o hx; cases hx)] at hst
      rw [applyImpl_notptr ps h s (vslice items) (by intro o hx; cases hx)]
      exact ss_value ps h s (vslice items) hst
  | vmap o =>
      intro hst
      rw [stabImpl_notptr ps h s (vmap o) (by intro o' hx; cases hx)] at hst
      rw [applyImpl_notptr ps h s (vmap o) (by intro o' hx; cases hx)]
      exact ss_value ps h s (vmap o) hst
termination_by (sizeOf ps, sizeOf v, 2)
decreasing_by
  all_goals simp_wf
  all_goals
    first
    | (apply Prod.Lex.left; simp_arith; done)
    | (apply Prod.Lex.left; have hs := sizeOf_alook halook; simp_arith at hs ⊢; omega)
    | (apply Prod.Lex.right; apply Prod.Lex.left; simp_arith; done)
    | (apply Prod.Lex.right; apply Prod.Lex.left; omega)
    | (apply Prod.Lex.right; apply Prod.Lex.right; simp_arith; done)
    | (apply Prod.Lex.right; apply Prod.Lex.right; omega)

theorem ss_value (ps : List (String × Ruler)) (h : Heap) (s : Bool) (v : Value) :
    stabValue ps h s v = true → applyValue ps h s v = (h, v) := by
  cases v with
  | vstruct flds =>
      intro hst
      rw [stabValue] at hst
      rw [applyValue_vstruct, ss_fields h s flds ps hst]
  | vmap o =>
      cases o with
      | none =>
          intro _
          exact applyValue_inert ps h s (vmap none) (by intro flds0 hx; cases hx)
            (by intro a hx; simp at hx)
      | some a =>
          intro hst
          rw [stabValue] at hst
          rw [applyValue_vmap_some,
            ss_keys ps h a (mkeys (hGet h a)) (stabKeys_to_forall hst)]
  | vint a0 =>
      intro _
      exact applyValue_inert ps h s (vint a0) (by intro flds0 hx; cases hx)
        (by intro a hx; cases hx)
  | vstr a0 =>
      intro _
      exact applyValue_inert ps h s (vstr a0) (by intro flds0 hx; cases hx)
        (by intro a hx; cases hx)
  | vbool a0 =>
      intro _
      exact applyValue_inert ps h s (vbool a0) (by intro flds0 hx; cases hx)
        (by intro a hx; cases hx)
  | vslice items =>
      intro _
      exact applyValue_inert ps h s (vslice items) (by intro flds0 hx; cases hx)
        (by intro a hx; cases hx)
  | vptr o =>
      intro _
      exact applyValue_inert ps h s (vptr o) (by intro flds0 hx; cases hx)
        (by intro a hx; cases hx)
termination_by (sizeOf ps, sizeOf v, 1)
decreasing_by
  all_goals simp_wf
  all_goals
    first
    | (apply Prod.Lex.left; simp_arith; done)
    | (apply Prod.Lex.left; have hs := sizeOf_alook halook; simp_arith at hs ⊢; omega)
    | (apply Prod.Lex.right; apply Prod.Lex.left; simp_arith; done)
    | (apply Prod.Lex.right; apply Prod.Lex.left; omega)
    | (apply Prod.Lex.right; apply Prod.Lex.right; simp_arith; done)
    | (apply Prod.Lex.right; apply Prod.Lex.right; omega)

theorem ss_fields (h : Heap) (s : Bool) (flds : List (String × Bool × Value))
    (l : List (String × Ruler)) :
    stabFields h s flds l = true → applyStructFields h s flds l = (h, flds) := by
  cases l with
  | nil =>
      intro _
      rw [applyStructFields]
  | cons q rest =>
      obtain ⟨n, sub⟩ := q
      cases hf : fGet flds n with
      | none =>
          intro hst
          rw [stabFields, hf] at hst
          simp only [Bool.and_eq_true] at hst
          obtain ⟨hhead, htail⟩ := hst
          rw [applyStructFields, hf]
          exact ss_fields h s flds rest htail
      | some exfv =>
          obtain ⟨ex, fv⟩ := exfv
          by_cases hex : ex = true
          · subst hex
            cases fv with
            | vslice items =>
                intro hst
                rw [stabFields, hf] at hst
                simp only [Bool.and_eq_true] at hst
                obtain ⟨hhead, htail⟩ := hst
                have hh : stabSliceElems sub h items = true := hhead
                have e1 := ss_elems sub h items hh
                rw [applyStructFields, hf]
                show applyStructFields (applySliceElems sub h items).1 s
                    (fSet flds n (vslice (applySliceElems sub h items).2)) rest = (h, flds)
                rw [e1]
                show applyStructFields h s (fSet flds n (vslice items)) rest = (h, flds)
                rw [fSet_self_id hf]
                exact ss_fields h s flds rest htail
            | vint a0 =>
                cases sub with
                | remove =>
                    cases s with
                    | false =>
                        intro hst
                        rw [stabFields, hf] at hst
                        simp only [Bool.and_eq_true] at hst
                        obtain ⟨hhead, htail⟩ := hst
                        rw [applyStructFields, hf]
                        show applyStructFields h false flds rest = (h, flds)
                        exact ss_fields h false flds rest htail
                    | true =>
                        intro hst
                        rw [stabFields, hf] at hst
                        simp only [Bool.and_eq_true] at hst
                        obtain ⟨hhead, htail⟩ := hst
                        have hh : (!true || decide (zeroOf (vint a0) = vint a0)) = true := hhead
                        rw [Bool.not_true, Bool.false_or] at hh
                        have hz : zeroOf (vint a0) = vint a0 := of_decide_eq_true hh
                        rw [applyStructFields, hf]
                        show applyStructFields h true (fSet flds n (zeroOf (vint a0))) rest
                          = (h, flds)
                        rw [hz, fSet_self_id hf]
                        exact ss_fields h true flds rest htail
                | impl ps' =>
                    intro hst
                    rw [stabFields, hf] at hst
                    simp only [Bool.and_eq_true] at hst
                    obtain ⟨hhead, htail⟩ := hst
                    have hh : stabImpl ps' h s (vint a0) = true := hhead
                    have e1 := ss_impl ps' h s (vint a0) hh
                    rw [applyStructFields, hf]
                    show applyStructFields (applyImpl ps' h s (vint a0)).1 s
                        (fSet flds n (applyImpl ps' h s (vint a0)).2) rest = (h, flds)
                    rw [e1]
                    show applyStructFields h s (fSet flds n (vint a0)) rest = (h, flds)
                    rw [fSet_self_id hf]
                    exact ss_fields h s flds rest htail
            | vstr a0 =>
                cases sub with
                | remove =>
                    cases s with
                    | false =>
                        intro hst
                        rw [stabFields, hf] at hst
                        simp only [Bool.and_eq_true] at hst
                        obtain ⟨hhead, htail⟩ := hst
                        rw [applyStructFields, hf]
                        show applyStructFields h false flds rest = (h, flds)
                        exact ss_fields h false flds rest htail
                    | true =>
                        intro hst
                        rw [stabFields, hf] at hst
                        simp only [Bool.and_eq_true] at hst
                        obtain ⟨hhead, htail⟩ := hst
                        have hh : (!true || decide (zeroOf (vstr a0) = vstr a0)) = true := hhead
                        rw [Bool.not_true, Bool.false_or] at hh
                        have hz : zeroOf (vstr a0) = vstr a0 := of_decide_eq_true hh
                        rw [applyStructFields, hf]
                        show applyStructFields h true (fSet flds n (zeroOf (vstr a0))) rest
                          = (h, flds)
                        rw [hz, fSet_self_id hf]
                        exact ss_fields h true flds rest htail
                | impl ps' =>
                    intro hst
                    rw [stabFields, hf] at hst
                    simp only [Bool.and_eq_true] at hst
                    obtain ⟨hhead, htail⟩ := hst
                    have hh : stabImpl ps' h s (vstr a0) = true := hhead
                    have e1 := ss_impl ps' h s (vstr a0) hh
                    rw [applyStructFields, hf]
                    show applyStructFields (applyImpl ps' h s (vstr a0)).1 s
                        (fSet flds n (applyImpl ps' h s (vstr a0)).2) rest = (h, flds)
                    rw [e1]
                    show applyStructFields h s (fSet flds n (vstr a0)) rest = (h, flds)
                    rw [fSet_self_id hf]
                    exact ss_fields h s flds rest htail
            | vbool a0 =>
                cases sub with
                | remove =>
                    cases s with
                    | false =>
                        intro hst
                        rw [stabFields, hf] at hst
                        simp only [Bool.and_eq_true] at hst
                        obtain ⟨hhead, htail⟩ := hst
                        rw [applyStructFields, hf]
                        show applyStructFields h false flds rest = (h, flds)
                        exact ss_fields h false flds rest htail
                    | true =>
                        intro hst
                        rw [stabFields, hf] at hst
                        simp only [Bool.and_eq_true] at hst
                        obtain ⟨hhead, htail⟩ := hst
                        have hh : (!true || decide (zeroOf (vbool a0) = vbool a0)) = true := hhead
                        rw [Bool.not_true, Bool.false_or] at hh
                        have hz : zeroOf (vbool a0) = vbool a0 := of_decide_eq_true hh
                        rw [applyStructFields, hf]
                        show applyStructFields h true (fSet flds n (zeroOf (vbool a0))) rest
                          = (h, flds)
                        rw [hz, fSet_self_id hf]
                        exact ss_fields h true flds rest htail
                | impl ps' =>
                    intro hst
                    rw [stabFields, hf] at hst
                    simp only [Bool.and_eq_true] at hst
                    obtain ⟨hhead, htail⟩ := hst
                    have hh : stabImpl ps' h s (vbool a0) = true := hhead
                    have e1 := ss_impl ps' h s (vbool a0) hh
                    rw [applyStructFields, hf]
                    show applyStructFields (applyImpl ps' h s (vbool a0)).1 s
                        (fSet flds n (applyImpl ps' h s (vbool a0)).2) rest = (h, flds)
                    rw [e1]
                    show applyStructFields h s (fSet flds n (vbool a0)) rest = (h, flds)
                    rw [fSet_self_id hf]
                    exact ss_fields h s flds rest htail
            | vstruct flds0 =>
                cases sub with
                | remove =>
                    cases s with
                    | false =>
                        intro hst
                        rw [stabFields, hf] at hst
                        simp only [Bool.and_eq_true] at hst
                        obtain ⟨hhead, htail⟩ := hst
                        rw [applyStructFields, hf]
                        show applyStructFields h false flds rest = (h, flds)
                        exact ss_fields h false flds rest htail
                    | true =>
                        intro hst
                        rw [stabFields, hf] at hst
                        simp only [Bool.and_eq_true] at hst
                        obtain ⟨hhead, htail⟩ := hst
                        have hh : (!true || decide (zeroOf (vstruct flds0) = vstruct flds0)) = true := hhead
                        rw [Bool.not_true, Bool.false_or] at hh
                        have hz : zeroOf (vstruct flds0) = vstruct flds0 := of_decide_eq_true hh
                        rw [applyStructFields, hf]
                        show applyStructFields h true (fSet flds n (zeroOf (vstruct flds0))) rest
                          = (h, flds)
                        rw [hz, fSet_self_id hf]
                        exact ss_fields h true flds rest htail
                | impl ps' =>
                    intro hst
                    rw [stabFields, hf] at hst
                    simp only [Bool.and_eq_true] at hst
                    obtain ⟨hhead, htail⟩ := hst
                    have hh : stabImpl ps' h s (vstruct flds0) = true := hhead
                    have e1 := ss_impl ps' h s (vstruct flds0) hh
                    rw [applyStructFields, hf]
                    show applyStructFields (applyImpl ps' h s (vstruct flds0)).1 s
                        (fSet flds n (applyImpl ps' h s (vstruct flds0)).2) rest = (h, flds)
                    rw [e1]
                    show applyStructFields h s (fSet flds n (vstruct flds0)) rest = (h, flds)
                    rw [fSet_self_id hf]
                    exact ss_fields h s flds rest htail
            | vmap o0 =>
                cases sub with
                | remove =>
                    cases s with
                    | false =>
                        intro hst
                        rw [stabFields, hf] at hst
                        simp only [Bool.and_eq_true] at hst
                        obtain ⟨hhead, htail⟩ := hst
                        rw [applyStructFields, hf]
                        show applyStructFields h false flds rest = (h, flds)
                        exact ss_fields h false flds rest htail
                    | true =>
                        intro hst
                        rw [stabFields, hf] at hst
                        simp only [Bool.and_eq_true] at hst
                        obtain ⟨hhead, htail⟩ := hst
                        have hh : (!true || decide (zeroOf (vmap o0) = vmap o0)) = true := hhead
                        rw [Bool.not_true, Bool.false_or] at hh
                        have hz : zeroOf (vmap o0) = vmap o0 := of_decide_eq_true hh
                        rw [applyStructFields, hf]
                        show applyStructFields h true (fSet flds n (zeroOf (vmap o0))) rest
                          = (h, flds)
                        rw [hz, fSet_self_id hf]
                        exact ss_fields h true flds rest htail
                | impl ps' =>
                    intro hst
                    rw [stabFields, hf] at hst
                    simp only [Bool.and_eq_true] at hst
                    obtain ⟨hhead, htail⟩ := hst
                    have hh : stabImpl ps' h s (vmap o0) = true := hhead
                    have e1 := ss_impl ps' h s (vmap o0) hh
                    rw [applyStructFields, hf]
                    show applyStructFields (applyImpl ps' h s (vmap o0)).1 s
                        (fSet flds n (applyImpl ps' h s (vmap o0)).2) rest = (h, flds)
                    rw [e1]
                    show applyStructFields h s (fSet flds n (vmap o0)) rest = (h, flds)
                    rw [fSet_self_id hf]
                    exact ss_fields h s flds rest htail
            | vptr o0 =>
                cases sub with
                | remove =>
                    cases s with
                    | false =>
                        intro hst
                        rw [stabFields, hf] at hst
                        simp only [Bool.and_eq_true] at hst
                        obtain ⟨hhead, htail⟩ := hst
                        rw [applyStructFields, hf]
                        show applyStructFields h false flds rest = (h, flds)
                        exact ss_fields h false flds rest htail
                    | true =>
                        intro hst
                        rw [stabFields, hf] at hst
                        simp only [Bool.and_eq_true] at hst
                        obtain ⟨hhead, htail⟩ := hst
                        have hh : (!true || decide (zeroOf (vptr o0) = vptr o0)) = true := hhead
                        rw [Bool.not_true, Bool.false_or] at hh
                        have hz : zeroOf (vptr o0) = vptr o0 := of_decide_eq_true hh
                        rw [applyStructFields, hf]
                        show applyStructFields h true (fSet flds n (zeroOf (vptr o0))) rest
                          = (h, flds)
                        rw [hz, fSet_self_id hf]
                        exact ss_fields h true flds rest htail
                | impl ps' =>
                    intro hst
                    rw [stabFields, hf] at hst
                    simp only [Bool.and_eq_true] at hst
                    obtain ⟨hhead, htail⟩ := hst
                    have hh : stabImpl ps' h s (vptr o0) = true := hhead
                    have e1 := ss_impl ps' h s (vptr o0) hh
                    rw [applyStructFields, hf]
                    show applyStructFields (applyImpl ps' h s (vptr o0)).1 s
                        (fSet flds n (applyImpl ps' h s (vptr o0)).2) rest = (h, flds)
                    rw [e1]
                    show applyStructFields h s (fSet flds n (vptr o0)) rest = (h, flds)
                    rw [fSet_self_id hf]
                    exact ss_fields h s flds rest htail
          · have hex' : ex = false := by
              cases ex
              · rfl
              · exact absurd rfl hex
            subst hex'
            intro hst
            rw [stabFields, hf] at hst
            simp only [Bool.and_eq_true] at hst
            obtain ⟨hhead, htail⟩ := hst
            rw [applyStructFields, hf]
            show applyStructFields h s flds rest = (h, flds)
            exact ss_fields h s flds rest htail
termination_by (sizeOf l, 0, 0)
decreasing_by
  all_goals simp_wf
  all_goals
    first
    | (apply Prod.Lex.left; simp_arith; done)
    | (apply Prod.Lex.left; have hs := sizeOf_alook halook; simp_arith at hs ⊢; omega)
    | (apply Prod.Lex.right; apply Prod.Lex.left; simp_arith; done)
    | (apply Prod.Lex.right; apply Prod.Lex.left; omega)
    | (apply Prod.Lex.right; apply Prod.Lex.right; simp_arith; done)
    | (apply Prod.Lex.right; apply Prod.Lex.right; omega)

theorem ss_elem1 (sub : Ruler) (h : Heap) (it : Value) :
    stabElem1 sub h it = true → applySliceElem1 sub h it = (h, it) := by
  cases it with
  | vptr o =>
      cases o with
      | none =>
          intro _
          rw [show applySliceElem1 sub h (vptr none) = (h, vptr none) from by
                rw [applySliceElem1]]
      | some t =>
          cases sub with
          | remove =>
              intro hst
              rw [stabElem1] at hst
              have hz : zeroOf t = t := of_decide_eq_true hst
              rw [show applySliceElem1 Ruler.remove h (vptr (some t))
                    = (h, vptr (some (zeroOf t))) from by rw [applySliceElem1], hz]
          | impl ps' =>
              intro hst
              rw [stabElem1] at hst
              rw [show applySliceElem1 (Ruler.impl ps') h (vptr (some t))
                    = ((applyImpl ps' h true t).1, vptr (some (applyImpl ps' h true t).2))
                  from by rw [applySliceElem1], ss_impl ps' h true t hst]
  | vint a0 =>
      cases sub with
      | remove =>
          intro hst
          rw [stabElem1_notptr_remove (by intro o hx; cases hx)] at hst
          have hz : zeroOf (vint a0) = vint a0 := of_decide_eq_true hst
          rw [show applySliceElem1 Ruler.remove h (vint a0) = (h, zeroOf (vint a0)) from by
                simp [applySliceElem1], hz]
      | impl ps' =>
          intro hst
          rw [stabElem1_notptr_impl (by intro o hx; cases hx)] at hst
          rw [show applySliceElem1 (Ruler.impl ps') h (vint a0)
                = applyImpl ps' h true (vint a0) from by simp [applySliceElem1]]
          exact ss_impl ps' h true (vint a0) hst
  | vstr a0 =>
      cases sub with
      | remove =>
          intro hst
          rw [stabElem1_notptr_remove (by intro o hx; cases hx)] at hst
          have hz : zeroOf (vstr a0) = vstr a0 := of_decide_eq_true hst
          rw [show applySliceElem1 Ruler.remove h (vstr a0) = (h, zeroOf (vstr a0)) from by
                simp [applySliceElem1], hz]
      | impl ps' =>
          intro hst
          rw [stabElem1_notptr_impl (by intro o hx; cases hx)] at hst
          rw [show applySliceElem1 (Ruler.impl ps') h (vstr a0)
                = applyImpl ps' h true (vstr a0) from by simp [applySliceElem1]]
          exact ss_impl ps' h true (vstr a0) hst
  | vbool a0 =>
      cases sub with
      | remove =>
          intro hst
          rw [stabElem1_notptr_remove (by intro o hx; cases hx)] at hst
          have hz : zeroOf (vbool a0) = vbool a0 := of_decide_eq_true hst
          rw [show applySliceElem1 Ruler.remove h (vbool a0) = (h, zeroOf (vbool a0)) from by
                simp [applySliceElem1], hz]
      | impl ps' =>
          intro hst
          rw [stabElem1_notptr_impl (by intro o hx; cases hx)] at hst
          rw [show applySliceElem1 (Ruler.impl ps') h (vbool a0)
                = applyImpl ps' h true (vbool a0) from by simp [applySliceElem1]]
          exact ss_impl ps' h true (vbool a0) hst
  | vstruct flds0 =>
      cases sub with
      | remove =>
          intro hst
          rw [stabElem1_notptr_remove (by intro o hx; cases hx)] at hst
          have hz : zeroOf (vstruct flds0) = vstruct flds0 := of_decide_eq_true hst
          rw [show applySliceElem1 Ruler.remove h (vstruct flds0) = (h, zeroOf (vstruct flds0)) from by
                simp [applySliceElem1], hz]
      | impl ps' =>
          intro hst
          rw [stabElem1_notptr_impl (by intro o hx; cases hx)] at hst
          rw [show applySliceElem1 (Ruler.impl ps') h (vstruct flds0)
                = applyImpl ps' h true (vstruct flds0) from by simp [applySliceElem1]]
          exact ss_impl ps' h true (vstruct flds0) hst
  | vslice items0 =>
      cases sub with
      | remove =>
          intro hst
          rw [stabElem1_notptr_remove (by intro o hx; cases hx)] at hst
          have hz : zeroOf (vslice items0) = vslice items0 := of_decide_eq_true hst
          rw [show applySliceElem1 Ruler.remove h (vslice items0) = (h, zeroOf (vslice items0)) from by
                simp [applySliceElem1], hz]
      | impl ps' =>
          intro hst
          rw [stabElem1_notptr_impl (by intro o hx; cases hx)] at hst
          rw [show applySliceElem1 (Ruler.impl ps') h (vslice items0)
                = applyImpl ps' h true (vslice items0) from by simp [applySliceElem1]]
          exact ss_impl ps' h true (vslice items0) hst
  | vmap o0 =>
      cases sub with
      | remove =>
          intro hst
          rw [stabElem1_notptr_remove (by intro o hx; cases hx)] at hst
          have hz : zeroOf (vmap o0) = vmap o0 := of_decide_eq_true hst
          rw [show applySliceElem1 Ruler.remove h (vmap o0) = (h, zeroOf (vmap o0)) from by
                simp [applySliceElem1], hz]
      | impl ps' =>
          intro hst
          rw [stabElem1_notptr_impl (by intro o hx; cases hx)] at hst
          rw [show applySliceElem1 (Ruler.impl ps') h (vmap o0)
                = applyImpl ps' h true (vmap o0) from by simp [applySliceElem1]]
          exact ss_impl ps' h true (vmap o0) hst
termination_by (sizeOf sub, sizeOf it, 1)
decreasing_by
  all_goals simp_wf
  all_goals
    first
    | (apply Prod.Lex.left; simp_arith; done)
    | (apply Prod.Lex.left; have hs := sizeOf_alook halook; simp_arith at hs ⊢; omega)
    | (apply Prod.Lex.right; apply Prod.Lex.left; simp_arith; done)
    | (apply Prod.Lex.right; apply Prod.Lex.left; omega)
    | (apply Prod.Lex.right; apply Prod.Lex.right; simp_arith; done)
    | (apply Prod.Lex.right; apply Prod.Lex.right; omega)

theorem ss_elems (sub : Ruler) (h : Heap) (items : List Value) :
    stabSliceElems sub h items = true → applySliceElems sub h items = (h, items) := by
  cases items with
  | nil =>
      intro _
      rw [applySliceElems]
  | cons it rest =>
      intro hst
      rw [stabSliceElems] at hst
      simp only [Bool.and_eq_true] at hst
      obtain ⟨h1, h2⟩ := hst
      rw [applySliceElems, ss_elem1 sub h it h1, ss_elems sub h rest h2]
termination_by (sizeOf sub, sizeOf items, 2)
decreasing_by
  all_goals simp_wf
  all_goals
    first
    | (apply Prod.Lex.left; simp_arith; done)
    | (apply Prod.Lex.left; have hs := sizeOf_alook halook; simp_arith at hs ⊢; omega)
    | (apply Prod.Lex.right; apply Prod.Lex.left; simp_arith; done)
    | (apply Prod.Lex.right; apply Prod.Lex.left; omega)
    | (apply Prod.Lex.right; apply Prod.Lex.right; simp_arith; done)
    | (apply Prod.Lex.right; apply Prod.Lex.right; omega)

theorem ss_keys (ps : List (String × Ruler)) (h : Heap) (a : Nat) (keys : List String) :
    (∀ k ∈ keys, stabEntry h a k ps = true) → applyMapKeys ps h a keys = h := by
  cases keys with
  | nil =>
      intro _
      exact applyMapKeys_nil ps h a
  | cons k rest =>
      intro hst
      rw [applyMapKeys_cons]
      have hstep : mapStep ps h a k = h := by
        have hk := hst k (List.mem_cons_self _ _)
        unfold stabEntry at hk
        unfold mapStep
        cases halook : alook ps k with
        | none => rfl
        | some sub =>
            cases hu : alook (hGet h a) k with
            | none =>
                cases sub with
                | remove => rw [mdel_absent hu, hSet_hGet_self]
                | impl ps' => rfl
            | some u =>
                rw [hu] at hk
                cases sub with
                | remove =>
                    have hun : u = vptr none := stabMapEntry_remove hk halook
                    subst hun
                    rfl
                | impl ps' =>
                    rcases stabMapEntry_impl hk halook with hun | ⟨t, hut, hstt⟩ | ⟨hno, hstu⟩
                    · subst hun
                      rfl
                    · subst hut
                      have e1 := ss_impl ps' h true t hstt
                      show hSet (applyImpl ps' h true t).1 a
                          (mupd (hGet (applyImpl ps' h true t).1 a) k
                            (vptr (some (applyImpl ps' h true t).2))) = h
                      rw [e1]
                      show hSet h a (mupd (hGet h a) k (vptr (some t))) = h
                      rw [mupd_self_id hu, hSet_hGet_self]
                    · cases u with
                      | vptr o => exact absurd rfl (hno o)
                      | vint a0 =>
                          have e1 := ss_impl ps' h false (vint a0) hstu
                          show hSet (applyImpl ps' h false (vint a0)).1 a
                              (mupd (hGet (applyImpl ps' h false (vint a0)).1 a) k
                                (applyImpl ps' h false (vint a0)).2) = h
                          rw [e1]
                          show hSet h a (mupd (hGet h a) k (vint a0)) = h
                          rw [mupd_self_id hu, hSet_hGet_self]
                      | vstr a0 =>
                          have e1 := ss_impl ps' h false (vstr a0) hstu
                          show hSet (applyImpl ps' h false (vstr a0)).1 a
                              (mupd (hGet (applyImpl ps' h false (vstr a0)).1 a) k
                                (applyImpl ps' h false (vstr a0)).2) = h
                          rw [e1]
                          show hSet h a (mupd (hGet h a) k (vstr a0)) = h
                          rw [mupd_self_id hu, hSet_hGet_self]
                      | vbool a0 =>
                          have e1 := ss_impl ps' h false (vbool a0) hstu
                          show hSet (applyImpl ps' h false (vbool a0)).1 a
                              (mupd (hGet (applyImpl ps' h false (vbool a0)).1 a) k
                                (applyImpl ps' h false (vbool a0)).2) = h
                          rw [e1]
                          show hSet h a (mupd (hGet h a) k (vbool a0)) = h
                          rw [mupd_self_id hu, hSet_hGet_self]
                      | vstruct flds0 =>
                          have e1 := ss_impl ps' h false (vstruct flds0) hstu
                          show hSet (applyImpl ps' h false (vstruct flds0)).1 a
                              (mupd (hGet (applyImpl ps' h false (vstruct flds0)).1 a) k
                                (applyImpl ps' h false (vstruct flds0)).2) = h
                          rw [e1]
                          show hSet h a (mupd (hGet h a) k (vstruct flds0)) = h
                          rw [mupd_self_id hu, hSet_hGet_self]
                      | vslice items0 =>
                          have e1 := ss_impl ps' h false (vslice items0) hstu
                          show hSet (applyImpl ps' h false (vslice items0)).1 a
                              (mupd (hGet (applyImpl ps' h false (vslice items0)).1 a) k
                                (applyImpl ps' h false (vslice items0)).2) = h
                          rw [e1]
                          show hSet h a (mupd (hGet h a) k (vslice items0)) = h
                          rw [mupd_self_id hu, hSet_hGet_self]
                      | vmap o0 =>
                          have e1 := ss_impl ps' h false (vmap o0) hstu
                          show hSet (applyImpl ps' h false (vmap o0)).1 a
                              (mupd (hGet (applyImpl ps' h false (vmap o0)).1 a) k
                                (applyImpl ps' h false (vmap o0)).2) = h
                          rw [e1]
                          show hSet h a (mupd (hGet h a) k (vmap o0)) = h
                          rw [mupd_self_id hu, hSet_hGet_self]
      rw [hstep]
      exact ss_keys ps h a rest (fun k0 hk0 => hst k0 (List.mem_cons_of_mem _ hk0))
termination_by (sizeOf ps, 0, sizeOf keys)
decreasing_by
  all_goals simp_wf
  all_goals
    first
    | (apply Prod.Lex.left; simp_arith; done)
    | (apply Prod.Lex.left; have hs := sizeOf_alook halook; simp_arith at hs ⊢; omega)
    | (apply Prod.Lex.right; apply Prod.Lex.left; simp_arith; done)
    | (apply Prod.Lex.right; apply Prod.Lex.left; omega)
    | (apply Prod.Lex.right; apply Prod.Lex.right; simp_arith; done)
    | (apply Prod.Lex.right; apply Prod.Lex.right; omega)

end

theorem fGet_zeroFields (flds : List (String × Bool × Value)) (n : String) :
    fGet (zeroFields flds) n = (fGet flds n).map (fun p => (p.1, zeroOf p.2)) := by
  induction flds with
  | nil => rfl
  | cons p rest ih =>
      obtain ⟨m, ex0, v0⟩ := p
      by_cases hm : m = n
      · rw [show zeroFields ((m, ex0, v0) :: rest) = (m, ex0, zeroOf v0) :: zeroFields rest
              from rfl]
        rw [show fGet ((m, ex0, zeroOf v0) :: zeroFields rest) n = some (ex0, zeroOf v0)
              from by simp [fGet, hm]]
        rw [show fGet ((m, ex0, v0) :: rest) n = some (ex0, v0) from by simp [fGet, hm]]
        rfl
      · rw [show zeroFields ((m, ex0, v0) :: rest) = (m, ex0, zeroOf v0) :: zeroFields rest
              from rfl]
        rw [show fGet ((m, ex0, zeroOf v0) :: zeroFields rest) n = fGet (zeroFields rest) n
              from by simp [fGet, hm]]
        rw [show fGet ((m, ex0, v0) :: rest) n = fGet rest n from by simp [fGet, hm]]
        exact ih

theorem stabValue_inert (ps : List (String × Ruler)) (h : Heap) (s : Bool) (v : Value)
    (hst : ∀ flds, v ≠ vstruct flds) (hmp : ∀ a, v ≠ vmap (some a)) :
    stabValue ps h s v = true := by
  cases v with
  | vstruct flds => exact absurd rfl (hst flds)
  | vmap o =>
      cases o with
      | none => simp [stabValue]
      | some a => exact absurd rfl (hmp a)
  | vint a => simp [stabValue]
  | vstr a => simp [stabValue]
  | vbool a => simp [stabValue]
  | vslice items => simp [stabValue]
  | vptr o => simp [stabValue]

mutual

/-- A zero value is a fixed point of the rules, whatever the rules are. -/
theorem sz_impl (ps : List (String × Ruler)) (h : Heap) (s : Bool) (v : Value) :
    stabImpl ps h s (zeroOf v) = true := by
  cases v with
  | vptr o => rw [show zeroOf (vptr o) = vptr none from rfl, stabImpl]
  | vint a0 =>
      rw [show zeroOf (vint a0) = vint 0 from rfl,
        stabImpl_notptr ps h s (vint 0) (by intro o hx; cases hx)]
      exact stabValue_inert ps h s (vint 0) (by intro f hx; cases hx)
        (by intro a hx; cases hx)
  | vstr a0 =>
      rw [show zeroOf (vstr a0) = vstr "" from rfl,
        stabImpl_notptr ps h s (vstr "") (by intro o hx; cases hx)]
      exact stabValue_inert ps h s (vstr "") (by intro f hx; cases hx)
        (by intro a hx; cases hx)
  | vbool a0 =>
      rw [show zeroOf (vbool a0) = vbool false from rfl,
        stabImpl_notptr ps h s (vbool false) (by intro o hx; cases hx)]
      exact stabValue_inert ps h s (vbool false) (by intro f hx; cases hx)
        (by intro a hx; cases hx)
  | vslice items =>
      rw [show zeroOf (vslice items) = vslice [] from rfl,
        stabImpl_notptr ps h s (vslice []) (by intro o hx; cases hx)]
      exact stabValue_inert ps h s (vslice []) (by intro f hx; cases hx)
        (by intro a hx; cases hx)
  | vmap o =>
      rw [show zeroOf (vmap o) = vmap none from rfl,
        stabImpl_notptr ps h s (vmap none) (by intro o' hx; cases hx)]
      exact stabValue_inert ps h s (vmap none) (by intro f hx; cases hx)
        (by intro a hx; simp at hx)
  | vstruct flds =>
      rw [show zeroOf (vstruct flds) = vstruct (zeroFields flds) from rfl,
        stabImpl_notptr ps h s (vstruct (zeroFields flds)) (by intro o hx; cases hx),
        stabValue]
      exact sz_fields h s flds ps
termination_by (sizeOf ps, sizeOf v, 2)
decreasing_by
  all_goals simp_wf
  all_goals
    first
    | (apply Prod.Lex.left; simp_arith; done)
    | (apply Prod.Lex.left; have hs := sizeOf_alook halook; simp_arith at hs ⊢; omega)
    | (apply Prod.Lex.right; apply Prod.Lex.left; simp_arith; done)
    | (apply Prod.Lex.right; apply Prod.Lex.left; omega)
    | (apply Prod.Lex.right; apply Prod.Lex.right; simp_arith; done)
    | (apply Prod.Lex.right; apply Prod.Lex.right; omega)

theorem sz_fields (h : Heap) (s : Bool) (flds : List (String × Bool × Value))
    (l : List (String × Ruler)) : stabFields h s (zeroFields flds) l = true := by
  cases l with
  | nil => rw [stabFields]
  | cons q rest =>
      obtain ⟨n, sub⟩ := q
      rw [stabFields]
      simp only [Bool.and_eq_true]
      refine ⟨?_, sz_fields h s flds rest⟩
      rw [fGet_zeroFields flds n]
      cases hf : fGet flds n with
      | none => rfl
      | some exfv =>
          obtain ⟨ex, fv⟩ := exfv
          simp only [Option.map_some']
          by_cases hex : ex = true
          · subst hex
            cases fv with
            | vslice items =>
                show stabSliceElems sub h [] = true
                rw [stabSliceElems]
            | vint a0 =>
                cases sub with
                | remove =>
                    show (!s || decide (zeroOf (zeroOf (vint a0)) = zeroOf (vint a0))) = true
                    rw [zeroOf_zeroOf (vint a0)]
                    simp
                | impl ps' =>
                    show stabImpl ps' h s (zeroOf (vint a0)) = true
                    exact sz_impl ps' h s (vint a0)
            | vstr a0 =>
                cases sub with
                | remove =>
                    show (!s || decide (zeroOf (zeroOf (vstr a0)) = zeroOf (vstr a0))) = true
                    rw [zeroOf_zeroOf (vstr a0)]
                    simp
                | impl ps' =>
                    show stabImpl ps' h s (zeroOf (vstr a0)) = true
                    exact sz_impl ps' h s (vstr a0)
            | vbool a0 =>
                cases sub with
                | remove =>
                    show (!s || decide (zeroOf (zeroOf (vbool a0)) = zeroOf (vbool a0))) = true
                    rw [zeroOf_zeroOf (vbool a0)]
                    simp
                | impl ps' =>
                    show stabImpl ps' h s (zeroOf (vbool a0)) = true
                    exact sz_impl ps' h s (vbool a0)
            | vstruct flds0 =>
                cases sub with
                | remove =>
                    show (!s || decide (zeroOf (zeroOf (vstruct flds0))
                          = zeroOf (vstruct flds0))) = true
                    rw [zeroOf_zeroOf (vstruct flds0)]
                    simp
                | impl ps' =>
                    show stabImpl ps' h s (zeroOf (vstruct flds0)) = true
                    exact sz_impl ps' h s (vstruct flds0)
            | vmap o0 =>
                cases sub with
                | remove =>
                    show (!s || decide (zeroOf (zeroOf (vmap o0)) = zeroOf (vmap o0))) = true
                    rw [zeroOf_zeroOf (vmap o0)]
                    simp
                | impl ps' =>
                    show stabImpl ps' h s (zeroOf (vmap o0)) = true
                    exact sz_impl ps' h s (vmap o0)
            | vptr o0 =>
                cases sub with
                | remove =>
                    show (!s || decide (zeroOf (zeroOf (vptr o0)) = zeroOf (vptr o0))) = true
                    rw [zeroOf_zeroOf (vptr o0)]
                    simp
                | impl ps' =>
                    show stabImpl ps' h s (zeroOf (vptr o0)) = true
                    exact sz_impl ps' h s (vptr o0)
          · have hex' : ex = false := by
              cases ex
              · rfl
              · exact absurd rfl hex
            subst hex'
            rfl
termination_by (sizeOf l, 0, 0)
decreasing_by
  all_goals simp_wf
  all_goals
    first
    | (apply Prod.Lex.left; simp_arith; done)
    | (apply Prod.Lex.left; have hs := sizeOf_alook halook; simp_arith at hs ⊢; omega)
    | (apply Prod.Lex.right; apply Prod.Lex.left; simp_arith; done)
    | (apply Prod.Lex.right; apply Prod.Lex.left; omega)
    | (apply Prod.Lex.right; apply Prod.Lex.right; simp_arith; done)
    | (apply Prod.Lex.right; apply Prod.Lex.right; omega)

end

theorem eraseF_zeroFields : ∀ f : List (String × Bool × Value), EraseF (zeroFields f) f := by
  intro f
  induction f with
  | nil => exact EraseF.nil
  | cons p rest ih =>
      obtain ⟨n, ex, fv⟩ := p
      exact EraseF.cons (Erase.zero fv) ih

theorem erase_vptr_some_inv {w t : Value} (hw : Erase w (vptr (some t))) :
    w = vptr none ∨ ∃ t', w = vptr (some t') ∧ Erase t' t := by
  cases hw with
  | zero => exact Or.inl rfl
  | rptr ht => exact Or.inr ⟨_, rfl, ht⟩

theorem erase_vstruct_inv {w : Value} {f : List (String × Bool × Value)}
    (hw : Erase w (vstruct f)) : ∃ f', w = vstruct f' ∧ EraseF f' f := by
  cases hw with
  | zero => exact ⟨zeroFields f, rfl, eraseF_zeroFields f⟩
  | rstruct hf => exact ⟨_, rfl, hf⟩

theorem erase_vslice_inv {w : Value} {l : List Value} (hw : Erase w (vslice l)) :
    ∃ l', w = vslice l' ∧ (EraseL l' l ∨ l' = []) := by
  cases hw with
  | zero => exact ⟨[], rfl, Or.inr rfl⟩
  | rslice hl => exact ⟨_, rfl, Or.inl hl⟩

theorem erase_vmap_inv {w : Value} {o : Option Nat} (hw : Erase w (vmap o)) :
    w = vmap none ∨ w = vmap o := by
  cases hw with
  | zero => exact Or.inl rfl
  | rmap => exact Or.inr rfl

theorem erase_vint_inv {w : Value} {a : Int} (hw : Erase w (vint a)) :
    ∃ a', w = vint a' := by
  cases hw with
  | zero => exact ⟨0, rfl⟩
  | rint => exact ⟨a, rfl⟩

theorem erase_vstr_inv {w : Value} {a : String} (hw : Erase w (vstr a)) :
    ∃ a', w = vstr a' := by
  cases hw with
  | zero => exact ⟨"", rfl⟩
  | rstr => exact ⟨a, rfl⟩

theorem erase_vbool_inv {w : Value} {a : Bool} (hw : Erase w (vbool a)) :
    ∃ a', w = vbool a' := by
  cases hw with
  | zero => exact ⟨false, rfl⟩
  | rbool => exact ⟨a, rfl⟩

theorem eraseF_fGet :
    ∀ {f f' : List (String × Bool × Value)}, EraseF f' f →
      ∀ {n : String} {ex : Bool} {fv : Value}, fGet f n = some (ex, fv) →
      ∃ fv', fGet f' n = some (ex, fv') ∧ Erase fv' fv := by
  intro f
  induction f with
  | nil => intro f' hf n ex fv hx; cases hx
  | cons p t ih =>
      intro f' hf n ex fv hx
      obtain ⟨n0, ex0, v⟩ := p
      cases hf with
      | cons hE hF =>
          rename_i v' t'
          by_cases hn : n0 = n
          · rw [show fGet ((n0, ex0, v) :: t) n = some (ex0, v) from by
                  simp [fGet, hn]] at hx
            cases hx
            exact ⟨v', by simp [fGet, hn], hE⟩
          · rw [show fGet ((n0, ex0, v) :: t) n = fGet t n from by simp [fGet, hn]] at hx
            obtain ⟨fv', hg, he⟩ := ih hF hx
            exact ⟨fv', by rw [show fGet ((n0, ex0, v') :: t') n = fGet t' n from by
              simp [fGet, hn]]; exact hg, he⟩

theorem eraseF_fGet_rev :
    ∀ {f f' : List (String × Bool × Value)}, EraseF f' f →
      ∀ {n : String} {ex : Bool} {fv' : Value}, fGet f' n = some (ex, fv') →
      ∃ fv, fGet f n = some (ex, fv) ∧ Erase fv' fv := by
  intro f
  induction f with
  | nil =>
      intro f' hf n ex fv' hx
      cases hf
      cases hx
  | cons p t ih =>
      intro f' hf n ex fv' hx
      obtain ⟨n0, ex0, v⟩ := p
      cases hf with
      | cons hE hF =>
          rename_i v' t'
          by_cases hn : n0 = n
          · rw [show fGet ((n0, ex0, v') :: t') n = some (ex0, v') from by
                  simp [fGet, hn]] at hx
            cases hx
            exact ⟨v, by simp [fGet, hn], hE⟩
          · rw [show fGet ((n0, ex0, v') :: t') n = fGet t' n from by simp [fGet, hn]] at hx
            obtain ⟨fv, hg, he⟩ := ih hF hx
            exact ⟨fv, by rw [show fGet ((n0, ex0, v) :: t) n = fGet t n from by
              simp [fGet, hn]]; exact hg, he⟩

theorem eraseF_fGet_none :
    ∀ {f f' : List (String × Bool × Value)}, EraseF f' f →
      ∀ {n : String}, fGet f n = none → fGet f' n = none := by
  intro f
  induction f with
  | nil =>
      intro f' hf n _
      cases hf
      rfl
  | cons p t ih =>
      intro f' hf n hx
      obtain ⟨n0, ex0, v⟩ := p
      cases hf with
      | cons hE hF =>
          rename_i v' t'
          by_cases hn : n0 = n
          · rw [show fGet ((n0, ex0, v) :: t) n = some (ex0, v) from by
                  simp [fGet, hn]] at hx
            cases hx
          · rw [show fGet ((n0, ex0, v) :: t) n = fGet t n from by simp [fGet, hn]] at hx
            rw [show fGet ((n0, ex0, v') :: t') n = fGet t' n from by simp [fGet, hn]]
            exact ih hF hx

theorem erase_vptr_inv {w : Value} {o : Option Value} (hw : Erase w (vptr o)) :
    ∃ o', w = vptr o' := by
  cases hw with
  | zero => exact ⟨none, rfl⟩
  | rptrn => exact ⟨none, rfl⟩
  | rptr ht => exact ⟨some _, rfl⟩

theorem eraseL_nil_inv {l' : List Value} (h : EraseL l' []) : l' = [] := by
  cases h
  rfl

theorem eraseL_cons_inv {l' : List Value} {it : Value} {rest : List Value}
    (h : EraseL l' (it :: rest)) :
    ∃ it' rest', l' = it' :: rest' ∧ Erase it' it ∧ EraseL rest' rest := by
  cases h with
  | cons hE hL => exact ⟨_, _, rfl, hE, hL⟩

mutual

/-- Stability is preserved when the value is erased and the heap is erased:
the key transfer lemma behind idempotence. -/
theorem m_impl (ps : List (String × Ruler)) (h' h : Heap) (s : Bool) (v' v : Value) :
    Erase v' v → HeapErase h' h → stabImpl ps h s v = true → stabImpl ps h' s v' = true := by
  cases v with
  | vptr o =>
      cases o with
      | none =>
          intro hE hH hst
          have hv' : v' = vptr none := erase_into_zero (vptr none) hE
          rw [hv', stabImpl]
      | some t =>
          intro hE hH hst
          rcases erase_vptr_some_inv hE with rfl | ⟨t', rfl, hEt⟩
          · rw [stabImpl]
          · rw [stabImpl] at hst ⊢
            exact m_value ps h' h true t' t hEt hH hst
  | vint a0 =>
      intro hE hH hst
      obtain ⟨a2, rfl⟩ := erase_vint_inv hE
      rw [stabImpl_notptr ps h s (vint a0) (by intro o hx; cases hx)] at hst
      rw [stabImpl_notptr ps h' s (vint a2) (by intro o hx; cases hx)]
      exact m_value ps h' h s (vint a2) (vint a0) hE hH hst
  | vstr a0 =>
      intro hE hH hst
      obtain ⟨a2, rfl⟩ := erase_vstr_inv hE
      rw [stabImpl_notptr ps h s (vstr a0) (by intro o hx; cases hx)] at hst
      rw [stabImpl_notptr ps h' s (vstr a2) (by intro o hx; cases hx)]
      exact m_value ps h' h s (vstr a2) (vstr a0) hE hH hst
  | vbool a0 =>
      intro hE hH hst
      obtain ⟨a2, rfl⟩ := erase_vbool_inv hE
      rw [stabImpl_notptr ps h s (vbool a0) (by intro o hx; cases hx)] at hst
      rw [stabImpl_notptr ps h' s (vbool a2) (by intro o hx; cases hx)]
      exact m_value ps h' h s (vbool a2) (vbool a0) hE hH hst
  | vstruct flds =>
      intro hE hH hst
      obtain ⟨f2, rfl, hF2⟩ := erase_vstruct_inv hE
      rw [stabImpl_notptr ps h s (vstruct flds) (by intro o hx; cases hx)] at hst
      rw [stabImpl_notptr ps h' s (vstruct f2) (by intro o hx; cases hx)]
      exact m_value ps h' h s (vstruct f2) (vstruct flds) hE hH hst
  | vslice items =>
      intro hE hH hst
      obtain ⟨l2, rfl, hL2⟩ := erase_vslice_inv hE
      rw [stabImpl_notptr ps h s (vslice items) (by intro o hx; cases hx)] at hst
      rw [stabImpl_notptr ps h' s (vslice l2) (by intro o hx; cases hx)]
      exact m_value ps h' h s (vslice l2) (vslice items) hE hH hst
  | vmap o =>
      intro hE hH hst
      rcases erase_vmap_inv hE with rfl | rfl
      · rw [stabImpl_notptr ps h' s (vmap none) (by intro o' hx; cases hx)]
        exact stabValue_inert ps h' s (vmap none) (by intro f hx; cases hx)
          (by intro a hx; simp at hx)
      · rw [stabImpl_notptr ps h s (vmap o) (by intro o' hx; cases hx)] at hst
        rw [stabImpl_notptr ps h' s (vmap o) (by intro o' hx; cases hx)]
        exact m_value ps h' h s (vmap o) (vmap o) (erase_refl (vmap o)) hH hst
termination_by (sizeOf ps, sizeOf v, 2)
decreasing_by
  all_goals simp_wf
  all_goals
    first
    | (apply Prod.Lex.left; simp_arith; done)
    | (apply Prod.Lex.left; have hs := sizeOf_alook halook; simp_arith at hs ⊢; omega)
    | (apply Prod.Lex.right; apply Prod.Lex.left; simp_arith; done)
    | (apply Prod.Lex.right; apply Prod.Lex.left; omega)
    | (apply Prod.Lex.right; apply Prod.Lex.right; simp_arith; done)
    | (apply Prod.Lex.right; apply Prod.Lex.right; omega)

theorem m_value (ps : List (String × Ruler)) (h' h : Heap) (s : Bool) (v' v : Value) :
    Erase v' v → HeapErase h' h → stabValue ps h s v = true → stabValue ps h' s v' = true := by
  cases v with
  | vstruct f =>
      intro hE hH hst
      obtain ⟨f2, rfl, hF⟩ := erase_vstruct_inv hE
      rw [stabValue] at hst ⊢
      exact m_fields h' h s f2 f ps hF hH hst
  | vmap o =>
      cases o with
      | none =>
          intro hE hH hst
          have hv' : v' = vmap none := erase_into_zero (vmap none) hE
          rw [hv']
          exact stabValue_inert ps h' s (vmap none) (by intro f hx; cases hx)
            (by intro a hx; simp at hx)
      | some a =>
          intro hE hH hst
          rcases erase_vmap_inv hE with rfl | rfl
          · exact stabValue_inert ps h' s (vmap none) (by intro f hx; cases hx)
              (by intro a0 hx; simp at hx)
          · rw [stabValue] at hst ⊢
            refine forall_to_stabKeys (fun k hk => ?_)
            unfold stabEntry
            cases hu' : alook (hGet h' a) k with
            | none => rfl
            | some u' =>
                obtain ⟨u, hu, hEu⟩ := subErase_alook_some (heapErase_hGet hH a) hu'
                have hke := stabKeys_to_forall hst k (mem_mkeys_of_alook hu)
                unfold stabEntry at hke
                rw [hu] at hke
                exact m_entry h' h k u' u ps hEu hH hke
  | vint a0 =>
      intro hE hH hst
      obtain ⟨a2, rfl⟩ := erase_vint_inv hE
      exact stabValue_inert ps h' s (vint a2) (by intro f hx; cases hx)
        (by intro a1 hx; cases hx)
  | vstr a0 =>
      intro hE hH hst
      obtain ⟨a2, rfl⟩ := erase_vstr_inv hE
      exact stabValue_inert ps h' s (vstr a2) (by intro f hx; cases hx)
        (by intro a1 hx; cases hx)
  | vbool a0 =>
      intro hE hH hst
      obtain ⟨a2, rfl⟩ := erase_vbool_inv hE
      exact stabValue_inert ps h' s (vbool a2) (by intro f hx; cases hx)
        (by intro a1 hx; cases hx)
  | vslice items =>
      intro hE hH hst
      obtain ⟨l2, rfl, hL2⟩ := erase_vslice_inv hE
      exact stabValue_inert ps h' s (vslice l2) (by intro f hx; cases hx)
        (by intro a1 hx; cases hx)
  | vptr o =>
      intro hE hH hst
      obtain ⟨o2, rfl⟩ := erase_vptr_inv hE
      exact stabValue_inert ps h' s (vptr o2) (by intro f hx; cases hx)
        (by intro a1 hx; cases hx)
termination_by (sizeOf ps, sizeOf v, 1)
decreasing_by
  all_goals simp_wf
  all_goals
    first
    | (apply Prod.Lex.left; simp_arith; done)
    | (apply Prod.Lex.left; have hs := sizeOf_alook halook; simp_arith at hs ⊢; omega)
    | (apply Prod.Lex.right; apply Prod.Lex.left; simp_arith; done)
    | (apply Prod.Lex.right; apply Prod.Lex.left; omega)
    | (apply Prod.Lex.right; apply Prod.Lex.right; simp_arith; done)
    | (apply Prod.Lex.right; apply Prod.Lex.right; omega)

theorem m_fields (h' h : Heap) (s : Bool) (f' f : List (String × Bool × Value))
    (l : List (String × Ruler)) :
    EraseF f' f → HeapErase h' h → stabFields h s f l = true →
      stabFields h' s f' l = true := by
  cases l with
  | nil =>
      intro _ _ _
      rw [stabFields]
  | cons q rest =>
      obtain ⟨n, sub⟩ := q
      cases sub with
      | remove =>
          intro hF hH hst
          rw [stabFields] at hst
          simp only [Bool.and_eq_true] at hst
          obtain ⟨hhead, htail⟩ := hst
          rw [stabFields]
          simp only [Bool.and_eq_true]
          refine ⟨?_, m_fields h' h s f' f rest hF hH htail⟩
          cases hg' : fGet f' n with
          | none => rfl
          | some exfv' =>
              obtain ⟨ex, fv'⟩ := exfv'
              obtain ⟨fv, hg, hEf⟩ := eraseF_fGet_rev hF hg'
              rw [hg] at hhead
              by_cases hex : ex = true
              · subst hex
                cases fv with
                | vslice items =>
                    have hh : stabSliceElems Ruler.remove h items = true := hhead
                    obtain ⟨l2, rfl, hL2⟩ := erase_vslice_inv hEf
                    show stabSliceElems Ruler.remove h' l2 = true
                    rcases hL2 with hL2 | rfl
                    · exact m_elems Ruler.remove h' h l2 items hL2 hH hh
                    · rw [stabSliceElems]
                | vint a0 =>
                    have hh : (!s || decide (zeroOf (vint a0) = vint a0)) = true := hhead
                    obtain ⟨a2, rfl⟩ := erase_vint_inv hEf
                    show (!s || decide (zeroOf (vint a2) = vint a2)) = true
                    simp only [Bool.or_eq_true] at hh
                    rcases hh with hs1 | hz
                    · rw [hs1, Bool.true_or]
                    · have hz' := of_decide_eq_true hz
                      have hfix : vint a2 = zeroOf (vint a0) :=
                        erase_into_zero (vint a0) (by rw [hz']; exact hEf)
                      rw [hfix, zeroOf_zeroOf]
                      simp
                | vstr a0 =>
                    have hh : (!s || decide (zeroOf (vstr a0) = vstr a0)) = true := hhead
                    obtain ⟨a2, rfl⟩ := erase_vstr_inv hEf
                    show (!s || decide (zeroOf (vstr a2) = vstr a2)) = true
                    simp only [Bool.or_eq_true] at hh
                    rcases hh with hs1 | hz
                    · rw [hs1, Bool.true_or]
                    · have hz' := of_decide_eq_true hz
                      have hfix : vstr a2 = zeroOf (vstr a0) :=
                        erase_into_zero (vstr a0) (by rw [hz']; exact hEf)
                      rw [hfix, zeroOf_zeroOf]
                      simp
                | vbool a0 =>
                    have hh : (!s || decide (zeroOf (vbool a0) = vbool a0)) = true := hhead
                    obtain ⟨a2, rfl⟩ := erase_vbool_inv hEf
                    show (!s || decide (zeroOf (vbool a2) = vbool a2)) = true
                    simp only [Bool.or_eq_true] at hh
                    rcases hh with hs1 | hz
                    · rw [hs1, Bool.true_or]
                    · have hz' := of_decide_eq_true hz
                      have hfix : vbool a2 = zeroOf (vbool a0) :=
                        erase_into_zero (vbool a0) (by rw [hz']; exact hEf)
                      rw [hfix, zeroOf_zeroOf]
                      simp
                | vstruct flds0 =>
                    have hh : (!s || decide (zeroOf (vstruct flds0) = vstruct flds0)) = true := hhead
                    obtain ⟨f2, rfl, hF2⟩ := erase_vstruct_inv hEf
                    show (!s || decide (zeroOf (vstruct f2) = vstruct f2)) = true
                    simp only [Bool.or_eq_true] at hh
                    rcases hh with hs1 | hz
                    · rw [hs1, Bool.true_or]
                    · have hz' := of_decide_eq_true hz
                      have hfix : vstruct f2 = zeroOf (vstruct flds0) :=
                        erase_into_zero (vstruct flds0) (by rw [hz']; exact hEf)
                      rw [hfix, zeroOf_zeroOf]
                      simp
                | vptr o0 =>
                    have hh : (!s || decide (zeroOf (vptr o0) = vptr o0)) = true := hhead
                    obtain ⟨o2, rfl⟩ := erase_vptr_inv hEf
                    show (!s || decide (zeroOf (vptr o2) = vptr o2)) = true
                    simp only [Bool.or_eq_true] at hh
                    rcases hh with hs1 | hz
                    · rw [hs1, Bool.true_or]
                    · have hz' := of_decide_eq_true hz
                      have hfix : vptr o2 = zeroOf (vptr o0) :=
                        erase_into_zero (vptr o0) (by rw [hz']; exact hEf)
                      rw [hfix, zeroOf_zeroOf]
                      simp
                | vmap o0 =>
                    have hh : (!s || decide (zeroOf (vmap o0) = vmap o0)) = true := hhead
                    rcases erase_vmap_inv hEf with rfl | rfl
                    · show (!s || decide (zeroOf (vmap none) = vmap none)) = true
                      simp [zeroOf]
                    · show (!s || decide (zeroOf (vmap o0) = vmap o0)) = true
                      exact hh
              · have hex' : ex = false := by
                  cases ex
                  · rfl
                  · exact absurd rfl hex
                subst hex'
                rfl
      | impl ps' =>
          intro hF hH hst
          rw [stabFields] at hst
          simp only [Bool.and_eq_true] at hst
          obtain ⟨hhead, htail⟩ := hst
          rw [stabFields]
          simp only [Bool.and_eq_true]
          refine ⟨?_, m_fields h' h s f' f rest hF hH htail⟩
          cases hg' : fGet f' n with
          | none => rfl
          | some exfv' =>
              obtain ⟨ex, fv'⟩ := exfv'
              obtain ⟨fv, hg, hEf⟩ := eraseF_fGet_rev hF hg'
              rw [hg] at hhead
              by_cases hex : ex = true
              · subst hex
                cases fv with
                | vslice items =>
                    have hh : stabSliceElems (Ruler.impl ps') h items = true := hhead
                    obtain ⟨l2, rfl, hL2⟩ := erase_vslice_inv hEf
                    show stabSliceElems (Ruler.impl ps') h' l2 = true
                    rcases hL2 with hL2 | rfl
                    · exact m_elems (Ruler.impl ps') h' h l2 items hL2 hH hh
                    · rw [stabSliceElems]
                | vint a0 =>
                    have hh : stabImpl ps' h s (vint a0) = true := hhead
                    obtain ⟨a2, rfl⟩ := erase_vint_inv hEf
                    show stabImpl ps' h' s (vint a2) = true
                    exact m_impl ps' h' h s (vint a2) (vint a0) hEf hH hh
                | vstr a0 =>
                    have hh : stabImpl ps' h s (vstr a0) = true := hhead
                    obtain ⟨a2, rfl⟩ := erase_vstr_inv hEf
                    show stabImpl ps' h' s (vstr a2) = true
                    exact m_impl ps' h' h s (vstr a2) (vstr a0) hEf hH hh
                | vbool a0 =>
                    have hh : stabImpl ps' h s (vbool a0) = true := hhead
                    obtain ⟨a2, rfl⟩ := erase_vbool_inv hEf
                    show stabImpl ps' h' s (vbool a2) = true
                    exact m_impl ps' h' h s (vbool a2) (vbool a0) hEf hH hh
                | vstruct flds0 =>
                    have hh : stabImpl ps' h s (vstruct flds0) = true := hhead
                    obtain ⟨f2, rfl, hF2⟩ := erase_vstruct_inv hEf
                    show stabImpl ps' h' s (vstruct f2) = true
                    exact m_impl ps' h' h s (vstruct f2) (vstruct flds0) hEf hH hh
                | vptr o0 =>
                    have hh : stabImpl ps' h s (vptr o0) = true := hhead
                    obtain ⟨o2, rfl⟩ := erase_vptr_inv hEf
                    show stabImpl ps' h' s (vptr o2) = true
                    exact m_impl ps' h' h s (vptr o2) (vptr o0) hEf hH hh
                | vmap o0 =>
                    have hh : stabImpl ps' h s (vmap o0) = true := hhead
                    rcases erase_vmap_inv hEf with rfl | rfl
                    · show stabImpl ps' h' s (vmap none) = true
                      exact m_impl ps' h' h s (vmap none) (vmap o0) hEf hH hh
                    · show stabImpl ps' h' s (vmap o0) = true
                      exact m_impl ps' h' h s (vmap o0) (vmap o0) hEf hH hh
              · have hex' : ex = false := by
                  cases ex
                  · rfl
                  · exact absurd rfl hex
                subst hex'
                rfl
termination_by (sizeOf l, 0, 0)
decreasing_by
  all_goals simp_wf
  all_goals
    first
    | (apply Prod.Lex.left; simp_arith; done)
    | (apply Prod.Lex.left; have hs := sizeOf_alook halook; simp_arith at hs ⊢; omega)
    | (apply Prod.Lex.right; apply Prod.Lex.left; simp_arith; done)
    | (apply Prod.Lex.right; apply Prod.Lex.left; omega)
    | (apply Prod.Lex.right; apply Prod.Lex.right; simp_arith; done)
    | (apply Prod.Lex.right; apply Prod.Lex.right; omega)

theorem m_entry (h' h : Heap) (k : String) (u' u : Value) (l : List (String × Ruler)) :
    Erase u' u → HeapErase h' h → stabMapEntry h k u l = true →
      stabMapEntry h' k u' l = true := by
  cases l with
  | nil =>
      intro _ _ _
      exact stabMapEntry_nil h' k u'
  | cons q rest =>
      obtain ⟨n, sub⟩ := q
      cases sub with
      | remove =>
          intro hE hH hst
          by_cases hn : n = k
          · rw [stabMapEntry.eq_def] at hst ⊢
            simp only [hn, if_true] at hst ⊢
            have hu0 : u = vptr none := of_decide_eq_true hst
            rw [hu0] at hE
            have hv' : u' = vptr none := erase_into_zero (vptr none) hE
            rw [hv']
            simp
          · rw [stabMapEntry.eq_def] at hst ⊢
            simp only [hn, if_false] at hst ⊢
            exact m_entry h' h k u' u rest hE hH hst
      | impl ps' =>
          intro hE hH hst
          by_cases hn : n = k
          · rw [stabMapEntry.eq_def] at hst ⊢
            simp only [hn, if_true] at hst ⊢
            cases u with
            | vptr o =>
                cases o with
                | none =>
                    have hv' : u' = vptr none := erase_into_zero (vptr none) hE
                    rw [hv']
                | some t =>
                    have hs1 : stabImpl ps' h true t = true := hst
                    rcases erase_vptr_some_inv hE with rfl | ⟨t', rfl, hEt⟩
                    · rfl
                    · show stabImpl ps' h' true t' = true
                      exact m_impl ps' h' h true t' t hEt hH hs1
            | vint a0 =>
                have hs1 : stabImpl ps' h false (vint a0) = true := hst
                obtain ⟨a2, rfl⟩ := erase_vint_inv hE
                show stabImpl ps' h' false (vint a2) = true
                exact m_impl ps' h' h false (vint a2) (vint a0) hE hH hs1
            | vstr a0 =>
                have hs1 : stabImpl ps' h false (vstr a0) = true := hst
                obtain ⟨a2, rfl⟩ := erase_vstr_inv hE
                show stabImpl ps' h' false (vstr a2) = true
                exact m_impl ps' h' h false (vstr a2) (vstr a0) hE hH hs1
            | vbool a0 =>
                have hs1 : stabImpl ps' h false (vbool a0) = true := hst
                obtain ⟨a2, rfl⟩ := erase_vbool_inv hE
                show stabImpl ps' h' false (vbool a2) = true
                exact m_impl ps' h' h false (vbool a2) (vbool a0) hE hH hs1
            | vstruct flds0 =>
                have hs1 : stabImpl ps' h false (vstruct flds0) = true := hst
                obtain ⟨f2, rfl, hF2⟩ := erase_vstruct_inv hE
                show stabImpl ps' h' false (vstruct f2) = true
                exact m_impl ps' h' h false (vstruct f2) (vstruct flds0) hE hH hs1
            | vslice items0 =>
                have hs1 : stabImpl ps' h false (vslice items0) = true := hst
                obtain ⟨l2, rfl, hL2⟩ := erase_vslice_inv hE
                show stabImpl ps' h' false (vslice l2) = true
                exact m_impl ps' h' h false (vslice l2) (vslice items0) hE hH hs1
            | vmap o0 =>
                have hs1 : stabImpl ps' h false (vmap o0) = true := hst
                rcases erase_vmap_inv hE with rfl | rfl
                · show stabImpl ps' h' false (vmap none) = true
                  exact m_impl ps' h' h false (vmap none) (vmap o0) hE hH hs1
                · show stabImpl ps' h' false (vmap o0) = true
                  exact m_impl ps' h' h false (vmap o0) (vmap o0) hE hH hs1
          · rw [stabMapEntry.eq_def] at hst ⊢
            simp only [hn, if_false] at hst ⊢
            exact m_entry h' h k u' u rest hE hH hst
termination_by (sizeOf l, 0, 0)
decreasing_by
  all_goals simp_wf
  all_goals
    first
    | (apply Prod.Lex.left; simp_arith; done)
    | (apply Prod.Lex.left; have hs := sizeOf_alook halook; simp_arith at hs ⊢; omega)
    | (apply Prod.Lex.right; apply Prod.Lex.left; simp_arith; done)
    | (apply Prod.Lex.right; apply Prod.Lex.left; omega)
    | (apply Prod.Lex.right; apply Prod.Lex.right; simp_arith; done)
    | (apply Prod.Lex.right; apply Prod.Lex.right; omega)

theorem m_elem1 (sub : Ruler) (h' h : Heap) (it' it : Value) :
    Erase it' it → HeapErase h' h → stabElem1 sub h it = true →
      stabElem1 sub h' it' = true := by
  cases sub with
  | remove =>
      intro hE hH hst
      cases it with
      | vptr o =>
          cases o with
          | none =>
              have hv' : it' = vptr none := erase_into_zero (vptr none) hE
              rw [hv', stabElem1]
          | some t =>
              rw [stabElem1] at hst
              have hz : zeroOf t = t := of_decide_eq_true hst
              rcases erase_vptr_some_inv hE with rfl | ⟨t', rfl, hEt⟩
              · rw [stabElem1]
              · have hfix : t' = zeroOf t := erase_into_zero t (by rw [hz]; exact hEt)
                rw [stabElem1, hfix, zeroOf_zeroOf]
                simp
      | vint a0 =>
          rw [stabElem1_notptr_remove (by intro o hx; cases hx)] at hst
          have hz : zeroOf (vint a0) = vint a0 := of_decide_eq_true hst
          obtain ⟨a2, rfl⟩ := erase_vint_inv hE
          have hfix : vint a2 = zeroOf (vint a0) := erase_into_zero (vint a0) (by rw [hz]; exact hE)
          rw [stabElem1_notptr_remove (by intro o hx; cases hx), hfix, zeroOf_zeroOf]
          simp
      | vstr a0 =>
          rw [stabElem1_notptr_remove (by intro o hx; cases hx)] at hst
          have hz : zeroOf (vstr a0) = vstr a0 := of_decide_eq_true hst
          obtain ⟨a2, rfl⟩ := erase_vstr_inv hE
          have hfix : vstr a2 = zeroOf (vstr a0) := erase_into_zero (vstr a0) (by rw [hz]; exact hE)
          rw [stabElem1_notptr_remove (by intro o hx; cases hx), hfix, zeroOf_zeroOf]
          simp
      | vbool a0 =>
          rw [stabElem1_notptr_remove (by intro o hx; cases hx)] at hst
          have hz : zeroOf (vbool a0) = vbool a0 := of_decide_eq_true hst
          obtain ⟨a2, rfl⟩ := erase_vbool_inv hE
          have hfix : vbool a2 = zeroOf (vbool a0) := erase_into_zero (vbool a0) (by rw [hz]; exact hE)
          rw [stabElem1_notptr_remove (by intro o hx; cases hx), hfix, zeroOf_zeroOf]
          simp
      | vstruct flds0 =>
          rw [stabElem1_notptr_remove (by intro o hx; cases hx)] at hst
          have hz : zeroOf (vstruct flds0) = vstruct flds0 := of_decide_eq_true hst
          obtain ⟨f2, rfl, hF2⟩ := erase_vstruct_inv hE
          have hfix : vstruct f2 = zeroOf (vstruct flds0) := erase_into_zero (vstruct flds0) (by rw [hz]; exact hE)
          rw [stabElem1_notptr_remove (by intro o hx; cases hx), hfix, zeroOf_zeroOf]
          simp
      | vslice items0 =>
          rw [stabElem1_notptr_remove (by intro o hx; cases hx)] at hst
          have hz : zeroOf (vslice items0) = vslice items0 := of_decide_eq_true hst
          obtain ⟨l2, rfl, hL2⟩ := erase_vslice_inv hE
          have hfix : vslice l2 = zeroOf (vslice items0) := erase_into_zero (vslice items0) (by rw [hz]; exact hE)
          rw [stabElem1_notptr_remove (by intro o hx; cases hx), hfix, zeroOf_zeroOf]
          simp
      | vmap o0 =>
          rw [stabElem1_notptr_remove (by intro o hx; cases hx)] at hst
          have hz : zeroOf (vmap o0) = vmap o0 := of_decide_eq_true hst
          rcases erase_vmap_inv hE with rfl | rfl
          · rw [stabElem1_notptr_remove (by intro o hx; cases hx)]
            simp [zeroOf]
          · rw [stabElem1_notptr_remove (by intro o hx; cases hx)]
            exact decide_eq_true hz
  | impl ps' =>
      intro hE hH hst
      cases it with
      | vptr o =>
          cases o with
          | none =>
              have hv' : it' = vptr none := erase_into_zero (vptr none) hE
              rw [hv', stabElem1]
          | some t =>
              rw [stabElem1] at hst
              rcases erase_vptr_some_inv hE with rfl | ⟨t', rfl, hEt⟩
              · rw [stabElem1]
              · rw [stabElem1]
                exact m_impl ps' h' h true t' t hEt hH hst
      | vint a0 =>
          rw [stabElem1_notptr_impl (by intro o hx; cases hx)] at hst
          obtain ⟨a2, rfl⟩ := erase_vint_inv hE
          rw [stabElem1_notptr_impl (by intro o hx; cases hx)]
          exact m_impl ps' h' h true (vint a2) (vint a0) hE hH hst
      | vstr a0 =>
          rw [stabElem1_notptr_impl (by intro o hx; cases hx)] at hst
          obtain ⟨a2, rfl⟩ := erase_vstr_inv hE
          rw [stabElem1_notptr_impl (by intro o hx; cases hx)]
          exact m_impl ps' h' h true (vstr a2) (vstr a0) hE hH hst
      | vbool a0 =>
          rw [stabElem1_notptr_impl (by intro o hx; cases hx)] at hst
          obtain ⟨a2, rfl⟩ := erase_vbool_inv hE
          rw [stabElem1_notptr_impl (by intro o hx; cases hx)]
          exact m_impl ps' h' h true (vbool a2) (vbool a0) hE hH hst
      | vstruct flds0 =>
          rw [stabElem1_notptr_impl (by intro o hx; cases hx)] at hst
          obtain ⟨f2, rfl, hF2⟩ := erase_vstruct_inv hE
          rw [stabElem1_notptr_impl (by intro o hx; cases hx)]
          exact m_impl ps' h' h true (vstruct f2) (vstruct flds0) hE hH hst
      | vslice items0 =>
          rw [stabElem1_notptr_impl (by intro o hx; cases hx)] at hst
          obtain ⟨l2, rfl, hL2⟩ := erase_vslice_inv hE
          rw [stabElem1_notptr_impl (by intro o hx; cases hx)]
          exact m_impl ps' h' h true (vslice l2) (vslice items0) hE hH hst
      | vmap o0 =>
          rw [stabElem1_notptr_impl (by intro o hx; cases hx)] at hst
          rcases erase_vmap_inv hE with rfl | rfl
          · rw [stabElem1_notptr_impl (by intro o hx; cases hx)]
            exact m_impl ps' h' h true (vmap none) (vmap o0) hE hH hst
          · rw [stabElem1_notptr_impl (by intro o hx; cases hx)]
            exact m_impl ps' h' h true (vmap o0) (vmap o0) hE hH hst
termination_by (sizeOf sub, sizeOf it, 1)
decreasing_by
  all_goals simp_wf
  all_goals
    first
    | (apply Prod.Lex.left; simp_arith; done)
    | (apply Prod.Lex.left; have hs := sizeOf_alook halook; simp_arith at hs ⊢; omega)
    | (apply Prod.Lex.right; apply Prod.Lex.left; simp_arith; done)
    | (apply Prod.Lex.right; apply Prod.Lex.left; omega)
    | (apply Prod.Lex.right; apply Prod.Lex.right; simp_arith; done)
    | (apply Prod.Lex.right; apply Prod.Lex.right; omega)

theorem m_elems (sub : Ruler) (h' h : Heap) (l' l : List Value) :
    EraseL l' l → HeapErase h' h → stabSliceElems sub h l = true →
      stabSliceElems sub h' l' = true := by
  cases l with
  | nil =>
      intro hL _ _
      rw [eraseL_nil_inv hL, stabSliceElems]
  | cons it rest =>
      intro hL hH hst
      obtain ⟨it', rest', rfl, hE, hLr⟩ := eraseL_cons_inv hL
      rw [stabSliceElems] at hst
      simp only [Bool.and_eq_true] at hst
      obtain ⟨h1, h2⟩ := hst
      rw [stabSliceElems]
      simp only [Bool.and_eq_true]
      exact ⟨m_elem1 sub h' h it' it hE hH h1, m_elems sub h' h rest' rest hLr hH h2⟩
termination_by (sizeOf sub, sizeOf l, 2)
decreasing_by
  all_goals simp_wf
  all_goals
    first
    | (apply Prod.Lex.left; simp_arith; done)
    | (apply Prod.Lex.left; have hs := sizeOf_alook halook; simp_arith at hs ⊢; omega)
    | (apply Prod.Lex.right; apply Prod.Lex.left; simp_arith; done)
    | (apply Prod.Lex.right; apply Prod.Lex.left; omega)
    | (apply Prod.Lex.right; apply Prod.Lex.right; simp_arith; done)
    | (apply Prod.Lex.right; apply Prod.Lex.right; omega)

end

/-- The id `a` of a heap cell occurs somewhere inside the value. -/
inductive MapIn : Value → Nat → Prop where
  | self (a : Nat) : MapIn (vmap (some a)) a
  | ptr {t : Value} {a : Nat} : MapIn t a → MapIn (vptr (some t)) a
  | fld {flds : List (String × Bool × Value)} {n : String} {ex : Bool} {v : Value} {a : Nat} :
      (n, ex, v) ∈ flds → MapIn v a → MapIn (vstruct flds) a
  | elem {items : List Value} {v : Value} {a : Nat} :
      v ∈ items → MapIn v a → MapIn (vslice items) a

/-- One reachability step between heap cells: an entry of cell `a` holds a
value containing cell `b`. -/
def Reach1 (h : Heap) (a b : Nat) : Prop :=
  ∃ k u, alook (hGet h a) k = some u ∧ MapIn u b

/-- The heap cells reachable from a value. -/
def VReach (h : Heap) (v : Value) (b : Nat) : Prop :=
  ∃ c, MapIn v c ∧ Relation.ReflTransGen (Reach1 h) c b

/-- The spec's acyclicity assumption on the value graph: no heap cell
reaches itself. -/
def Acyclic (h : Heap) : Prop := ∀ a, ¬ Relation.TransGen (Reach1 h) a a

theorem eraseF_mem_rev :
    ∀ {f f' : List (String × Bool × Value)}, EraseF f' f →
      ∀ {n : String} {ex : Bool} {w : Value}, (n, ex, w) ∈ f' →
      ∃ v0, (n, ex, v0) ∈ f ∧ Erase w v0 := by
  intro f
  induction f with
  | nil =>
      intro f' hf n ex w hm
      cases hf
      cases hm
  | cons p t ih =>
      intro f' hf n ex w hm
      obtain ⟨n0, ex0, v⟩ := p
      cases hf with
      | cons hE hF =>
          rename_i v' t'
          rcases List.mem_cons.mp hm with hm1 | hm1
          · cases hm1
            exact ⟨v, List.mem_cons_self _ _, hE⟩
          · obtain ⟨v0, hv0, hEv⟩ := ih hF hm1
            exact ⟨v0, List.mem_cons_of_mem _ hv0, hEv⟩

theorem eraseL_mem_rev :
    ∀ {l l' : List Value}, EraseL l' l → ∀ {w : Value}, w ∈ l' →
      ∃ v0, v0 ∈ l ∧ Erase w v0 := by
  intro l
  induction l with
  | nil =>
      intro l' hl w hm
      cases hl
      cases hm
  | cons it t ih =>
      intro l' hl w hm
      cases hl with
      | cons hE hL =>
          rename_i it' t'
          rcases List.mem_cons.mp hm with hm1 | hm1
          · subst hm1
            exact ⟨it, List.mem_cons_self _ _, hE⟩
          · obtain ⟨v0, hv0, hEv⟩ := ih hL hm1
            exact ⟨v0, List.mem_cons_of_mem _ hv0, hEv⟩

/-- Erasing a value can only lose cell references, never gain them. -/
theorem mapIn_erase : ∀ (v : Value) {w : Value} {a : Nat},
    Erase w v → MapIn w a → MapIn v a := by
  intro v
  cases v with
  | vint a0 =>
      intro w a hE hm
      obtain ⟨a2, rfl⟩ := erase_vint_inv hE
      cases hm
  | vstr a0 =>
      intro w a hE hm
      obtain ⟨a2, rfl⟩ := erase_vstr_inv hE
      cases hm
  | vbool a0 =>
      intro w a hE hm
      obtain ⟨a2, rfl⟩ := erase_vbool_inv hE
      cases hm
  | vmap o =>
      intro w a hE hm
      rcases erase_vmap_inv hE with rfl | rfl
      · cases hm
      · exact hm
  | vptr o =>
      cases o with
      | none =>
          intro w a hE hm
          rw [erase_into_zero (vptr none) hE] at hm
          cases hm
      | some t =>
          intro w a hE hm
          rcases erase_vptr_some_inv hE with rfl | ⟨t', rfl, hEt⟩
          · cases hm
          · cases hm with
            | ptr hin => exact MapIn.ptr (mapIn_erase t hEt hin)
  | vstruct f =>
      intro w a hE hm
      obtain ⟨f2, rfl, hF⟩ := erase_vstruct_inv hE
      cases hm with
      | fld hmem hin =>
          obtain ⟨v0, hv0, hEv⟩ := eraseF_mem_rev hF hmem
          exact MapIn.fld hv0 (mapIn_erase v0 hEv hin)
  | vslice l =>
      intro w a hE hm
      obtain ⟨l2, rfl, hL⟩ := erase_vslice_inv hE
      cases hm with
      | elem hmem hin =>
          rcases hL with hL | rfl
          · obtain ⟨v0, hv0, hEv⟩ := eraseL_mem_rev hL hmem
            exact MapIn.elem hv0 (mapIn_erase v0 hEv hin)
          · cases hmem
termination_by v => sizeOf v
decreasing_by
  all_goals simp_wf
  all_goals
    first
    | (simp_arith; done)
    | (have hs := List.sizeOf_lt_of_mem hv0; simp_arith at hs ⊢; omega)

theorem reach1_mono {h' h : Heap} (hh : HeapErase h' h) {a b : Nat}
    (hr : Reach1 h' a b) : Reach1 h a b := by
  obtain ⟨k, u', hal', hin⟩ := hr
  obtain ⟨u, hal, hE⟩ := subErase_alook_some (heapErase_hGet hh a) hal'
  exact ⟨k, u, hal, mapIn_erase u hE hin⟩

theorem acyclic_mono {h' h : Heap} (hh : HeapErase h' h) (hac : Acyclic h) : Acyclic h' := by
  intro a ht
  exact hac a (Relation.TransGen.mono (fun x y hr => reach1_mono hh hr) ht)

theorem vreach_mono {h' h : Heap} (hh : HeapErase h' h) {v' v : Value} (hE : Erase v' v)
    {b : Nat} (hr : VReach h' v' b) : VReach h v b := by
  obtain ⟨c, hin, hpath⟩ := hr
  exact ⟨c, mapIn_erase v hE hin,
    Relation.ReflTransGen.mono (fun x y hr1 => reach1_mono hh hr1) hpath⟩

/-- A value sitting in a heap cell cannot reach that cell in an acyclic
heap. -/
theorem acyclic_entry {h : Heap} (hac : Acyclic h) {a : Nat} {k : String} {u : Value}
    (hal : alook (hGet h a) k = some u) {w : Value}
    (himp : ∀ c, MapIn w c → MapIn u c) : ¬ VReach h w a := by
  intro hr
  obtain ⟨c, hin, hpath⟩ := hr
  exact hac a (Relation.TransGen.head' ⟨k, u, hal, himp c hin⟩ hpath)

/-- A single key step of the map loop only erases the heap. -/
theorem t0_mapStep (ps : List (String × Ruler)) (h : Heap) (a : Nat) (k : String) :
    HeapErase (mapStep ps h a k) h := by
  unfold mapStep
  cases halook : alook ps k with
  | none => exact heapErase_refl h
  | some sub =>
      cases hu : alook (hGet h a) k with
      | none =>
          cases sub with
          | remove => exact heapErase_hSet (heapErase_refl h) (subErase_mdel (hGet h a) k)
          | impl ps' => exact heapErase_refl h
      | some u =>
          cases u with
          | vptr o =>
              cases o with
              | none => exact heapErase_refl h
              | some t =>
                  cases sub with
                  | remove =>
                      exact heapErase_hSet (heapErase_refl h) (subErase_mdel (hGet h a) k)
                  | impl ps' =>
                      obtain ⟨hh, he⟩ := t0_impl ps' h true t
                      exact heapErase_hSet hh
                        (subErase_mupd_erase (heapErase_hGet hh a) hu (Erase.rptr he))
          | vint a0 =>
              cases sub with
              | remove =>
                  exact heapErase_hSet (heapErase_refl h) (subErase_mdel (hGet h a) k)
              | impl ps' =>
                  obtain ⟨hh, he⟩ := t0_impl ps' h false (vint a0)
                  exact heapErase_hSet hh (subErase_mupd_erase (heapErase_hGet hh a) hu he)
          | vstr a0 =>
              cases sub with
              | remove =>
                  exact heapErase_hSet (heapErase_refl h) (subErase_mdel (hGet h a) k)
              | impl ps' =>
                  obtain ⟨hh, he⟩ := t0_impl ps' h false (vstr a0)
                  exact heapErase_hSet hh (subErase_mupd_erase (heapErase_hGet hh a) hu he)
          | vbool a0 =>
              cases sub with
              | remove =>
                  exact heapErase_hSet (heapErase_refl h) (subErase_mdel (hGet h a) k)
              | impl ps' =>
                  obtain ⟨hh, he⟩ := t0_impl ps' h false (vbool a0)
                  exact heapErase_hSet hh (subErase_mupd_erase (heapErase_hGet hh a) hu he)
          | vstruct flds0 =>
              cases sub with
              | remove =>
                  exact heapErase_hSet (heapErase_refl h) (subErase_mdel (hGet h a) k)
              | impl ps' =>
                  obtain ⟨hh, he⟩ := t0_impl ps' h false (vstruct flds0)
                  exact heapErase_hSet hh (subErase_mupd_erase (heapErase_hGet hh a) hu he)
          | vslice items0 =>
              cases sub with
              | remove =>
                  exact heapErase_hSet (heapErase_refl h) (subErase_mdel (hGet h a) k)
              | impl ps' =>
                  obtain ⟨hh, he⟩ := t0_impl ps' h false (vslice items0)
                  exact heapErase_hSet hh (subErase_mupd_erase (heapErase_hGet hh a) hu he)
          | vmap o0 =>
              cases sub with
              | remove =>
                  exact heapErase_hSet (heapErase_refl h) (subErase_mdel (hGet h a) k)
              | impl ps' =>
                  obtain ⟨hh, he⟩ := t0_impl ps' h false (vmap o0)
                  exact heapErase_hSet hh (subErase_mupd_erase (heapErase_hGet hh a) hu he)

theorem fGet_mem :
    ∀ {flds : List (String × Bool × Value)} {n : String} {ex : Bool} {fv : Value},
      fGet flds n = some (ex, fv) → (n, ex, fv) ∈ flds := by
  intro flds
  induction flds with
  | nil => intro n ex fv hf; cases hf
  | cons p rest ih =>
      intro n ex fv hf
      obtain ⟨m, ex0, v0⟩ := p
      by_cases hm : m = n
      · rw [show fGet ((m, ex0, v0) :: rest) n = some (ex0, v0) from by simp [fGet, hm]] at hf
        cases hf
        rw [hm]
        exact List.mem_cons_self _ _
      · rw [show fGet ((m, ex0, v0) :: rest) n = fGet rest n from by simp [fGet, hm]] at hf
        exact List.mem_cons_of_mem _ (ih hf)

theorem vreach_field {h : Heap} {flds : List (String × Bool × Value)} {n : String}
    {ex : Bool} {fv : Value} (hf : fGet flds n = some (ex, fv)) {b : Nat}
    (hr : VReach h fv b) : VReach h (vstruct flds) b := by
  obtain ⟨c, hin, hpath⟩ := hr
  exact ⟨c, MapIn.fld (fGet_mem hf) hin, hpath⟩

theorem vreach_ptr {h : Heap} {t : Value} {b : Nat} (hr : VReach h t b) :
    VReach h (vptr (some t)) b := by
  obtain ⟨c, hin, hpath⟩ := hr
  exact ⟨c, MapIn.ptr hin, hpath⟩

theorem vreach_head {h : Heap} {it : Value} {rest : List Value} {b : Nat}
    (hr : VReach h it b) : VReach h (vslice (it :: rest)) b := by
  obtain ⟨c, hin, hpath⟩ := hr
  exact ⟨c, MapIn.elem (List.mem_cons_self _ _) hin, hpath⟩

theorem vreach_tail {h : Heap} {it : Value} {rest : List Value} {b : Nat}
    (hr : VReach h (vslice rest) b) : VReach h (vslice (it :: rest)) b := by
  obtain ⟨c, hin, hpath⟩ := hr
  cases hin with
  | elem hm hi => exact ⟨c, MapIn.elem (List.mem_cons_of_mem _ hm) hi, hpath⟩

theorem vreach_entry {h : Heap} {a : Nat} {k : String} {u : Value}
    (hu : alook (hGet h a) k = some u) {w : Value}
    (himp : ∀ c, MapIn w c → MapIn u c) {b : Nat} (hr : VReach h w b) :
    VReach h (vmap (some a)) b := by
  obtain ⟨c, hin, hpath⟩ := hr
  exact ⟨a, MapIn.self a, Relation.ReflTransGen.head ⟨k, u, hu, himp c hin⟩ hpath⟩

theorem vreach_self {h : Heap} (a : Nat) : VReach h (vmap (some a)) a :=
  ⟨a, MapIn.self a, Relation.ReflTransGen.refl⟩

mutual

/-- Frame property: the traversal never writes a heap cell that is not
reachable from the value it was given. -/
theorem frame_impl (ps : List (String × Ruler)) (h : Heap) (s : Bool) (v : Value) (b : Nat) :
    ¬ VReach h v b → hGet (applyImpl ps h s v).1 b = hGet h b := by
  cases v with
  | vptr o =>
      cases o with
      | none =>
          intro _
          rw [applyImpl_vptr_none]
      | some t =>
          intro hnv
          rw [applyImpl_vptr_some]
          exact frame_value ps h true t b (fun hr => hnv (vreach_ptr hr))
  | vint a0 =>
      intro hnv
      rw [applyImpl_notptr ps h s (vint a0) (by intro o hx; cases hx)]
      exact frame_value ps h s (vint a0) b hnv
  | vstr a0 =>
      intro hnv
      rw [applyImpl_notptr ps h s (vstr a0) (by intro o hx; cases hx)]
      exact frame_value ps h s (vstr a0) b hnv
  | vbool a0 =>
      intro hnv
      rw [applyImpl_notptr ps h s (vbool a0) (by intro o hx; cases hx)]
      exact frame_value ps h s (vbool a0) b hnv
  | vstruct flds =>
      intro hnv
      rw [applyImpl_notptr ps h s (vstruct flds) (by intro o hx; cases hx)]
      exact frame_value ps h s (vstruct flds) b hnv
  | vslice items =>
      intro hnv
      rw [applyImpl_notptr ps h s (vslice items) (by intro o hx; cases hx)]
      exact frame_value ps h s (vslice items) b hnv
  | vmap o =>
      intro hnv
      rw [applyImpl_notptr ps h s (vmap o) (by intro o' hx; cases hx)]
      exact frame_value ps h s (vmap o) b hnv
termination_by (sizeOf ps, sizeOf v, 2)
decreasing_by
  all_goals simp_wf
  all_goals
    first
    | (apply Prod.Lex.left; simp_arith; done)
    | (apply Prod.Lex.left; have hs := sizeOf_alook halook; simp_arith at hs ⊢; omega)
    | (apply Prod.Lex.right; apply Prod.Lex.left; simp_arith; done)
    | (apply Prod.Lex.right; apply Prod.Lex.left; omega)
    | (apply Prod.Lex.right; apply Prod.Lex.right; simp_arith; done)
    | (apply Prod.Lex.right; apply Prod.Lex.right; omega)

theorem frame_value (ps : List (String × Ruler)) (h : Heap) (s : Bool) (v : Value) (b : Nat) :
    ¬ VReach h v b → hGet (applyValue ps h s v).1 b = hGet h b := by
  cases v with
  | vstruct flds =>
      intro hnv
      rw [applyValue_vstruct]
      exact frame_fields h s flds ps b hnv
  | vmap o =>
      cases o with
      | none =>
          intro _
          rw [applyValue_inert ps h s (vmap none) (by intro flds0 hx; cases hx)
                (by intro a hx; simp at hx)]
      | some a =>
          intro hnv
          rw [applyValue_vmap_some]
          exact frame_mapKeys ps h a (mkeys (hGet h a)) b hnv
  | vint a0 =>
      intro _
      rw [applyValue_inert ps h s (vint a0) (by intro flds0 hx; cases hx)
            (by intro a1 hx; cases hx)]
  | vstr a0 =>
      intro _
      rw [applyValue_inert ps h s (vstr a0) (by intro flds0 hx; cases hx)
            (by intro a1 hx; cases hx)]
  | vbool a0 =>
      intro _
      rw [applyValue_inert ps h s (vbool a0) (by intro flds0 hx; cases hx)
            (by intro a1 hx; cases hx)]
  | vslice items =>
      intro _
      rw [applyValue_inert ps h s (vslice items) (by intro flds0 hx; cases hx)
            (by intro a1 hx; cases hx)]
  | vptr o =>
      intro _
      rw [applyValue_inert ps h s (vptr o) (by intro flds0 hx; cases hx)
            (by intro a1 hx; cases hx)]
termination_by (sizeOf ps, sizeOf v, 1)
decreasing_by
  all_goals simp_wf
  all_goals
    first
    | (apply Prod.Lex.left; simp_arith; done)
    | (apply Prod.Lex.left; have hs := sizeOf_alook halook; simp_arith at hs ⊢; omega)
    | (apply Prod.Lex.right; apply Prod.Lex.left; simp_arith; done)
    | (apply Prod.Lex.right; apply Prod.Lex.left; omega)
    | (apply Prod.Lex.right; apply Prod.Lex.right; simp_arith; done)
    | (apply Prod.Lex.right; apply Prod.Lex.right; omega)

theorem frame_fields (h : Heap) (s : Bool) (flds : List (String × Bool × Value))
    (l : List (String × Ruler)) (b : Nat) :
    ¬ VReach h (vstruct flds) b → hGet (applyStructFields h s flds l).1 b = hGet h b := by
  cases l with
  | nil =>
      intro _
      rw [applyStructFields]
  | cons q rest =>
      obtain ⟨n, sub⟩ := q
      intro hnv
      rw [applyStructFields]
      cases hf : fGet flds n with
      | none => exact frame_fields h s flds rest b hnv
      | some exfv =>
          obtain ⟨ex, fv⟩ := exfv
          by_cases hex : ex = true
          · subst hex
            cases fv with
            | vslice items =>
                show hGet (applyStructFields (applySliceElems sub h items).1 s
                    (fSet flds n (vslice (applySliceElems sub h items).2)) rest).1 b
                  = hGet h b
                have hfv : ¬ VReach h (vslice items) b := fun hr => hnv (vreach_field hf hr)
                have h1 := frame_elems sub h items b hfv
                obtain ⟨hh0, he0⟩ := t0_sliceElems sub h items
                have h2 := frame_fields (applySliceElems sub h items).1 s
                  (fSet flds n (vslice (applySliceElems sub h items).2)) rest b
                  (fun hr => hnv (vreach_mono hh0
                    (Erase.rstruct (eraseF_fSet hf (Erase.rslice he0))) hr))
                rw [h2, h1]
            | vint a0 =>
                cases sub with
                | remove =>
                    cases s with
                    | false =>
                        show hGet (applyStructFields h false flds rest).1 b = hGet h b
                        exact frame_fields h false flds rest b hnv
                    | true =>
                        show hGet (applyStructFields h true
                            (fSet flds n (zeroOf (vint a0))) rest).1 b = hGet h b
                        refine frame_fields h true (fSet flds n (zeroOf (vint a0))) rest b ?_
                        intro hr
                        exact hnv (vreach_mono (heapErase_refl h)
                          (Erase.rstruct (eraseF_fSet hf (Erase.zero (vint a0)))) hr)
                | impl ps' =>
                    show hGet (applyStructFields (applyImpl ps' h s (vint a0)).1 s
                        (fSet flds n (applyImpl ps' h s (vint a0)).2) rest).1 b = hGet h b
                    have hfv : ¬ VReach h (vint a0) b := fun hr => hnv (vreach_field hf hr)
                    have h1 := frame_impl ps' h s (vint a0) b hfv
                    obtain ⟨hh0, he0⟩ := t0_impl ps' h s (vint a0)
                    have h2 := frame_fields (applyImpl ps' h s (vint a0)).1 s
                      (fSet flds n (applyImpl ps' h s (vint a0)).2) rest b
                      (fun hr => hnv (vreach_mono hh0
                        (Erase.rstruct (eraseF_fSet hf he0)) hr))
                    rw [h2, h1]
            | vstr a0 =>
                cases sub with
                | remove =>
                    cases s with
                    | false =>
                        show hGet (applyStructFields h false flds rest).1 b = hGet h b
                        exact frame_fields h false flds rest b hnv
                    | true =>
                        show hGet (applyStructFields h true
                            (fSet flds n (zeroOf (vstr a0))) rest).1 b = hGet h b
                        refine frame_fields h true (fSet flds n (zeroOf (vstr a0))) rest b ?_
                        intro hr
                        exact hnv (vreach_mono (heapErase_refl h)
                          (Erase.rstruct (eraseF_fSet hf (Erase.zero (vstr a0)))) hr)
                | impl ps' =>
                    show hGet (applyStructFields (applyImpl ps' h s (vstr a0)).1 s
                        (fSet flds n (applyImpl ps' h s (vstr a0)).2) rest).1 b = hGet h b
                    have hfv : ¬ VReach h (vstr a0) b := fun hr => hnv (vreach_field hf hr)
                    have h1 := frame_impl ps' h s (vstr a0) b hfv
                    obtain ⟨hh0, he0⟩ := t0_impl ps' h s (vstr a0)
                    have h2 := frame_fields (applyImpl ps' h s (vstr a0)).1 s
                      (fSet flds n (applyImpl ps' h s (vstr a0)).2) rest b
                      (fun hr => hnv (vreach_mono hh0
                        (Erase.rstruct (eraseF_fSet hf he0)) hr))
                    rw [h2, h1]
            | vbool a0 =>
                cases sub with
                | remove =>
                    cases s with
                    | false =>
                        show hGet (applyStructFields h false flds rest).1 b = hGet h b
                        exact frame_fields h false flds rest b hnv
                    | true =>
                        show hGet (applyStructFields h true
                            (fSet flds n (zeroOf (vbool a0))) rest).1 b = hGet h b
                        refine frame_fields h true (fSet flds n (zeroOf (vbool a0))) rest b ?_
                        intro hr
                        exact hnv (vreach_mono (heapErase_refl h)
                          (Erase.rstruct (eraseF_fSet hf (Erase.zero (vbool a0)))) hr)
                | impl ps' =>
                    show hGet (applyStructFields (applyImpl ps' h s (vbool a0)).1 s
                        (fSet flds n (applyImpl ps' h s (vbool a0)).2) rest).1 b = hGet h b
                    have hfv : ¬ VReach h (vbool a0) b := fun hr => hnv (vreach_field hf hr)
                    have h1 := frame_impl ps' h s (vbool a0) b hfv
                    obtain ⟨hh0, he0⟩ := t0_impl ps' h s (vbool a0)
                    have h2 := frame_fields (applyImpl ps' h s (vbool a0)).1 s
                      (fSet flds n (applyImpl ps' h s (vbool a0)).2) rest b
                      (fun hr => hnv (vreach_mono hh0
                        (Erase.rstruct (eraseF_fSet hf he0)) hr))
                    rw [h2, h1]
            | vstruct flds0 =>
                cases sub with
                | remove =>
                    cases s with
                    | false =>
                        show hGet (applyStructFields h false flds rest).1 b = hGet h b
                        exact frame_fields h false flds rest b hnv
                    | true =>
                        show hGet (applyStructFields h true
                            (fSet flds n (zeroOf (vstruct flds0))) rest).1 b = hGet h b
                        refine frame_fields h true (fSet flds n (zeroOf (vstruct flds0))) rest b ?_
                        intro hr
                        exact hnv (vreach_mono (heapErase_refl h)
                          (Erase.rstruct (eraseF_fSet hf (Erase.zero (vstruct flds0)))) hr)
                | impl ps' =>
                    show hGet (applyStructFields (applyImpl ps' h s (vstruct flds0)).1 s
                        (fSet flds n (applyImpl ps' h s (vstruct flds0)).2) rest).1 b = hGet h b
                    have hfv : ¬ VReach h (vstruct flds0) b := fun hr => hnv (vreach_field hf hr)
                    have h1 := frame_impl ps' h s (vstruct flds0) b hfv
                    obtain ⟨hh0, he0⟩ := t0_impl ps' h s (vstruct flds0)
                    have h2 := frame_fields (applyImpl ps' h s (vstruct flds0)).1 s
                      (fSet flds n (applyImpl ps' h s (vstruct flds0)).2) rest b
                      (fun hr => hnv (vreach_mono hh0
                        (Erase.rstruct (eraseF_fSet hf he0)) hr))
                    rw [h2, h1]
            | vmap o0 =>
                cases sub with
                | remove =>
                    cases s with
                    | false =>
                        show hGet (applyStructFields h false flds rest).1 b = hGet h b
                        exact frame_fields h false flds rest b hnv
                    | true =>
                        show hGet (applyStructFields h true
                            (fSet flds n (zeroOf (vmap o0))) rest).1 b = hGet h b
                        refine frame_fields h true (fSet flds n (zeroOf (vmap o0))) rest b ?_
                        intro hr
                        exact hnv (vreach_mono (heapErase_refl h)
                          (Erase.rstruct (eraseF_fSet hf (Erase.zero (vmap o0)))) hr)
                | impl ps' =>
                    show hGet (applyStructFields (applyImpl ps' h s (vmap o0)).1 s
                        (fSet flds n (applyImpl ps' h s (vmap o0)).2) rest).1 b = hGet h b
                    have hfv : ¬ VReach h (vmap o0) b := fun hr => hnv (vreach_field hf hr)
                    have h1 := frame_impl ps' h s (vmap o0) b hfv
                    obtain ⟨hh0, he0⟩ := t0_impl ps' h s (vmap o0)
                    have h2 := frame_fields (applyImpl ps' h s (vmap o0)).1 s
                      (fSet flds n (applyImpl ps' h s (vmap o0)).2) rest b
                      (fun hr => hnv (vreach_mono hh0
                        (Erase.rstruct (eraseF_fSet hf he0)) hr))
                    rw [h2, h1]
            | vptr o0 =>
                cases sub with
                | remove =>
                    cases s with
                    | false =>
                        show hGet (applyStructFields h false flds rest).1 b = hGet h b
                        exact frame_fields h false flds rest b hnv
                    | true =>
                        show hGet (applyStructFields h true
                            (fSet flds n (zeroOf (vptr o0))) rest).1 b = hGet h b
                        refine frame_fields h true (fSet flds n (zeroOf (vptr o0))) rest b ?_
                        intro hr
                        exact hnv (vreach_mono (heapErase_refl h)
                          (Erase.rstruct (eraseF_fSet hf (Erase.zero (vptr o0)))) hr)
                | impl ps' =>
                    show hGet (applyStructFields (applyImpl ps' h s (vptr o0)).1 s
                        (fSet flds n (applyImpl ps' h s (vptr o0)).2) rest).1 b = hGet h b
                    have hfv : ¬ VReach h (vptr o0) b := fun hr => hnv (vreach_field hf hr)
                    have h1 := frame_impl ps' h s (vptr o0) b hfv
                    obtain ⟨hh0, he0⟩ := t0_impl ps' h s (vptr o0)
                    have h2 := frame_fields (applyImpl ps' h s (vptr o0)).1 s
                      (fSet flds n (applyImpl ps' h s (vptr o0)).2) rest b
                      (fun hr => hnv (vreach_mono hh0
                        (Erase.rstruct (eraseF_fSet hf he0)) hr))
                    rw [h2, h1]
          · have hex' : ex = false := by
              cases ex
              · rfl
              · exact absurd rfl hex
            subst hex'
            show hGet (applyStructFields h s flds rest).1 b = hGet h b
            exact frame_fields h s flds rest b hnv
termination_by (sizeOf l, 0, 0)
decreasing_by
  all_goals simp_wf
  all_goals
    first
    | (apply Prod.Lex.left; simp_arith; done)
    | (apply Prod.Lex.left; have hs := sizeOf_alook halook; simp_arith at hs ⊢; omega)
    | (apply Prod.Lex.right; apply Prod.Lex.left; simp_arith; done)
    | (apply Prod.Lex.right; apply Prod.Lex.left; omega)
    | (apply Prod.Lex.right; apply Prod.Lex.right; simp_arith; done)
    | (apply Prod.Lex.right; apply Prod.Lex.right; omega)

theorem frame_elem1 (sub : Ruler) (h : Heap) (it : Value) (b : Nat) :
    ¬ VReach h it b → hGet (applySliceElem1 sub h it).1 b = hGet h b := by
  cases it with
  | vptr o =>
      cases o with
      | none =>
          intro _
          rw [show applySliceElem1 sub h (vptr none) = (h, vptr none) from by
                rw [applySliceElem1]]
      | some t =>
          cases sub with
          | remove =>
              intro _
              rw [show applySliceElem1 Ruler.remove h (vptr (some t))
                    = (h, vptr (some (zeroOf t))) from by rw [applySliceElem1]]
          | impl ps' =>
              intro hnv
              rw [show applySliceElem1 (Ruler.impl ps') h (vptr (some t))
                    = ((applyImpl ps' h true t).1, vptr (some (applyImpl ps' h true t).2))
                  from by rw [applySliceElem1]]
              exact frame_impl ps' h true t b (fun hr => hnv (vreach_ptr hr))
  | vint a0 =>
      cases sub with
      | remove =>
          intro _
          rw [show applySliceElem1 Ruler.remove h (vint a0) = (h, zeroOf (vint a0)) from by
                simp [applySliceElem1]]
      | impl ps' =>
          intro hnv
          rw [show applySliceElem1 (Ruler.impl ps') h (vint a0)
                = applyImpl ps' h true (vint a0) from by simp [applySliceElem1]]
          exact frame_impl ps' h true (vint a0) b hnv
  | vstr a0 =>
      cases sub with
      | remove =>
          intro _
          rw [show applySliceElem1 Ruler.remove h (vstr a0) = (h, zeroOf (vstr a0)) from by
                simp [applySliceElem1]]
      | impl ps' =>
          intro hnv
          rw [show applySliceElem1 (Ruler.impl ps') h (vstr a0)
                = applyImpl ps' h true (vstr a0) from by simp [applySliceElem1]]
          exact frame_impl ps' h true (vstr a0) b hnv
  | vbool a0 =>
      cases sub with
      | remove =>
          intro _
          rw [show applySliceElem1 Ruler.remove h (vbool a0) = (h, zeroOf (vbool a0)) from by
                simp [applySliceElem1]]
      | impl ps' =>
          intro hnv
          rw [show applySliceElem1 (Ruler.impl ps') h (vbool a0)
                = applyImpl ps' h true (vbool a0) from by simp [applySliceElem1]]
          exact frame_impl ps' h true (vbool a0) b hnv
  | vstruct flds0 =>
      cases sub with
      | remove =>
          intro _
          rw [show applySliceElem1 Ruler.remove h (vstruct flds0) = (h, zeroOf (vstruct flds0)) from by
                simp [applySliceElem1]]
      | impl ps' =>
          intro hnv
          rw [show applySliceElem1 (Ruler.impl ps') h (vstruct flds0)
                = applyImpl ps' h true (vstruct flds0) from by simp [applySliceElem1]]
          exact frame_impl ps' h true (vstruct flds0) b hnv
  | vslice items0 =>
      cases sub with
      | remove =>
          intro _
          rw [show applySliceElem1 Ruler.remove h (vslice items0) = (h, zeroOf (vslice items0)) from by
                simp [applySliceElem1]]
      | impl ps' =>
          intro hnv
          rw [show applySliceElem1 (Ruler.impl ps') h (vslice items0)
                = applyImpl ps' h true (vslice items0) from by simp [applySliceElem1]]
          exact frame_impl ps' h true (vslice items0) b hnv
  | vmap o0 =>
      cases sub with
      | remove =>
          intro _
          rw [show applySliceElem1 Ruler.remove h (vmap o0) = (h, zeroOf (vmap o0)) from by
                simp [applySliceElem1]]
      | impl ps' =>
          intro hnv
          rw [show applySliceElem1 (Ruler.impl ps') h (vmap o0)
                = applyImpl ps' h true (vmap o0) from by simp [applySliceElem1]]
          exact frame_impl ps' h true (vmap o0) b hnv
termination_by (sizeOf sub, sizeOf it, 1)
decreasing_by
  all_goals simp_wf
  all_goals
    first
    | (apply Prod.Lex.left; simp_arith; done)
    | (apply Prod.Lex.left; have hs := sizeOf_alook halook; simp_arith at hs ⊢; omega)
    | (apply Prod.Lex.right; apply Prod.Lex.left; simp_arith; done)
    | (apply Prod.Lex.right; apply Prod.Lex.left; omega)
    | (apply Prod.Lex.right; apply Prod.Lex.right; simp_arith; done)
    | (apply Prod.Lex.right; apply Prod.Lex.right; omega)

theorem frame_elems (sub : Ruler) (h : Heap) (items : List Value) (b : Nat) :
    ¬ VReach h (vslice items) b → hGet (applySliceElems sub h items).1 b = hGet h b := by
  cases items with
  | nil =>
      intro _
      rw [show applySliceElems sub h [] = (h, []) from by rw [applySliceElems]]
  | cons it rest =>
      intro hnv
      rw [applySliceElems]
      show hGet (applySliceElems sub (applySliceElem1 sub h it).1 rest).1 b = hGet h b
      have h1 := frame_elem1 sub h it b (fun hr => hnv (vreach_head hr))
      obtain ⟨hh0, he0⟩ := t0_sliceElem1 sub h it
      have h2 := frame_elems sub (applySliceElem1 sub h it).1 rest b
        (fun hr => hnv (vreach_tail (vreach_mono hh0 (erase_refl (vslice rest)) hr)))
      rw [h2, h1]
termination_by (sizeOf sub, sizeOf items, 2)
decreasing_by
  all_goals simp_wf
  all_goals
    first
    | (apply Prod.Lex.left; simp_arith; done)
    | (apply Prod.Lex.left; have hs := sizeOf_alook halook; simp_arith at hs ⊢; omega)
    | (apply Prod.Lex.right; apply Prod.Lex.left; simp_arith; done)
    | (apply Prod.Lex.right; apply Prod.Lex.left; omega)
    | (apply Prod.Lex.right; apply Prod.Lex.right; simp_arith; done)
    | (apply Prod.Lex.right; apply Prod.Lex.right; omega)

theorem frame_mapKeys (ps : List (String × Ruler)) (h : Heap) (a : Nat)
    (keys : List String) (b : Nat) :
    ¬ VReach h (vmap (some a)) b → hGet (applyMapKeys ps h a keys) b = hGet h b := by
  cases keys with
  | nil =>
      intro _
      rw [applyMapKeys_nil]
  | cons k rest =>
      intro hnv
      have hba : b ≠ a := fun he => hnv (by rw [he]; exact vreach_self a)
      rw [applyMapKeys_cons]
      have hstep : hGet (mapStep ps h a k) b = hGet h b := by
        unfold mapStep
        cases halook : alook ps k with
        | none => rfl
        | some sub =>
            cases hu : alook (hGet h a) k with
            | none =>
                cases sub with
                | remove => exact hGet_hSet_ne hba h (mdel (hGet h a) k)
                | impl ps' => rfl
            | some u =>
                cases u with
                | vptr o =>
                    cases o with
                    | none => rfl
                    | some t =>
                        cases sub with
                        | remove => exact hGet_hSet_ne hba h (mdel (hGet h a) k)
                        | impl ps' =>
                            have hft := frame_impl ps' h true t b (fun hr =>
                              hnv (vreach_entry hu (fun c hc => MapIn.ptr hc) hr))
                            show hGet (hSet (applyImpl ps' h true t).1 a
                                (mupd (hGet (applyImpl ps' h true t).1 a) k
                                  (vptr (some (applyImpl ps' h true t).2)))) b = hGet h b
                            rw [hGet_hSet_ne hba, hft]
                | vint a0 =>
                    cases sub with
                    | remove => exact hGet_hSet_ne hba h (mdel (hGet h a) k)
                    | impl ps' =>
                        have hft := frame_impl ps' h false (vint a0) b (fun hr =>
                          hnv (vreach_entry hu (fun c hc => hc) hr))
                        show hGet (hSet (applyImpl ps' h false (vint a0)).1 a
                            (mupd (hGet (applyImpl ps' h false (vint a0)).1 a) k
                              (applyImpl ps' h false (vint a0)).2)) b = hGet h b
                        rw [hGet_hSet_ne hba, hft]
                | vstr a0 =>
                    cases sub with
                    | remove => exact hGet_hSet_ne hba h (mdel (hGet h a) k)
                    | impl ps' =>
                        have hft := frame_impl ps' h false (vstr a0) b (fun hr =>
                          hnv (vreach_entry hu (fun c hc => hc) hr))
                        show hGet (hSet (applyImpl ps' h false (vstr a0)).1 a
                            (mupd (hGet (applyImpl ps' h false (vstr a0)).1 a) k
                              (applyImpl ps' h false (vstr a0)).2)) b = hGet h b
                        rw [hGet_hSet_ne hba, hft]
                | vbool a0 =>
                    cases sub with
                    | remove => exact hGet_hSet_ne hba h (mdel (hGet h a) k)
                    | impl ps' =>
                        have hft := frame_impl ps' h false (vbool a0) b (fun hr =>
                          hnv (vreach_entry hu (fun c hc => hc) hr))
                        show hGet (hSet (applyImpl ps' h false (vbool a0)).1 a
                            (mupd (hGet (applyImpl ps' h false (vbool a0)).1 a) k
                              (applyImpl ps' h false (vbool a0)).2)) b = hGet h b
                        rw [hGet_hSet_ne hba, hft]
                | vstruct flds0 =>
                    cases sub with
                    | remove => exact hGet_hSet_ne hba h (mdel (hGet h a) k)
                    | impl ps' =>
                        have hft := frame_impl ps' h false (vstruct flds0) b (fun hr =>
                          hnv (vreach_entry hu (fun c hc => hc) hr))
                        show hGet (hSet (applyImpl ps' h false (vstruct flds0)).1 a
                            (mupd (hGet (applyImpl ps' h false (vstruct flds0)).1 a) k
                              (applyImpl ps' h false (vstruct flds0)).2)) b = hGet h b
                        rw [hGet_hSet_ne hba, hft]
                | vslice items0 =>
                    cases sub with
                    | remove => exact hGet_hSet_ne hba h (mdel (hGet h a) k)
                    | impl ps' =>
                        have hft := frame_impl ps' h false (vslice items0) b (fun hr =>
                          hnv (vreach_entry hu (fun c hc => hc) hr))
                        show hGet (hSet (applyImpl ps' h false (vslice items0)).1 a
                            (mupd (hGet (applyImpl ps' h false (vslice items0)).1 a) k
                              (applyImpl ps' h false (vslice items0)).2)) b = hGet h b
                        rw [hGet_hSet_ne hba, hft]
                | vmap o0 =>
                    cases sub with
                    | remove => exact hGet_hSet_ne hba h (mdel (hGet h a) k)
                    | impl ps' =>
                        have hft := frame_impl ps' h false (vmap o0) b (fun hr =>
                          hnv (vreach_entry hu (fun c hc => hc) hr))
                        show hGet (hSet (applyImpl ps' h false (vmap o0)).1 a
                            (mupd (hGet (applyImpl ps' h false (vmap o0)).1 a) k
                              (applyImpl ps' h false (vmap o0)).2)) b = hGet h b
                        rw [hGet_hSet_ne hba, hft]
      have hrest := frame_mapKeys ps (mapStep ps h a k) a rest b
        (fun hr => hnv (vreach_mono (t0_mapStep ps h a k)
          (erase_refl (vmap (some a))) hr))
      rw [hrest, hstep]
termination_by (sizeOf ps, 0, sizeOf keys)
decreasing_by
  all_goals simp_wf
  all_goals
    first
    | (apply Prod.Lex.left; simp_arith; done)
    | (apply Prod.Lex.left; have hs := sizeOf_alook halook; simp_arith at hs ⊢; omega)
    | (apply Prod.Lex.right; apply Prod.Lex.left; simp_arith; done)
    | (apply Prod.Lex.right; apply Prod.Lex.left; omega)
    | (apply Prod.Lex.right; apply Prod.Lex.right; simp_arith; done)
    | (apply Prod.Lex.right; apply Prod.Lex.right; omega)

end

theorem hGet_oob {h : Heap} {a : Nat} (ha : ¬ a < h.length) : hGet h a = [] := by
  induction h generalizing a with
  | nil => rfl
  | cons c rest ih =>
      cases a with
      | zero => exact absurd (Nat.zero_lt_succ _) ha
      | succ a' => exact ih (fun hx => ha (Nat.succ_lt_succ hx))

theorem heapErase_length {h' h : Heap} (hh : HeapErase h' h) : h'.length = h.length := by
  induction hh with
  | nil => rfl
  | cons hS hH ih => simpa using ih

theorem stabMapEntry_vptr_none (h : Heap) (k : String) :
    ∀ l : List (String × Ruler), stabMapEntry h k (vptr none) l = true := by
  intro l
  induction l with
  | nil => exact stabMapEntry_nil h k (vptr none)
  | cons q rest ih =>
      obtain ⟨n, sub⟩ := q
      rw [stabMapEntry.eq_def]
      by_cases hn : n = k
      · simp only [hn, if_true]
        cases sub with
        | remove => simp
        | impl ps' => rfl
      · simp only [hn, if_false]
        exact ih

theorem stabMapEntry_build_ptr {h : Heap} {k : String} {ps' : List (String × Ruler)}
    {t0 : Value} (hs : stabImpl ps' h true t0 = true) :
    ∀ {l : List (String × Ruler)}, alook l k = some (Ruler.impl ps') →
      stabMapEntry h k (vptr (some t0)) l = true := by
  intro l
  induction l with
  | nil => intro hk; cases hk
  | cons q rest ih =>
      intro hk
      obtain ⟨n, sub⟩ := q
      by_cases hn : n = k
      · rw [show alook ((n, sub) :: rest) k = some sub from by simp [alook, hn]] at hk
        cases hk
        rw [stabMapEntry.eq_def]
        simp only [hn, if_true]
        exact hs
      · rw [show alook ((n, sub) :: rest) k = alook rest k from by simp [alook, hn]] at hk
        rw [stabMapEntry.eq_def]
        simp only [hn, if_false]
        exact ih hk

theorem stabMapEntry_build_nonptr {h : Heap} {k : String} {ps' : List (String × Ruler)}
    {u' : Value} (hno : ∀ o, u' ≠ vptr o) (hs : stabImpl ps' h false u' = true) :
    ∀ {l : List (String × Ruler)}, alook l k = some (Ruler.impl ps') →
      stabMapEntry h k u' l = true := by
  intro l
  induction l with
  | nil => intro hk; cases hk
  | cons q rest ih =>
      intro hk
      obtain ⟨n, sub⟩ := q
      by_cases hn : n = k
      · rw [show alook ((n, sub) :: rest) k = some sub from by simp [alook, hn]] at hk
        cases hk
        rw [stabMapEntry.eq_def]
        simp only [hn, if_true]
        cases u' with
        | vptr o => exact absurd rfl (hno o)
        | vint a0 => exact hs
        | vstr a0 => exact hs
        | vbool a0 => exact hs
        | vstruct flds0 => exact hs
        | vslice items0 => exact hs
        | vmap o0 => exact hs
      · rw [show alook ((n, sub) :: rest) k = alook rest k from by simp [alook, hn]] at hk
        rw [stabMapEntry.eq_def]
        simp only [hn, if_false]
        exact ih hk

theorem m_stabEntry {h' h : Heap} (hh : HeapErase h' h) {a : Nat} {k : String}
    {l : List (String × Ruler)} (hst : stabEntry h a k l = true) :
    stabEntry h' a k l = true := by
  unfold stabEntry at hst ⊢
  cases hu' : alook (hGet h' a) k with
  | none => rfl
  | some u' =>
      obtain ⟨u, hu, hE⟩ := subErase_alook_some (heapErase_hGet hh a) hu'
      rw [hu] at hst
      exact m_entry h' h k u' u l hE hh hst

theorem fGet_fSet_self {flds : List (String × Bool × Value)} {n : String} {ex : Bool}
    {fv : Value} (hf : fGet flds n = some (ex, fv)) (u : Value) :
    fGet (fSet flds n u) n = some (ex, u) := by
  induction flds with
  | nil => cases hf
  | cons p rest ih =>
      obtain ⟨m, ex0, v0⟩ := p
      by_cases hm : m = n
      · rw [show fGet ((m, ex0, v0) :: rest) n = some (ex0, v0) from by simp [fGet, hm]] at hf
        cases hf
        rw [show fSet ((m, ex, fv) :: rest) n u = (m, ex, u) :: rest from by simp [fSet, hm]]
        simp [fGet, hm]
      · rw [show fGet ((m, ex0, v0) :: rest) n = fGet rest n from by simp [fGet, hm]] at hf
        rw [show fSet ((m, ex0, v0) :: rest) n u
              = (m, ex0, v0) :: fSet rest n u from by simp [fSet, hm]]
        rw [show fGet ((m, ex0, v0) :: fSet rest n u) n = fGet (fSet rest n u) n from by
              simp [fGet, hm]]
        exact ih hf

theorem hSet_oob {h : Heap} {a : Nat} (ha : ¬ a < h.length) (m : MapData) :
    hSet h a m = h := by
  induction h generalizing a with
  | nil => rfl
  | cons c rest ih =>
      cases a with
      | zero => exact absurd (Nat.zero_lt_succ _) ha
      | succ a' =>
          show c :: hSet rest a' m = c :: rest
          rw [ih (fun hx => ha (Nat.succ_lt_succ hx))]

mutual

/-- The outputs of a run of `applyRules` are stable: re-running the same
rules on the produced value against the produced heap changes nothing
(acyclic heaps). -/
theorem t1_impl (ps : List (String × Ruler)) (h : Heap) (s : Bool) (v : Value) :
    Acyclic h → stabImpl ps (applyImpl ps h s v).1 s (applyImpl ps h s v).2 = true := by
  cases v with
  | vptr o =>
      cases o with
      | none =>
          intro _
          rw [applyImpl_vptr_none]
          show stabImpl ps h s (vptr none) = true
          rw [stabImpl]
      | some t =>
          intro hac
          rw [applyImpl_vptr_some]
          show stabImpl ps (applyValue ps h true t).1 s
              (vptr (some (applyValue ps h true t).2)) = true
          rw [stabImpl]
          exact t1_value ps h true t hac
  | vint a0 =>
      intro hac
      rw [applyImpl_notptr ps h s (vint a0) (by intro o hx; cases hx)]
      obtain ⟨a2, hw⟩ := erase_vint_inv (t0_value ps h s (vint a0)).2
      rw [hw, stabImpl_notptr ps (applyValue ps h s (vint a0)).1 s (vint a2)
            (by intro o hx; cases hx)]
      have ht := t1_value ps h s (vint a0) hac
      rw [hw] at ht
      exact ht
  | vstr a0 =>
      intro hac
      rw [applyImpl_notptr ps h s (vstr a0) (by intro o hx; cases hx)]
      obtain ⟨a2, hw⟩ := erase_vstr_inv (t0_value ps h s (vstr a0)).2
      rw [hw, stabImpl_notptr ps (applyValue ps h s (vstr a0)).1 s (vstr a2)
            (by intro o hx; cases hx)]
      have ht := t1_value ps h s (vstr a0) hac
      rw [hw] at ht
      exact ht
  | vbool a0 =>
      intro hac
      rw [applyImpl_notptr ps h s (vbool a0) (by intro o hx; cases hx)]
      obtain ⟨a2, hw⟩ := erase_vbool_inv (t0_value ps h s (vbool a0)).2
      rw [hw, stabImpl_notptr ps (applyValue ps h s (vbool a0)).1 s (vbool a2)
            (by intro o hx; cases hx)]
      have ht := t1_value ps h s (vbool a0) hac
      rw [hw] at ht
      exact ht
  | vstruct flds =>
      intro hac
      rw [applyImpl_notptr ps h s (vstruct flds) (by intro o hx; cases hx)]
      obtain ⟨f2, hw, hf2⟩ := erase_vstruct_inv (t0_value ps h s (vstruct flds)).2
      rw [hw, stabImpl_notptr ps (applyValue ps h s (vstruct flds)).1 s (vstruct f2)
            (by intro o hx; cases hx)]
      have ht := t1_value ps h s (vstruct flds) hac
      rw [hw] at ht
      exact ht
  | vslice items =>
      intro hac
      rw [applyImpl_notptr ps h s (vslice items) (by intro o hx; cases hx)]
      obtain ⟨l2, hw, hl2⟩ := erase_vslice_inv (t0_value ps h s (vslice items)).2
      rw [hw, stabImpl_notptr ps (applyValue ps h s (vslice items)).1 s (vslice l2)
            (by intro o hx; cases hx)]
      have ht := t1_value ps h s (vslice items) hac
      rw [hw] at ht
      exact ht
  | vmap o =>
      intro hac
      rw [applyImpl_notptr ps h s (vmap o) (by intro o' hx; cases hx)]
      rcases erase_vmap_inv (t0_value ps h s (vmap o)).2 with hw | hw
      · rw [hw, stabImpl_notptr ps (applyValue ps h s (vmap o)).1 s (vmap none)
              (by intro o' hx; cases hx)]
        have ht := t1_value ps h s (vmap o) hac
        rw [hw] at ht
        exact ht
      · rw [hw, stabImpl_notptr ps (applyValue ps h s (vmap o)).1 s (vmap o)
              (by intro o' hx; cases hx)]
        have ht := t1_value ps h s (vmap o) hac
        rw [hw] at ht
        exact ht
termination_by (sizeOf ps, sizeOf v, 2)
decreasing_by
  all_goals simp_wf
  all_goals
    first
    | (apply Prod.Lex.left; simp_arith; done)
    | (apply Prod.Lex.left; have hs := sizeOf_alook halook; simp_arith at hs ⊢; omega)
    | (apply Prod.Lex.right; apply Prod.Lex.left; simp_arith; done)
    | (apply Prod.Lex.right; apply Prod.Lex.left; omega)
    | (apply Prod.Lex.right; apply Prod.Lex.right; simp_arith; done)
    | (apply Prod.Lex.right; apply Prod.Lex.right; omega)

theorem t1_value (ps : List (String × Ruler)) (h : Heap) (s : Bool) (v : Value) :
    Acyclic h → stabValue ps (applyValue ps h s v).1 s (applyValue ps h s v).2 = true := by
  cases v with
  | vstruct flds =>
      intro hac
      rw [applyValue_vstruct]
      show stabValue ps (applyStructFields h s flds ps).1 s
          (vstruct (applyStructFields h s flds ps).2) = true
      rw [stabValue]
      exact t1_fields h s flds ps hac
  | vmap o =>
      cases o with
      | none =>
          intro _
          rw [applyValue_inert ps h s (vmap none) (by intro flds0 hx; cases hx)
                (by intro a hx; simp at hx)]
          exact stabValue_inert ps h s (vmap none) (by intro f hx; cases hx)
            (by intro a hx; simp at hx)
      | some a =>
          intro hac
          rw [applyValue_vmap_some]
          show stabValue ps (applyMapKeys ps h a (mkeys (hGet h a))) s (vmap (some a)) = true
          rw [stabValue]
          refine forall_to_stabKeys (fun k hk => ?_)
          exact t1_mapKeys ps h a (mkeys (hGet h a)) hac
            (fun k0 u0 hu0 => Or.inl (mem_mkeys_of_alook hu0)) k
  | vint a0 =>
      intro _
      rw [applyValue_inert ps h s (vint a0) (by intro flds0 hx; cases hx)
            (by intro a1 hx; cases hx)]
      exact stabValue_inert ps h s (vint a0) (by intro f hx; cases hx)
        (by intro a1 hx; cases hx)
  | vstr a0 =>
      intro _
      rw [applyValue_inert ps h s (vstr a0) (by intro flds0 hx; cases hx)
            (by intro a1 hx; cases hx)]
      exact stabValue_inert ps h s (vstr a0) (by intro f hx; cases hx)
        (by intro a1 hx; cases hx)
  | vbool a0 =>
      intro _
      rw [applyValue_inert ps h s (vbool a0) (by intro flds0 hx; cases hx)
            (by intro a1 hx; cases hx)]
      exact stabValue_inert ps h s (vbool a0) (by intro f hx; cases hx)
        (by intro a1 hx; cases hx)
  | vslice items =>
      intro _
      rw [applyValue_inert ps h s (vslice items) (by intro flds0 hx; cases hx)
            (by intro a1 hx; cases hx)]
      exact stabValue_inert ps h s (vslice items) (by intro f hx; cases hx)
        (by intro a1 hx; cases hx)
  | vptr o =>
      intro _
      rw [applyValue_inert ps h s (vptr o) (by intro flds0 hx; cases hx)
            (by intro a1 hx; cases hx)]
      exact stabValue_inert ps h s (vptr o) (by intro f hx; cases hx)
        (by intro a1 hx; cases hx)
termination_by (sizeOf ps, sizeOf v, 1)
decreasing_by
  all_goals simp_wf
  all_goals
    first
    | (apply Prod.Lex.left; simp_arith; done)
    | (apply Prod.Lex.left; have hs := sizeOf_alook halook; simp_arith at hs ⊢; omega)
    | (apply Prod.Lex.right; apply Prod.Lex.left; simp_arith; done)
    | (apply Prod.Lex.right; apply Prod.Lex.left; omega)
    | (apply Prod.Lex.right; apply Prod.Lex.right; simp_arith; done)
    | (apply Prod.Lex.right; apply Prod.Lex.right; omega)

theorem t1_fields (h : Heap) (s : Bool) (flds : List (String × Bool × Value))
    (l : List (String × Ruler)) :
    Acyclic h → stabFields (applyStructFields h s flds l).1 s
      (applyStructFields h s flds l).2 l = true := by
  cases l with
  | nil =>
      intro _
      rw [applyStructFields]
      show stabFields h s flds [] = true
      rw [stabFields]
  | cons q rest =>
      obtain ⟨n, sub⟩ := q
      cases sub with
      | remove =>
          intro hac
          rw [applyStructFields]
          cases hf : fGet flds n with
          | none =>
              rw [stabFields]
              simp only [Bool.and_eq_true]
              refine ⟨?_, t1_fields h s flds rest hac⟩
              rw [eraseF_fGet_none (t0_structFields h s flds rest).2 hf]
          | some exfv =>
              obtain ⟨ex, fv⟩ := exfv
              by_cases hex : ex = true
              · subst hex
                cases fv with
                | vslice items =>
                    show stabFields (applyStructFields (applySliceElems Ruler.remove h items).1 s (fSet flds n (vslice (applySliceElems Ruler.remove h items).2)) rest).1 s (applyStructFields (applySliceElems Ruler.remove h items).1 s (fSet flds n (vslice (applySliceElems Ruler.remove h items).2)) rest).2 ((n, Ruler.remove) :: rest) = true
                    rw [stabFields]
                    simp only [Bool.and_eq_true]
                    constructor
                    · obtain ⟨w, hgR, hEw⟩ := eraseF_fGet (t0_structFields (applySliceElems Ruler.remove h items).1 s (fSet flds n (vslice (applySliceElems Ruler.remove h items).2)) rest).2
                        (fGet_fSet_self hf (vslice (applySliceElems Ruler.remove h items).2))
                      rw [hgR]
                      obtain ⟨l2, rfl, hL2⟩ := erase_vslice_inv hEw
                      show stabSliceElems Ruler.remove (applyStructFields (applySliceElems Ruler.remove h items).1 s (fSet flds n (vslice (applySliceElems Ruler.remove h items).2)) rest).1 l2 = true
                      rcases hL2 with hL2 | rfl
                      · exact m_elems Ruler.remove (applyStructFields (applySliceElems Ruler.remove h items).1 s (fSet flds n (vslice (applySliceElems Ruler.remove h items).2)) rest).1 (applySliceElems Ruler.remove h items).1 l2
                          (applySliceElems Ruler.remove h items).2 hL2
                          (t0_structFields (applySliceElems Ruler.remove h items).1 s (fSet flds n (vslice (applySliceElems Ruler.remove h items).2)) rest).1
                          (t1_elems Ruler.remove h items hac)
                      · rw [stabSliceElems]
                    · exact t1_fields (applySliceElems Ruler.remove h items).1 s (fSet flds n (vslice (applySliceElems Ruler.remove h items).2)) rest
                        (acyclic_mono (t0_sliceElems Ruler.remove h items).1 hac)
                | vint a0 =>
                    cases s with
                    | false =>
                        show stabFields (applyStructFields h false flds rest).1 false (applyStructFields h false flds rest).2 ((n, Ruler.remove) :: rest)
                          = true
                        rw [stabFields]
                        simp only [Bool.and_eq_true]
                        refine ⟨?_, t1_fields h false flds rest hac⟩
                        obtain ⟨w, hgR, hEw⟩ := eraseF_fGet (t0_structFields h false flds rest).2 hf
                        rw [hgR]
                        obtain ⟨b2, rfl⟩ := erase_vint_inv hEw
                        show (!false || decide (zeroOf (vint b2) = vint b2)) = true
                        rfl
                    | true =>
                        show stabFields (applyStructFields h true (fSet flds n (zeroOf (vint a0))) rest).1 true (applyStructFields h true (fSet flds n (zeroOf (vint a0))) rest).2 ((n, Ruler.remove) :: rest)
                          = true
                        rw [stabFields]
                        simp only [Bool.and_eq_true]
                        refine ⟨?_, t1_fields h true (fSet flds n (zeroOf (vint a0))) rest hac⟩
                        obtain ⟨w, hgR, hEw⟩ := eraseF_fGet (t0_structFields h true (fSet flds n (zeroOf (vint a0))) rest).2
                          (fGet_fSet_self hf (zeroOf (vint a0)))
                        rw [hgR]
                        have hwz : w = zeroOf (vint a0) := erase_into_zero (vint a0) hEw
                        subst hwz
                        show (!true || decide (zeroOf (zeroOf (vint a0)) = zeroOf (vint a0))) = true
                        rw [zeroOf_zeroOf]
                        simp
                | vstr a0 =>
                    cases s with
                    | false =>
                        show stabFields (applyStructFields h false flds rest).1 false (applyStructFields h false flds rest).2 ((n, Ruler.remove) :: rest)
                          = true
                        rw [stabFields]
                        simp only [Bool.and_eq_true]
                        refine ⟨?_, t1_fields h false flds rest hac⟩
                        obtain ⟨w, hgR, hEw⟩ := eraseF_fGet (t0_structFields h false flds rest).2 hf
                        rw [hgR]
                        obtain ⟨b2, rfl⟩ := erase_vstr_inv hEw
                        show (!false || decide (zeroOf (vstr b2) = vstr b2)) = true
                        rfl
                    | true =>
                        show stabFields (applyStructFields h true (fSet flds n (zeroOf (vstr a0))) rest).1 true (applyStructFields h true (fSet flds n (zeroOf (vstr a0))) rest).2 ((n, Ruler.remove) :: rest)
                          = true
                        rw [stabFields]
                        simp only [Bool.and_eq_true]
                        refine ⟨?_, t1_fields h true (fSet flds n (zeroOf (vstr a0))) rest hac⟩
                        obtain ⟨w, hgR, hEw⟩ := eraseF_fGet (t0_structFields h true (fSet flds n (zeroOf (vstr a0))) rest).2
                          (fGet_fSet_self hf (zeroOf (vstr a0)))
                        rw [hgR]
                        have hwz : w = zeroOf (vstr a0) := erase_into_zero (vstr a0) hEw
                        subst hwz
                        show (!true || decide (zeroOf (zeroOf (vstr a0)) = zeroOf (vstr a0))) = true
                        rw [zeroOf_zeroOf]
                        simp
                | vbool a0 =>
                    cases s with
                    | false =>
                        show stabFields (applyStructFields h false flds rest).1 false (applyStructFields h false flds rest).2 ((n, Ruler.remove) :: rest)
                          = true
                        rw [stabFields]
                        simp only [Bool.and_eq_true]
                        refine ⟨?_, t1_fields h false flds rest hac⟩
                        obtain ⟨w, hgR, hEw⟩ := eraseF_fGet (t0_structFields h false flds rest).2 hf
                        rw [hgR]
                        obtain ⟨b2, rfl⟩ := erase_vbool_inv hEw
                        show (!false || decide (zeroOf (vbool b2) = vbool b2)) = true
                        rfl
                    | true =>
                        show stabFields (applyStructFields h true (fSet flds n (zeroOf (vbool a0))) rest).1 true (applyStructFields h true (fSet flds n (zeroOf (vbool a0))) rest).2 ((n, Ruler.remove) :: rest)
                          = true
                        rw [stabFields]
                        simp only [Bool.and_eq_true]
                        refine ⟨?_, t1_fields h true (fSet flds n (zeroOf (vbool a0))) rest hac⟩
                        obtain ⟨w, hgR, hEw⟩ := eraseF_fGet (t0_structFields h true (fSet flds n (zeroOf (vbool a0))) rest).2
                          (fGet_fSet_self hf (zeroOf (vbool a0)))
                        rw [hgR]
                        have hwz : w = zeroOf (vbool a0) := erase_into_zero (vbool a0) hEw
                        subst hwz
                        show (!true || decide (zeroOf (zeroOf (vbool a0)) = zeroOf (vbool a0))) = true
                        rw [zeroOf_zeroOf]
                        simp
                | vstruct flds0 =>
                    cases s with
                    | false =>
                        show stabFields (applyStructFields h false flds rest).1 false (applyStructFields h false flds rest).2 ((n, Ruler.remove) :: rest)
                          = true
                        rw [stabFields]
                        simp only [Bool.and_eq_true]
                        refine ⟨?_, t1_fields h false flds rest hac⟩
                        obtain ⟨w, hgR, hEw⟩ := eraseF_fGet (t0_structFields h false flds rest).2 hf
                        rw [hgR]
                        obtain ⟨g2, rfl, hg2⟩ := erase_vstruct_inv hEw
                        show (!false || decide (zeroOf (vstruct g2) = vstruct g2)) = true
                        rfl
                    | true =>
                        show stabFields (applyStructFields h true (fSet flds n (zeroOf (vstruct flds0))) rest).1 true (applyStructFields h true (fSet flds n (zeroOf (vstruct flds0))) rest).2 ((n, Ruler.remove) :: rest)
                          = true
                        rw [stabFields]
                        simp only [Bool.and_eq_true]
                        refine ⟨?_, t1_fields h true (fSet flds n (zeroOf (vstruct flds0))) rest hac⟩
                        obtain ⟨w, hgR, hEw⟩ := eraseF_fGet (t0_structFields h true (fSet flds n (zeroOf (vstruct flds0))) rest).2
                          (fGet_fSet_self hf (zeroOf (vstruct flds0)))
                        rw [hgR]
                        have hwz : w = zeroOf (vstruct flds0) := erase_into_zero (vstruct flds0) hEw
                        subst hwz
                        show (!true || decide (zeroOf (zeroOf (vstruct flds0)) = zeroOf (vstruct flds0))) = true
                        rw [zeroOf_zeroOf]
                        simp
                | vptr o0 =>
                    cases s with
                    | false =>
                        show stabFields (applyStructFields h false flds rest).1 false (applyStructFields h false flds rest).2 ((n, Ruler.remove) :: rest)
                          = true
                        rw [stabFields]
                        simp only [Bool.and_eq_true]
                        refine ⟨?_, t1_fields h false flds rest hac⟩
                        obtain ⟨w, hgR, hEw⟩ := eraseF_fGet (t0_structFields h false flds rest).2 hf
                        rw [hgR]
                        obtain ⟨p2, rfl⟩ := erase_vptr_inv hEw
                        show (!false || decide (zeroOf (vptr p2) = vptr p2)) = true
                        rfl
                    | true =>
                        show stabFields (applyStructFields h true (fSet flds n (zeroOf (vptr o0))) rest).1 true (applyStructFields h true (fSet flds n (zeroOf (vptr o0))) rest).2 ((n, Ruler.remove) :: rest)
                          = true
                        rw [stabFields]
                        simp only [Bool.and_eq_true]
                        refine ⟨?_, t1_fields h true (fSet flds n (zeroOf (vptr o0))) rest hac⟩
                        obtain ⟨w, hgR, hEw⟩ := eraseF_fGet (t0_structFields h true (fSet flds n (zeroOf (vptr o0))) rest).2
                          (fGet_fSet_self hf (zeroOf (vptr o0)))
                        rw [hgR]
                        have hwz : w = zeroOf (vptr o0) := erase_into_zero (vptr o0) hEw
                        subst hwz
                        show (!true || decide (zeroOf (zeroOf (vptr o0)) = zeroOf (vptr o0))) = true
                        rw [zeroOf_zeroOf]
                        simp
                | vmap o0 =>
                    cases s with
                    | false =>
                        show stabFields (applyStructFields h false flds rest).1 false (applyStructFields h false flds rest).2 ((n, Ruler.remove) :: rest)
                          = true
                        rw [stabFields]
                        simp only [Bool.and_eq_true]
                        refine ⟨?_, t1_fields h false flds rest hac⟩
                        obtain ⟨w, hgR, hEw⟩ := eraseF_fGet (t0_structFields h false flds rest).2 hf
                        rw [hgR]
                        rcases erase_vmap_inv hEw with rfl | rfl
                        · show (!false || decide (zeroOf (vmap none) = vmap none)) = true
                          rfl
                        · show (!false || decide (zeroOf (vmap o0) = vmap o0)) = true
                          rfl
                    | true =>
                        show stabFields (applyStructFields h true (fSet flds n (zeroOf (vmap o0))) rest).1 true (applyStructFields h true (fSet flds n (zeroOf (vmap o0))) rest).2 ((n, Ruler.remove) :: rest)
                          = true
                        rw [stabFields]
                        simp only [Bool.and_eq_true]
                        refine ⟨?_, t1_fields h true (fSet flds n (zeroOf (vmap o0))) rest hac⟩
                        obtain ⟨w, hgR, hEw⟩ := eraseF_fGet (t0_structFields h true (fSet flds n (zeroOf (vmap o0))) rest).2
                          (fGet_fSet_self hf (zeroOf (vmap o0)))
                        rw [hgR]
                        have hwz : w = zeroOf (vmap o0) := erase_into_zero (vmap o0) hEw
                        subst hwz
                        show (!true || decide (zeroOf (zeroOf (vmap o0)) = zeroOf (vmap o0))) = true
                        rw [zeroOf_zeroOf]
                        simp
              · have hex' : ex = false := by
                  cases ex
                  · rfl
                  · exact absurd rfl hex
                subst hex'
                show stabFields (applyStructFields h s flds rest).1 s
                    (applyStructFields h s flds rest).2 ((n, Ruler.remove) :: rest) = true
                rw [stabFields]
                simp only [Bool.and_eq_true]
                refine ⟨?_, t1_fields h s flds rest hac⟩
                obtain ⟨w, hgR, hEw⟩ := eraseF_fGet (t0_structFields h s flds rest).2 hf
                rw [hgR]
                rfl
      | impl ps' =>
          intro hac
          rw [applyStructFields]
          cases hf : fGet flds n with
          | none =>
              rw [stabFields]
              simp only [Bool.and_eq_true]
              refine ⟨?_, t1_fields h s flds rest hac⟩
              rw [eraseF_fGet_none (t0_structFields h s flds rest).2 hf]
          | some exfv =>
              obtain ⟨ex, fv⟩ := exfv
              by_cases hex : ex = true
              · subst hex
                cases fv with
                | vslice items =>
                    show stabFields (applyStructFields (applySliceElems (Ruler.impl ps') h items).1 s (fSet flds n (vslice (applySliceElems (Ruler.impl ps') h items).2)) rest).1 s (applyStructFields (applySliceElems (Ruler.impl ps') h items).1 s (fSet flds n (vslice (applySliceElems (Ruler.impl ps') h items).2)) rest).2 ((n, (Ruler.impl ps')) :: rest) = true
                    rw [stabFields]
                    simp only [Bool.and_eq_true]
                    constructor
                    · obtain ⟨w, hgR, hEw⟩ := eraseF_fGet (t0_structFields (applySliceElems (Ruler.impl ps') h items).1 s (fSet flds n (vslice (applySliceElems (Ruler.impl ps') h items).2)) rest).2
                        (fGet_fSet_self hf (vslice (applySliceElems (Ruler.impl ps') h items).2))
                      rw [hgR]
                      obtain ⟨l2, rfl, hL2⟩ := erase_vslice_inv hEw
                      show stabSliceElems (Ruler.impl ps') (applyStructFields (applySliceElems (Ruler.impl ps') h items).1 s (fSet flds n (vslice (applySliceElems (Ruler.impl ps') h items).2)) rest).1 l2 = true
                      rcases hL2 with hL2 | rfl
                      · exact m_elems (Ruler.impl ps') (applyStructFields (applySliceElems (Ruler.impl ps') h items).1 s (fSet flds n (vslice (applySliceElems (Ruler.impl ps') h items).2)) rest).1 (applySliceElems (Ruler.impl ps') h items).1 l2
                          (applySliceElems (Ruler.impl ps') h items).2 hL2
                          (t0_structFields (applySliceElems (Ruler.impl ps') h items).1 s (fSet flds n (vslice (applySliceElems (Ruler.impl ps') h items).2)) rest).1
                          (t1_elems (Ruler.impl ps') h items hac)
                      · rw [stabSliceElems]
                    · exact t1_fields (applySliceElems (Ruler.impl ps') h items).1 s (fSet flds n (vslice (applySliceElems (Ruler.impl ps') h items).2)) rest
                        (acyclic_mono (t0_sliceElems (Ruler.impl ps') h items).1 hac)
                | vint a0 =>
                    show stabFields (applyStructFields (applyImpl ps' h s (vint a0)).1 s (fSet flds n (applyImpl ps' h s (vint a0)).2) rest).1 s (applyStructFields (applyImpl ps' h s (vint a0)).1 s (fSet flds n (applyImpl ps' h s (vint a0)).2) rest).2 ((n, Ruler.impl ps') :: rest) = true
                    rw [stabFields]
                    simp only [Bool.and_eq_true]
                    constructor
                    · obtain ⟨w, hgR, hEw⟩ := eraseF_fGet (t0_structFields
                          (applyImpl ps' h s (vint a0)).1 s (fSet flds n (applyImpl ps' h s (vint a0)).2) rest).2
                        (fGet_fSet_self hf (applyImpl ps' h s (vint a0)).2)
                      rw [hgR]
                      obtain ⟨b1, hb1⟩ := erase_vint_inv (t0_impl ps' h s (vint a0)).2
                      rw [hb1] at hEw
                      obtain ⟨b2, rfl⟩ := erase_vint_inv hEw
                      show stabImpl ps' (applyStructFields (applyImpl ps' h s (vint a0)).1 s (fSet flds n (applyImpl ps' h s (vint a0)).2) rest).1 s (vint b2) = true
                      have ht := t1_impl ps' h s (vint a0) hac
                      rw [hb1] at ht
                      exact m_impl ps' (applyStructFields (applyImpl ps' h s (vint a0)).1 s (fSet flds n (applyImpl ps' h s (vint a0)).2) rest).1 (applyImpl ps' h s (vint a0)).1 s (vint b2) _ hEw
                        (t0_structFields (applyImpl ps' h s (vint a0)).1 s (fSet flds n (applyImpl ps' h s (vint a0)).2) rest).1 ht
                    · exact t1_fields (applyImpl ps' h s (vint a0)).1 s (fSet flds n (applyImpl ps' h s (vint a0)).2) rest
                        (acyclic_mono (t0_impl ps' h s (vint a0)).1 hac)
                | vstr a0 =>
                    show stabFields (applyStructFields (applyImpl ps' h s (vstr a0)).1 s (fSet flds n (applyImpl ps' h s (vstr a0)).2) rest).1 s (applyStructFields (applyImpl ps' h s (vstr a0)).1 s (fSet flds n (applyImpl ps' h s (vstr a0)).2) rest).2 ((n, Ruler.impl ps') :: rest) = true
                    rw [stabFields]
                    simp only [Bool.and_eq_true]
                    constructor
                    · obtain ⟨w, hgR, hEw⟩ := eraseF_fGet (t0_structFields
                          (applyImpl ps' h s (vstr a0)).1 s (fSet flds n (applyImpl ps' h s (vstr a0)).2) rest).2
                        (fGet_fSet_self hf (applyImpl ps' h s (vstr a0)).2)
                      rw [hgR]
                      obtain ⟨b1, hb1⟩ := erase_vstr_inv (t0_impl ps' h s (vstr a0)).2
                      rw [hb1] at hEw
                      obtain ⟨b2, rfl⟩ := erase_vstr_inv hEw
                      show stabImpl ps' (applyStructFields (applyImpl ps' h s (vstr a0)).1 s (fSet flds n (applyImpl ps' h s (vstr a0)).2) rest).1 s (vstr b2) = true
                      have ht := t1_impl ps' h s (vstr a0) hac
                      rw [hb1] at ht
                      exact m_impl ps' (applyStructFields (applyImpl ps' h s (vstr a0)).1 s (fSet flds n (applyImpl ps' h s (vstr a0)).2) rest).1 (applyImpl ps' h s (vstr a0)).1 s (vstr b2) _ hEw
                        (t0_structFields (applyImpl ps' h s (vstr a0)).1 s (fSet flds n (applyImpl ps' h s (vstr a0)).2) rest).1 ht
                    · exact t1_fields (applyImpl ps' h s (vstr a0)).1 s (fSet flds n (applyImpl ps' h s (vstr a0)).2) rest
                        (acyclic_mono (t0_impl ps' h s (vstr a0)).1 hac)
                | vbool a0 =>
                    show stabFields (applyStructFields (applyImpl ps' h s (vbool a0)).1 s (fSet flds n (applyImpl ps' h s (vbool a0)).2) rest).1 s (applyStructFields (applyImpl ps' h s (vbool a0)).1 s (fSet flds n (applyImpl ps' h s (vbool a0)).2) rest).2 ((n, Ruler.impl ps') :: rest) = true
                    rw [stabFields]
                    simp only [Bool.and_eq_true]
                    constructor
                    · obtain ⟨w, hgR, hEw⟩ := eraseF_fGet (t0_structFields
                          (applyImpl ps' h s (vbool a0)).1 s (fSet flds n (applyImpl ps' h s (vbool a0)).2) rest).2
                        (fGet_fSet_self hf (applyImpl ps' h s (vbool a0)).2)
                      rw [hgR]
                      obtain ⟨b1, hb1⟩ := erase_vbool_inv (t0_impl ps' h s (vbool a0)).2
                      rw [hb1] at hEw
                      obtain ⟨b2, rfl⟩ := erase_vbool_inv hEw
                      show stabImpl ps' (applyStructFields (applyImpl ps' h s (vbool a0)).1 s (fSet flds n (applyImpl ps' h s (vbool a0)).2) rest).1 s (vbool b2) = true
                      have ht := t1_impl ps' h s (vbool a0) hac
                      rw [hb1] at ht
                      exact m_impl ps' (applyStructFields (applyImpl ps' h s (vbool a0)).1 s (fSet flds n (applyImpl ps' h s (vbool a0)).2) rest).1 (applyImpl ps' h s (vbool a0)).1 s (vbool b2) _ hEw
                        (t0_structFields (applyImpl ps' h s (vbool a0)).1 s (fSet flds n (applyImpl ps' h s (vbool a0)).2) rest).1 ht
                    · exact t1_fields (applyImpl ps' h s (vbool a0)).1 s (fSet flds n (applyImpl ps' h s (vbool a0)).2) rest
                        (acyclic_mono (t0_impl ps' h s (vbool a0)).1 hac)
                | vstruct flds0 =>
                    show stabFields (applyStructFields (applyImpl ps' h s (vstruct flds0)).1 s (fSet flds n (applyImpl ps' h s (vstruct flds0)).2) rest).1 s (applyStructFields (applyImpl ps' h s (vstruct flds0)).1 s (fSet flds n (applyImpl ps' h s (vstruct flds0)).2) rest).2 ((n, Ruler.impl ps') :: rest) = true
                    rw [stabFields]
                    simp only [Bool.and_eq_true]
                    constructor
                    · obtain ⟨w, hgR, hEw⟩ := eraseF_fGet (t0_structFields
                          (applyImpl ps' h s (vstruct flds0)).1 s (fSet flds n (applyImpl ps' h s (vstruct flds0)).2) rest).2
                        (fGet_fSet_self hf (applyImpl ps' h s (vstruct flds0)).2)
                      rw [hgR]
                      obtain ⟨g1, hb1, hg1⟩ := erase_vstruct_inv (t0_impl ps' h s (vstruct flds0)).2
                      rw [hb1] at hEw
                      obtain ⟨g2, rfl, hg2⟩ := erase_vstruct_inv hEw
                      show stabImpl ps' (applyStructFields (applyImpl ps' h s (vstruct flds0)).1 s (fSet flds n (applyImpl ps' h s (vstruct flds0)).2) rest).1 s (vstruct g2) = true
                      have ht := t1_impl ps' h s (vstruct flds0) hac
                      rw [hb1] at ht
                      exact m_impl ps' (applyStructFields (applyImpl ps' h s (vstruct flds0)).1 s (fSet flds n (applyImpl ps' h s (vstruct flds0)).2) rest).1 (applyImpl ps' h s (vstruct flds0)).1 s (vstruct g2) _ hEw
                        (t0_structFields (applyImpl ps' h s (vstruct flds0)).1 s (fSet flds n (applyImpl ps' h s (vstruct flds0)).2) rest).1 ht
                    · exact t1_fields (applyImpl ps' h s (vstruct flds0)).1 s (fSet flds n (applyImpl ps' h s (vstruct flds0)).2) rest
                        (acyclic_mono (t0_impl ps' h s (vstruct flds0)).1 hac)
                | vptr o0 =>
                    show stabFields (applyStructFields (applyImpl ps' h s (vptr o0)).1 s (fSet flds n (applyImpl ps' h s (vptr o0)).2) rest).1 s (applyStructFields (applyImpl ps' h s (vptr o0)).1 s (fSet flds n (applyImpl ps' h s (vptr o0)).2) rest).2 ((n, Ruler.impl ps') :: rest) = true
                    rw [stabFields]
                    simp only [Bool.and_eq_true]
                    constructor
                    · obtain ⟨w, hgR, hEw⟩ := eraseF_fGet (t0_structFields
                          (applyImpl ps' h s (vptr o0)).1 s (fSet flds n (applyImpl ps' h s (vptr o0)).2) rest).2
                        (fGet_fSet_self hf (applyImpl ps' h s (vptr o0)).2)
                      rw [hgR]
                      obtain ⟨p1, hb1⟩ := erase_vptr_inv (t0_impl ps' h s (vptr o0)).2
                      rw [hb1] at hEw
                      obtain ⟨p2, rfl⟩ := erase_vptr_inv hEw
                      show stabImpl ps' (applyStructFields (applyImpl ps' h s (vptr o0)).1 s (fSet flds n (applyImpl ps' h s (vptr o0)).2) rest).1 s (vptr p2) = true
                      have ht := t1_impl ps' h s (vptr o0) hac
                      rw [hb1] at ht
                      exact m_impl ps' (applyStructFields (applyImpl ps' h s (vptr o0)).1 s (fSet flds n (applyImpl ps' h s (vptr o0)).2) rest).1 (applyImpl ps' h s (vptr o0)).1 s (vptr p2) _ hEw
                        (t0_structFields (applyImpl ps' h s (vptr o0)).1 s (fSet flds n (applyImpl ps' h s (vptr o0)).2) rest).1 ht
                    · exact t1_fields (applyImpl ps' h s (vptr o0)).1 s (fSet flds n (applyImpl ps' h s (vptr o0)).2) rest
                        (acyclic_mono (t0_impl ps' h s (vptr o0)).1 hac)
                | vmap o0 =>
                    show stabFields (applyStructFields (applyImpl ps' h s (vmap o0)).1 s (fSet flds n (applyImpl ps' h s (vmap o0)).2) rest).1 s (applyStructFields (applyImpl ps' h s (vmap o0)).1 s (fSet flds n (applyImpl ps' h s (vmap o0)).2) rest).2 ((n, Ruler.impl ps') :: rest) = true
                    rw [stabFields]
                    simp only [Bool.and_eq_true]
                    constructor
                    · obtain ⟨w, hgR, hEw⟩ := eraseF_fGet (t0_structFields
                          (applyImpl ps' h s (vmap o0)).1 s (fSet flds n (applyImpl ps' h s (vmap o0)).2) rest).2
                        (fGet_fSet_self hf (applyImpl ps' h s (vmap o0)).2)
                      rw [hgR]
                      rcases erase_vmap_inv (t0_impl ps' h s (vmap o0)).2 with hb1 | hb1
                      · rw [hb1] at hEw
                        rcases erase_vmap_inv hEw with rfl | rfl
                        · show stabImpl ps' (applyStructFields (applyImpl ps' h s (vmap o0)).1 s (fSet flds n (applyImpl ps' h s (vmap o0)).2) rest).1 s (vmap none) = true
                          have ht := t1_impl ps' h s (vmap o0) hac
                          rw [hb1] at ht
                          exact m_impl ps' (applyStructFields (applyImpl ps' h s (vmap o0)).1 s (fSet flds n (applyImpl ps' h s (vmap o0)).2) rest).1 (applyImpl ps' h s (vmap o0)).1 s (vmap none) _ hEw
                            (t0_structFields (applyImpl ps' h s (vmap o0)).1 s (fSet flds n (applyImpl ps' h s (vmap o0)).2) rest).1 ht
                        · show stabImpl ps' (applyStructFields (applyImpl ps' h s (vmap o0)).1 s (fSet flds n (applyImpl ps' h s (vmap o0)).2) rest).1 s (vmap none) = true
                          have ht := t1_impl ps' h s (vmap o0) hac
                          rw [hb1] at ht
                          exact m_impl ps' (applyStructFields (applyImpl ps' h s (vmap o0)).1 s (fSet flds n (applyImpl ps' h s (vmap o0)).2) rest).1 (applyImpl ps' h s (vmap o0)).1 s (vmap none) _ hEw
                            (t0_structFields (applyImpl ps' h s (vmap o0)).1 s (fSet flds n (applyImpl ps' h s (vmap o0)).2) rest).1 ht
                      · rw [hb1] at hEw
                        rcases erase_vmap_inv hEw with rfl | rfl
                        · show stabImpl ps' (applyStructFields (applyImpl ps' h s (vmap o0)).1 s (fSet flds n (applyImpl ps' h s (vmap o0)).2) rest).1 s (vmap none) = true
                          have ht := t1_impl ps' h s (vmap o0) hac
                          rw [hb1] at ht
                          exact m_impl ps' (applyStructFields (applyImpl ps' h s (vmap o0)).1 s (fSet flds n (applyImpl ps' h s (vmap o0)).2) rest).1 (applyImpl ps' h s (vmap o0)).1 s (vmap none) _ hEw
                            (t0_structFields (applyImpl ps' h s (vmap o0)).1 s (fSet flds n (applyImpl ps' h s (vmap o0)).2) rest).1 ht
                        · show stabImpl ps' (applyStructFields (applyImpl ps' h s (vmap o0)).1 s (fSet flds n (applyImpl ps' h s (vmap o0)).2) rest).1 s (vmap o0) = true
                          have ht := t1_impl ps' h s (vmap o0) hac
                          rw [hb1] at ht
                          exact m_impl ps' (applyStructFields (applyImpl ps' h s (vmap o0)).1 s (fSet flds n (applyImpl ps' h s (vmap o0)).2) rest).1 (applyImpl ps' h s (vmap o0)).1 s (vmap o0) _ hEw
                            (t0_structFields (applyImpl ps' h s (vmap o0)).1 s (fSet flds n (applyImpl ps' h s (vmap o0)).2) rest).1 ht
                    · exact t1_fields (applyImpl ps' h s (vmap o0)).1 s (fSet flds n (applyImpl ps' h s (vmap o0)).2) rest
                        (acyclic_mono (t0_impl ps' h s (vmap o0)).1 hac)
              · have hex' : ex = false := by
                  cases ex
                  · rfl
                  · exact absurd rfl hex
                subst hex'
                show stabFields (applyStructFields h s flds rest).1 s
                    (applyStructFields h s flds rest).2 ((n, Ruler.impl ps') :: rest) = true
                rw [stabFields]
                simp only [Bool.and_eq_true]
                refine ⟨?_, t1_fields h s flds rest hac⟩
                obtain ⟨w, hgR, hEw⟩ := eraseF_fGet (t0_structFields h s flds rest).2 hf
                rw [hgR]
                rfl
termination_by (sizeOf l, 0, 0)
decreasing_by
  all_goals simp_wf
  all_goals
    first
    | (apply Prod.Lex.left; simp_arith; done)
    | (apply Prod.Lex.left; have hs := sizeOf_alook halook; simp_arith at hs ⊢; omega)
    | (apply Prod.Lex.right; apply Prod.Lex.left; simp_arith; done)
    | (apply Prod.Lex.right; apply Prod.Lex.left; omega)
    | (apply Prod.Lex.right; apply Prod.Lex.right; simp_arith; done)
    | (apply Prod.Lex.right; apply Prod.Lex.right; omega)

theorem t1_elem1 (sub : Ruler) (h : Heap) (it : Value) :
    Acyclic h → stabElem1 sub (applySliceElem1 sub h it).1 (applySliceElem1 sub h it).2
      = true := by
  cases it with
  | vptr o =>
      cases o with
      | none =>
          intro _
          rw [show applySliceElem1 sub h (vptr none) = (h, vptr none) from by
                rw [applySliceElem1]]
          show stabElem1 sub h (vptr none) = true
          rw [stabElem1]
      | some t =>
          cases sub with
          | remove =>
              intro _
              rw [show applySliceElem1 Ruler.remove h (vptr (some t))
                    = (h, vptr (some (zeroOf t))) from by rw [applySliceElem1]]
              show stabElem1 Ruler.remove h (vptr (some (zeroOf t))) = true
              rw [stabElem1, zeroOf_zeroOf]
              simp
          | impl ps' =>
              intro hac
              rw [show applySliceElem1 (Ruler.impl ps') h (vptr (some t))
                    = ((applyImpl ps' h true t).1, vptr (some (applyImpl ps' h true t).2))
                  from by rw [applySliceElem1]]
              show stabElem1 (Ruler.impl ps') (applyImpl ps' h true t).1
                  (vptr (some (applyImpl ps' h true t).2)) = true
              rw [stabElem1]
              exact t1_impl ps' h true t hac
  | vint a0 =>
      cases sub with
      | remove =>
          intro _
          rw [show applySliceElem1 Ruler.remove h (vint a0) = (h, zeroOf (vint a0)) from by
                simp [applySliceElem1]]
          show stabElem1 Ruler.remove h (zeroOf (vint a0)) = true
          have hnv : ∀ o, zeroOf (vint a0) ≠ vptr o := by intro o hx; cases hx
          rw [stabElem1_notptr_remove hnv,
            zeroOf_zeroOf]
          simp
      | impl ps' =>
          intro hac
          rw [show applySliceElem1 (Ruler.impl ps') h (vint a0) = applyImpl ps' h true (vint a0)
              from by simp [applySliceElem1]]
          obtain ⟨b1, hb1⟩ := erase_vint_inv (t0_impl ps' h true (vint a0)).2
          rw [hb1]
          have hnv : ∀ o, (vint b1) ≠ vptr o := by intro o hx; cases hx
          rw [stabElem1_notptr_impl hnv]
          have ht := t1_impl ps' h true (vint a0) hac
          rw [hb1] at ht
          exact ht
  | vstr a0 =>
      cases sub with
      | remove =>
          intro _
          rw [show applySliceElem1 Ruler.remove h (vstr a0) = (h, zeroOf (vstr a0)) from by
                simp [applySliceElem1]]
          show stabElem1 Ruler.remove h (zeroOf (vstr a0)) = true
          have hnv : ∀ o, zeroOf (vstr a0) ≠ vptr o := by intro o hx; cases hx
          rw [stabElem1_notptr_remove hnv,
            zeroOf_zeroOf]
          simp
      | impl ps' =>
          intro hac
          rw [show applySliceElem1 (Ruler.impl ps') h (vstr a0) = applyImpl ps' h true (vstr a0)
              from by simp [applySliceElem1]]
          obtain ⟨b1, hb1⟩ := erase_vstr_inv (t0_impl ps' h true (vstr a0)).2
          rw [hb1]
          have hnv : ∀ o, (vstr b1) ≠ vptr o := by intro o hx; cases hx
          rw [stabElem1_notptr_impl hnv]
          have ht := t1_impl ps' h true (vstr a0) hac
          rw [hb1] at ht
          exact ht
  | vbool a0 =>
      cases sub with
      | remove =>
          intro _
          rw [show applySliceElem1 Ruler.remove h (vbool a0) = (h, zeroOf (vbool a0)) from by
                simp [applySliceElem1]]
          show stabElem1 Ruler.remove h (zeroOf (vbool a0)) = true
          have hnv : ∀ o, zeroOf (vbool a0) ≠ vptr o := by intro o hx; cases hx
          rw [stabElem1_notptr_remove hnv,
            zeroOf_zeroOf]
          simp
      | impl ps' =>
          intro hac
          rw [show applySliceElem1 (Ruler.impl ps') h (vbool a0) = applyImpl ps' h true (vbool a0)
              from by simp [applySliceElem1]]
          obtain ⟨b1, hb1⟩ := erase_vbool_inv (t0_impl ps' h true (vbool a0)).2
          rw [hb1]
          have hnv : ∀ o, (vbool b1) ≠ vptr o := by intro o hx; cases hx
          rw [stabElem1_notptr_impl hnv]
          have ht := t1_impl ps' h true (vbool a0) hac
          rw [hb1] at ht
          exact ht
  | vstruct flds0 =>
      cases sub with
      | remove =>
          intro _
          rw [show applySliceElem1 Ruler.remove h (vstruct flds0) = (h, zeroOf (vstruct flds0)) from by
                simp [applySliceElem1]]
          show stabElem1 Ruler.remove h (zeroOf (vstruct flds0)) = true
          have hnv : ∀ o, zeroOf (vstruct flds0) ≠ vptr o := by intro o hx; cases hx
          rw [stabElem1_notptr_remove hnv,
            zeroOf_zeroOf]
          simp
      | impl ps' =>
          intro hac
          rw [show applySliceElem1 (Ruler.impl ps') h (vstruct flds0) = applyImpl ps' h true (vstruct flds0)
              from by simp [applySliceElem1]]
          obtain ⟨g1, hb1, hg1⟩ := erase_vstruct_inv (t0_impl ps' h true (vstruct flds0)).2
          rw [hb1]
          have hnv : ∀ o, (vstruct g1) ≠ vptr o := by intro o hx; cases hx
          rw [stabElem1_notptr_impl hnv]
          have ht := t1_impl ps' h true (vstruct flds0) hac
          rw [hb1] at ht
          exact ht
  | vslice items0 =>
      cases sub with
      | remove =>
          intro _
          rw [show applySliceElem1 Ruler.remove h (vslice items0) = (h, zeroOf (vslice items0)) from by
                simp [applySliceElem1]]
          show stabElem1 Ruler.remove h (zeroOf (vslice items0)) = true
          have hnv : ∀ o, zeroOf (vslice items0) ≠ vptr o := by intro o hx; cases hx
          rw [stabElem1_notptr_remove hnv,
            zeroOf_zeroOf]
          simp
      | impl ps' =>
          intro hac
          rw [show applySliceElem1 (Ruler.impl ps') h (vslice items0) = applyImpl ps' h true (vslice items0)
              from by simp [applySliceElem1]]
          obtain ⟨l1, hb1, hl1⟩ := erase_vslice_inv (t0_impl ps' h true (vslice items0)).2
          rw [hb1]
          have hnv : ∀ o, (vslice l1) ≠ vptr o := by intro o hx; cases hx
          rw [stabElem1_notptr_impl hnv]
          have ht := t1_impl ps' h true (vslice items0) hac
          rw [hb1] at ht
          exact ht
  | vmap o0 =>
      cases sub with
      | remove =>
          intro _
          rw [show applySliceElem1 Ruler.remove h (vmap o0) = (h, zeroOf (vmap o0)) from by
                simp [applySliceElem1]]
          show stabElem1 Ruler.remove h (zeroOf (vmap o0)) = true
          have hnv : ∀ o, zeroOf (vmap o0) ≠ vptr o := by intro o hx; cases hx
          rw [stabElem1_notptr_remove hnv,
            zeroOf_zeroOf]
          simp
      | impl ps' =>
          intro hac
          rw [show applySliceElem1 (Ruler.impl ps') h (vmap o0) = applyImpl ps' h true (vmap o0)
              from by simp [applySliceElem1]]
          rcases erase_vmap_inv (t0_impl ps' h true (vmap o0)).2 with hb1 | hb1
          · rw [hb1]
            have hnv : ∀ o, (vmap none) ≠ vptr o := by intro o hx; cases hx
            rw [stabElem1_notptr_impl hnv]
            have ht := t1_impl ps' h true (vmap o0) hac
            rw [hb1] at ht
            exact ht
          · rw [hb1]
            have hnv : ∀ o, (vmap o0) ≠ vptr o := by intro o hx; cases hx
            rw [stabElem1_notptr_impl hnv]
            have ht := t1_impl ps' h true (vmap o0) hac
            rw [hb1] at ht
            exact ht
termination_by (sizeOf sub, sizeOf it, 1)
decreasing_by
  all_goals simp_wf
  all_goals
    first
    | (apply Prod.Lex.left; simp_arith; done)
    | (apply Prod.Lex.left; have hs := sizeOf_alook halook; simp_arith at hs ⊢; omega)
    | (apply Prod.Lex.right; apply Prod.Lex.left; simp_arith; done)
    | (apply Prod.Lex.right; apply Prod.Lex.left; omega)
    | (apply Prod.Lex.right; apply Prod.Lex.right; simp_arith; done)
    | (apply Prod.Lex.right; apply Prod.Lex.right; omega)

theorem t1_elems (sub : Ruler) (h : Heap) (items : List Value) :
    Acyclic h → stabSliceElems sub (applySliceElems sub h items).1
      (applySliceElems sub h items).2 = true := by
  cases items with
  | nil =>
      intro _
      rw [show applySliceElems sub h [] = (h, []) from by rw [applySliceElems]]
      show stabSliceElems sub h [] = true
      rw [stabSliceElems]
  | cons it rest =>
      intro hac
      rw [applySliceElems]
      show stabSliceElems sub (applySliceElems sub (applySliceElem1 sub h it).1 rest).1
          ((applySliceElem1 sub h it).2
            :: (applySliceElems sub (applySliceElem1 sub h it).1 rest).2) = true
      rw [stabSliceElems]
      simp only [Bool.and_eq_true]
      constructor
      · exact m_elem1 sub (applySliceElems sub (applySliceElem1 sub h it).1 rest).1
          (applySliceElem1 sub h it).1 (applySliceElem1 sub h it).2
          (applySliceElem1 sub h it).2 (erase_refl (applySliceElem1 sub h it).2)
          (t0_sliceElems sub (applySliceElem1 sub h it).1 rest).1
          (t1_elem1 sub h it hac)
      · exact t1_elems sub (applySliceElem1 sub h it).1 rest
          (acyclic_mono (t0_sliceElem1 sub h it).1 hac)
termination_by (sizeOf sub, sizeOf items, 2)
decreasing_by
  all_goals simp_wf
  all_goals
    first
    | (apply Prod.Lex.left; simp_arith; done)
    | (apply Prod.Lex.left; have hs := sizeOf_alook halook; simp_arith at hs ⊢; omega)
    | (apply Prod.Lex.right; apply Prod.Lex.left; simp_arith; done)
    | (apply Prod.Lex.right; apply Prod.Lex.left; omega)
    | (apply Prod.Lex.right; apply Prod.Lex.right; simp_arith; done)
    | (apply Prod.Lex.right; apply Prod.Lex.right; omega)

theorem t1_mapKeys (ps : List (String × Ruler)) (h : Heap) (a : Nat)
    (keys : List String) :
    Acyclic h →
      (∀ k u, alook (hGet h a) k = some u → k ∈ keys ∨ stabEntry h a k ps = true) →
      ∀ k, stabEntry (applyMapKeys ps h a keys) a k ps = true := by
  cases keys with
  | nil =>
      intro _ hcov k
      rw [applyMapKeys_nil]
      unfold stabEntry
      cases hu : alook (hGet h a) k with
      | none => rfl
      | some u =>
          rcases hcov k u hu with hk | hk
          · cases hk
          · unfold stabEntry at hk
            rw [hu] at hk
            exact hk
  | cons k0 rest =>
      intro hac hcov k
      rw [applyMapKeys_cons]
      have hH1 : HeapErase (mapStep ps h a k0) h := t0_mapStep ps h a k0
      have hac1 : Acyclic (mapStep ps h a k0) := acyclic_mono hH1 hac
      have hk0st : stabEntry (mapStep ps h a k0) a k0 ps = true := by
        cases halook : alook ps k0 with
        | none =>
            have hms : mapStep ps h a k0 = h := by
              unfold mapStep
              rw [halook]
            rw [hms]
            unfold stabEntry
            cases hu : alook (hGet h a) k0 with
            | none => rfl
            | some u => exact stabMapEntry_of_alook_none halook h u
        | some sub =>
            cases hu : alook (hGet h a) k0 with
            | none =>
                cases sub with
                | remove =>
                    have hms : mapStep ps h a k0 = hSet h a (mdel (hGet h a) k0) := by
                      unfold mapStep
                      rw [halook, hu]
                    rw [hms]
                    unfold stabEntry
                    by_cases ha : a < h.length
                    · rw [hGet_hSet_self ha, alook_mdel_self]
                    · have hoob : hGet h a = [] := hGet_oob ha
                      rw [hSet_oob ha, hoob]
                      rfl
                | impl ps' =>
                    have hms : mapStep ps h a k0 = h := by
                      unfold mapStep
                      rw [halook, hu]
                    rw [hms]
                    unfold stabEntry
                    rw [hu]
            | some u =>
                cases u with
                | vptr o =>
                    cases o with
                    | none =>
                        have hms : mapStep ps h a k0 = h := by
                          unfold mapStep
                          rw [halook, hu]
                        rw [hms]
                        unfold stabEntry
                        rw [hu]
                        exact stabMapEntry_vptr_none h k0 ps
                    | some t =>
                        cases sub with
                        | remove =>
                            have ha : a < h.length := by
                              by_contra ha
                              rw [hGet_oob ha] at hu
                              cases hu
                            have hms : mapStep ps h a k0 = hSet h a (mdel (hGet h a) k0) := by
                              unfold mapStep
                              rw [halook, hu]
                            rw [hms]
                            unfold stabEntry
                            rw [hGet_hSet_self ha, alook_mdel_self]
                        | impl ps' =>
                            have ha : a < h.length := by
                              by_contra ha
                              rw [hGet_oob ha] at hu
                              cases hu
                            have hnr : ¬ VReach h t a :=
                              acyclic_entry hac hu (fun c hc => MapIn.ptr hc)
                            have hframe : hGet (applyImpl ps' h true t).1 a = hGet h a :=
                              frame_impl ps' h true t a hnr
                            obtain ⟨hh0, he0⟩ := t0_impl ps' h true t
                            have hms : mapStep ps h a k0
                                = hSet (applyImpl ps' h true t).1 a
                                    (mupd (hGet (applyImpl ps' h true t).1 a) k0
                                      (vptr (some (applyImpl ps' h true t).2))) := by
                              unfold mapStep
                              rw [halook, hu]
                            have hH2 : HeapErase (mapStep ps h a k0) (applyImpl ps' h true t).1 := by
                              rw [hms]
                              refine heapErase_hSet (heapErase_refl (applyImpl ps' h true t).1)
                                (subErase_mupd_erase
                                  (subErase_refl (hGet (applyImpl ps' h true t).1 a)) ?_
                                  (Erase.rptr he0))
                              rw [hframe]
                              exact hu
                            have hstab : stabImpl ps' (mapStep ps h a k0) true
                                (applyImpl ps' h true t).2 = true :=
                              m_impl ps' (mapStep ps h a k0) (applyImpl ps' h true t).1 true
                                (applyImpl ps' h true t).2 (applyImpl ps' h true t).2
                                (erase_refl (applyImpl ps' h true t).2) hH2
                                (t1_impl ps' h true t hac)
                            unfold stabEntry
                            have halookF : alook (hGet (mapStep ps h a k0) a) k0
                                = some (vptr (some (applyImpl ps' h true t).2)) := by
                              rw [hms, hGet_hSet_self (by rw [heapErase_length hh0]; exact ha),
                                alook_mupd_self, hframe, hu]
                              rfl
                            rw [halookF]
                            exact stabMapEntry_build_ptr hstab halook
                | vint a0 =>
                    cases sub with
                    | remove =>
                        have ha : a < h.length := by
                          by_contra ha
                          rw [hGet_oob ha] at hu
                          cases hu
                        have hms : mapStep ps h a k0 = hSet h a (mdel (hGet h a) k0) := by
                          unfold mapStep
                          rw [halook, hu]
                        rw [hms]
                        unfold stabEntry
                        rw [hGet_hSet_self ha, alook_mdel_self]
                    | impl ps' =>
                        have ha : a < h.length := by
                          by_contra ha
                          rw [hGet_oob ha] at hu
                          cases hu
                        have hnr : ¬ VReach h (vint a0) a :=
                          acyclic_entry hac hu (fun c hc => hc)
                        have hframe : hGet (applyImpl ps' h false (vint a0)).1 a = hGet h a :=
                          frame_impl ps' h false (vint a0) a hnr
                        obtain ⟨hh0, he0⟩ := t0_impl ps' h false (vint a0)
                        obtain ⟨b1, hb1⟩ := erase_vint_inv he0
                        have hms : mapStep ps h a k0
                            = hSet (applyImpl ps' h false (vint a0)).1 a (mupd (hGet (applyImpl ps' h false (vint a0)).1 a) k0 (applyImpl ps' h false (vint a0)).2) := by
                          unfold mapStep
                          rw [halook, hu]
                        have hH2 : HeapErase (mapStep ps h a k0) (applyImpl ps' h false (vint a0)).1 := by
                          rw [hms]
                          refine heapErase_hSet (heapErase_refl (applyImpl ps' h false (vint a0)).1)
                            (subErase_mupd_erase (subErase_refl (hGet (applyImpl ps' h false (vint a0)).1 a)) ?_ he0)
                          rw [hframe]
                          exact hu
                        have hstab : stabImpl ps' (mapStep ps h a k0) false (applyImpl ps' h false (vint a0)).2 = true :=
                          m_impl ps' (mapStep ps h a k0) (applyImpl ps' h false (vint a0)).1 false (applyImpl ps' h false (vint a0)).2 (applyImpl ps' h false (vint a0)).2
                            (erase_refl (applyImpl ps' h false (vint a0)).2) hH2 (t1_impl ps' h false (vint a0) hac)
                        have hno : ∀ o1, (applyImpl ps' h false (vint a0)).2 ≠ vptr o1 := by
                              intro o1 hx
                              rw [hb1] at hx
                              cases hx
                        unfold stabEntry
                        have halookF : alook (hGet (mapStep ps h a k0) a) k0 = some (applyImpl ps' h false (vint a0)).2 := by
                          rw [hms, hGet_hSet_self (by rw [heapErase_length hh0]; exact ha),
                            alook_mupd_self, hframe, hu]
                          rfl
                        rw [halookF]
                        exact stabMapEntry_build_nonptr hno hstab halook
                | vstr a0 =>
                    cases sub with
                    | remove =>
                        have ha : a < h.length := by
                          by_contra ha
                          rw [hGet_oob ha] at hu
                          cases hu
                        have hms : mapStep ps h a k0 = hSet h a (mdel (hGet h a) k0) := by
                          unfold mapStep
                          rw [halook, hu]
                        rw [hms]
                        unfold stabEntry
                        rw [hGet_hSet_self ha, alook_mdel_self]
                    | impl ps' =>
                        have ha : a < h.length := by
                          by_contra ha
                          rw [hGet_oob ha] at hu
                          cases hu
                        have hnr : ¬ VReach h (vstr a0) a :=
                          acyclic_entry hac hu (fun c hc => hc)
                        have hframe : hGet (applyImpl ps' h false (vstr a0)).1 a = hGet h a :=
                          frame_impl ps' h false (vstr a0) a hnr
                        obtain ⟨hh0, he0⟩ := t0_impl ps' h false (vstr a0)
                        obtain ⟨b1, hb1⟩ := erase_vstr_inv he0
                        have hms : mapStep ps h a k0
                            = hSet (applyImpl ps' h false (vstr a0)).1 a (mupd (hGet (applyImpl ps' h false (vstr a0)).1 a) k0 (applyImpl ps' h false (vstr a0)).2) := by
                          unfold mapStep
                          rw [halook, hu]
                        have hH2 : HeapErase (mapStep ps h a k0) (applyImpl ps' h false (vstr a0)).1 := by
                          rw [hms]
                          refine heapErase_hSet (heapErase_refl (applyImpl ps' h false (vstr a0)).1)
                            (subErase_mupd_erase (subErase_refl (hGet (applyImpl ps' h false (vstr a0)).1 a)) ?_ he0)
                          rw [hframe]
                          exact hu
                        have hstab : stabImpl ps' (mapStep ps h a k0) false (applyImpl ps' h false (vstr a0)).2 = true :=
                          m_impl ps' (mapStep ps h a k0) (applyImpl ps' h false (vstr a0)).1 false (applyImpl ps' h false (vstr a0)).2 (applyImpl ps' h false (vstr a0)).2
                            (erase_refl (applyImpl ps' h false (vstr a0)).2) hH2 (t1_impl ps' h false (vstr a0) hac)
                        have hno : ∀ o1, (applyImpl ps' h false (vstr a0)).2 ≠ vptr o1 := by
                              intro o1 hx
                              rw [hb1] at hx
                              cases hx
                        unfold stabEntry
                        have halookF : alook (hGet (mapStep ps h a k0) a) k0 = some (applyImpl ps' h false (vstr a0)).2 := by
                          rw [hms, hGet_hSet_self (by rw [heapErase_length hh0]; exact ha),
                            alook_mupd_self, hframe, hu]
                          rfl
                        rw [halookF]
                        exact stabMapEntry_build_nonptr hno hstab halook
                | vbool a0 =>
                    cases sub with
                    | remove =>
                        have ha : a < h.length := by
                          by_contra ha
                          rw [hGet_oob ha] at hu
                          cases hu
                        have hms : mapStep ps h a k0 = hSet h a (mdel (hGet h a) k0) := by
                          unfold mapStep
                          rw [halook, hu]
                        rw [hms]
                        unfold stabEntry
                        rw [hGet_hSet_self ha, alook_mdel_self]
                    | impl ps' =>
                        have ha : a < h.length := by
                          by_contra ha
                          rw [hGet_oob ha] at hu
                          cases hu
                        have hnr : ¬ VReach h (vbool a0) a :=
                          acyclic_entry hac hu (fun c hc => hc)
                        have hframe : hGet (applyImpl ps' h false (vbool a0)).1 a = hGet h a :=
                          frame_impl ps' h false (vbool a0) a hnr
                        obtain ⟨hh0, he0⟩ := t0_impl ps' h false (vbool a0)
                        obtain ⟨b1, hb1⟩ := erase_vbool_inv he0
                        have hms : mapStep ps h a k0
                            = hSet (applyImpl ps' h false (vbool a0)).1 a (mupd (hGet (applyImpl ps' h false (vbool a0)).1 a) k0 (applyImpl ps' h false (vbool a0)).2) := by
                          unfold mapStep
                          rw [halook, hu]
                        have hH2 : HeapErase (mapStep ps h a k0) (applyImpl ps' h false (vbool a0)).1 := by
                          rw [hms]
                          refine heapErase_hSet (heapErase_refl (applyImpl ps' h false (vbool a0)).1)
                            (subErase_mupd_erase (subErase_refl (hGet (applyImpl ps' h false (vbool a0)).1 a)) ?_ he0)
                          rw [hframe]
                          exact hu
                        have hstab : stabImpl ps' (mapStep ps h a k0) false (applyImpl ps' h false (vbool a0)).2 = true :=
                          m_impl ps' (mapStep ps h a k0) (applyImpl ps' h false (vbool a0)).1 false (applyImpl ps' h false (vbool a0)).2 (applyImpl ps' h false (vbool a0)).2
                            (erase_refl (applyImpl ps' h false (vbool a0)).2) hH2 (t1_impl ps' h false (vbool a0) hac)
                        have hno : ∀ o1, (applyImpl ps' h false (vbool a0)).2 ≠ vptr o1 := by
                              intro o1 hx
                              rw [hb1] at hx
                              cases hx
                        unfold stabEntry
                        have halookF : alook (hGet (mapStep ps h a k0) a) k0 = some (applyImpl ps' h false (vbool a0)).2 := by
                          rw [hms, hGet_hSet_self (by rw [heapErase_length hh0]; exact ha),
                            alook_mupd_self, hframe, hu]
                          rfl
                        rw [halookF]
                        exact stabMapEntry_build_nonptr hno hstab halook
                | vstruct flds0 =>
                    cases sub with
                    | remove =>
                        have ha : a < h.length := by
                          by_contra ha
                          rw [hGet_oob ha] at hu
                          cases hu
                        have hms : mapStep ps h a k0 = hSet h a (mdel (hGet h a) k0) := by
                          unfold mapStep
                          rw [halook, hu]
                        rw [hms]
                        unfold stabEntry
                        rw [hGet_hSet_self ha, alook_mdel_self]
                    | impl ps' =>
                        have ha : a < h.length := by
                          by_contra ha
                          rw [hGet_oob ha] at hu
                          cases hu
                        have hnr : ¬ VReach h (vstruct flds0) a :=
                          acyclic_entry hac hu (fun c hc => hc)
                        have hframe : hGet (applyImpl ps' h false (vstruct flds0)).1 a = hGet h a :=
                          frame_impl ps' h false (vstruct flds0) a hnr
                        obtain ⟨hh0, he0⟩ := t0_impl ps' h false (vstruct flds0)
                        obtain ⟨g1, hb1, hg1⟩ := erase_vstruct_inv he0
                        have hms : mapStep ps h a k0
                            = hSet (applyImpl ps' h false (vstruct flds0)).1 a (mupd (hGet (applyImpl ps' h false (vstruct flds0)).1 a) k0 (applyImpl ps' h false (vstruct flds0)).2) := by
                          unfold mapStep
                          rw [halook, hu]
                        have hH2 : HeapErase (mapStep ps h a k0) (applyImpl ps' h false (vstruct flds0)).1 := by
                          rw [hms]
                          refine heapErase_hSet (heapErase_refl (applyImpl ps' h false (vstruct flds0)).1)
                            (subErase_mupd_erase (subErase_refl (hGet (applyImpl ps' h false (vstruct flds0)).1 a)) ?_ he0)
                          rw [hframe]
                          exact hu
                        have hstab : stabImpl ps' (mapStep ps h a k0) false (applyImpl ps' h false (vstruct flds0)).2 = true :=
                          m_impl ps' (mapStep ps h a k0) (applyImpl ps' h false (vstruct flds0)).1 false (applyImpl ps' h false (vstruct flds0)).2 (applyImpl ps' h false (vstruct flds0)).2
                            (erase_refl (applyImpl ps' h false (vstruct flds0)).2) hH2 (t1_impl ps' h false (vstruct flds0) hac)
                        have hno : ∀ o1, (applyImpl ps' h false (vstruct flds0)).2 ≠ vptr o1 := by
                              intro o1 hx
                              rw [hb1] at hx
                              cases hx
                        unfold stabEntry
                        have halookF : alook (hGet (mapStep ps h a k0) a) k0 = some (applyImpl ps' h false (vstruct flds0)).2 := by
                          rw [hms, hGet_hSet_self (by rw [heapErase_length hh0]; exact ha),
                            alook_mupd_self, hframe, hu]
                          rfl
                        rw [halookF]
                        exact stabMapEntry_build_nonptr hno hstab halook
                | vslice items0 =>
                    cases sub with
                    | remove =>
                        have ha : a < h.length := by
                          by_contra ha
                          rw [hGet_oob ha] at hu
                          cases hu
                        have hms : mapStep ps h a k0 = hSet h a (mdel (hGet h a) k0) := by
                          unfold mapStep
                          rw [halook, hu]
                        rw [hms]
                        unfold stabEntry
                        rw [hGet_hSet_self ha, alook_mdel_self]
                    | impl ps' =>
                        have ha : a < h.length := by
                          by_contra ha
                          rw [hGet_oob ha] at hu
                          cases hu
                        have hnr : ¬ VReach h (vslice items0) a :=
                          acyclic_entry hac hu (fun c hc => hc)
                        have hframe : hGet (applyImpl ps' h false (vslice items0)).1 a = hGet h a :=
                          frame_impl ps' h false (vslice items0) a hnr
                        obtain ⟨hh0, he0⟩ := t0_impl ps' h false (vslice items0)
                        obtain ⟨l1, hb1, hl1⟩ := erase_vslice_inv he0
                        have hms : mapStep ps h a k0
                            = hSet (applyImpl ps' h false (vslice items0)).1 a (mupd (hGet (applyImpl ps' h false (vslice items0)).1 a) k0 (applyImpl ps' h false (vslice items0)).2) := by
                          unfold mapStep
                          rw [halook, hu]
                        have hH2 : HeapErase (mapStep ps h a k0) (applyImpl ps' h false (vslice items0)).1 := by
                          rw [hms]
                          refine heapErase_hSet (heapErase_refl (applyImpl ps' h false (vslice items0)).1)
                            (subErase_mupd_erase (subErase_refl (hGet (applyImpl ps' h false (vslice items0)).1 a)) ?_ he0)
                          rw [hframe]
                          exact hu
                        have hstab : stabImpl ps' (mapStep ps h a k0) false (applyImpl ps' h false (vslice items0)).2 = true :=
                          m_impl ps' (mapStep ps h a k0) (applyImpl ps' h false (vslice items0)).1 false (applyImpl ps' h false (vslice items0)).2 (applyImpl ps' h false (vslice items0)).2
                            (erase_refl (applyImpl ps' h false (vslice items0)).2) hH2 (t1_impl ps' h false (vslice items0) hac)
                        have hno : ∀ o1, (applyImpl ps' h false (vslice items0)).2 ≠ vptr o1 := by
                              intro o1 hx
                              rw [hb1] at hx
                              cases hx
                        unfold stabEntry
                        have halookF : alook (hGet (mapStep ps h a k0) a) k0 = some (applyImpl ps' h false (vslice items0)).2 := by
                          rw [hms, hGet_hSet_self (by rw [heapErase_length hh0]; exact ha),
                            alook_mupd_self, hframe, hu]
                          rfl
                        rw [halookF]
                        exact stabMapEntry_build_nonptr hno hstab halook
                | vmap oo =>
                    cases sub with
                    | remove =>
                        have ha : a < h.length := by
                          by_contra ha
                          rw [hGet_oob ha] at hu
                          cases hu
                        have hms : mapStep ps h a k0 = hSet h a (mdel (hGet h a) k0) := by
                          unfold mapStep
                          rw [halook, hu]
                        rw [hms]
                        unfold stabEntry
                        rw [hGet_hSet_self ha, alook_mdel_self]
                    | impl ps' =>
                        have ha : a < h.length := by
                          by_contra ha
                          rw [hGet_oob ha] at hu
                          cases hu
                        have hnr : ¬ VReach h (vmap oo) a :=
                          acyclic_entry hac hu (fun c hc => hc)
                        have hframe : hGet (applyImpl ps' h false (vmap oo)).1 a = hGet h a :=
                          frame_impl ps' h false (vmap oo) a hnr
                        obtain ⟨hh0, he0⟩ := t0_impl ps' h false (vmap oo)
                        have hms : mapStep ps h a k0
                            = hSet (applyImpl ps' h false (vmap oo)).1 a (mupd (hGet (applyImpl ps' h false (vmap oo)).1 a) k0 (applyImpl ps' h false (vmap oo)).2) := by
                          unfold mapStep
                          rw [halook, hu]
                        have hH2 : HeapErase (mapStep ps h a k0) (applyImpl ps' h false (vmap oo)).1 := by
                          rw [hms]
                          refine heapErase_hSet (heapErase_refl (applyImpl ps' h false (vmap oo)).1)
                            (subErase_mupd_erase (subErase_refl (hGet (applyImpl ps' h false (vmap oo)).1 a)) ?_ he0)
                          rw [hframe]
                          exact hu
                        have hstab : stabImpl ps' (mapStep ps h a k0) false (applyImpl ps' h false (vmap oo)).2 = true :=
                          m_impl ps' (mapStep ps h a k0) (applyImpl ps' h false (vmap oo)).1 false (applyImpl ps' h false (vmap oo)).2 (applyImpl ps' h false (vmap oo)).2
                            (erase_refl (applyImpl ps' h false (vmap oo)).2) hH2 (t1_impl ps' h false (vmap oo) hac)
                        have hno : ∀ o1, (applyImpl ps' h false (vmap oo)).2 ≠ vptr o1 := by
                              intro o1 hx
                              rcases erase_vmap_inv he0 with hb | hb <;> rw [hb] at hx <;> cases hx
                        unfold stabEntry
                        have halookF : alook (hGet (mapStep ps h a k0) a) k0 = some (applyImpl ps' h false (vmap oo)).2 := by
                          rw [hms, hGet_hSet_self (by rw [heapErase_length hh0]; exact ha),
                            alook_mupd_self, hframe, hu]
                          rfl
                        rw [halookF]
                        exact stabMapEntry_build_nonptr hno hstab halook
      have hcov1 : ∀ k1 u1, alook (hGet (mapStep ps h a k0) a) k1 = some u1 →
          k1 ∈ rest ∨ stabEntry (mapStep ps h a k0) a k1 ps = true := by
        intro k1 u1 hu1
        by_cases hk1 : k1 = k0
        · subst hk1
          exact Or.inr hk0st
        · obtain ⟨u0, hu0, hE0⟩ := subErase_alook_some (heapErase_hGet hH1 a) hu1
          rcases hcov k1 u0 hu0 with hmem | hstb
          · rcases List.mem_cons.mp hmem with he | he
            · exact absurd he hk1
            · exact Or.inl he
          · exact Or.inr (m_stabEntry hH1 hstb)
      exact t1_mapKeys ps (mapStep ps h a k0) a rest hac1 hcov1 k
termination_by (sizeOf ps, 0, sizeOf keys)
decreasing_by
  all_goals simp_wf
  all_goals
    first
    | (apply Prod.Lex.left; simp_arith; done)
    | (apply Prod.Lex.left; have hs := sizeOf_alook halook; simp_arith at hs ⊢; omega)
    | (apply Prod.Lex.right; apply Prod.Lex.left; simp_arith; done)
    | (apply Prod.Lex.right; apply Prod.Lex.left; omega)
    | (apply Prod.Lex.right; apply Prod.Lex.right; simp_arith; done)
    | (apply Prod.Lex.right; apply Prod.Lex.right; omega)

end


/-! ### The clone is a fixed point of deep-copying

`deepCopy` run on one of its own outputs returns that output unchanged
(every unexported field of a copy is already a nil pointer), and erasing a
copy preserves this.  Together with stability this closes the idempotence
argument: the second `Simplify` call copies its input verbatim and then the
traversal is the identity. -/

theorem erase_vptr_none_inv {w : Value} (hw : Erase w (vptr none)) : w = vptr none := by
  cases hw with
  | zero => rfl
  | rptrn => rfl

theorem eraseF_nil_inv {f' : List (String × Bool × Value)} (h : EraseF f' []) : f' = [] := by
  cases h
  rfl

theorem eraseF_cons_inv {f' : List (String × Bool × Value)} {n : String} {ex : Bool}
    {fv : Value} {rest : List (String × Bool × Value)}
    (h : EraseF f' ((n, ex, fv) :: rest)) :
    ∃ fv' rest', f' = (n, ex, fv') :: rest' ∧ Erase fv' fv ∧ EraseF rest' rest := by
  cases h with
  | cons hE hF => exact ⟨_, _, rfl, hE, hF⟩

/-- An unsettable destination survives `deepCopy` only as a nil pointer
(pointer sources store nothing; everything else panics). -/
theorem dcu {v : Value} {ro : Bool} {c : Value}
    (h : deepCopyStored false ro v = some c) : c = vptr none := by
  cases v with
  | vptr o =>
      cases o with
      | none =>
          cases h
          rfl
      | some t =>
          have h' : (deepCopyStored true ro t).map (fun _ => vptr none) = some c := h
          cases hi : deepCopyStored true ro t with
          | none =>
              rw [hi] at h'
              cases h'
          | some x =>
              rw [hi] at h'
              cases h'
              rfl
  | vint a => simp [deepCopyStored] at h
  | vstr a => simp [deepCopyStored] at h
  | vbool a => simp [deepCopyStored] at h
  | vmap o => simp [deepCopyStored] at h
  | vstruct flds => simp [deepCopyStored] at h
  | vslice items => simp [deepCopyStored] at h

mutual

/-- Whatever `deepCopy` stores is itself stored verbatim by a settable,
non-read-only re-copy. -/
theorem dcs_self (v : Value) :
    ∀ (ds ro : Bool) (c : Value), deepCopyStored ds ro v = some c →
      deepCopyStored true false c = some c := by
  cases v with
  | vptr o =>
      cases o with
      | none =>
          intro ds ro c h
          cases h
          rfl
      | some t =>
          intro ds ro c h
          have h' : (deepCopyStored true ro t).map (fun _ => vptr none) = some c := h
          cases hi : deepCopyStored true ro t with
          | none =>
              rw [hi] at h'
              cases h'
          | some x =>
              rw [hi] at h'
              cases h'
              rfl
  | vstruct flds =>
      intro ds ro c h
      cases ds with
      | false => simp [deepCopyStored] at h
      | true =>
          have h' : (deepCopyFields ro flds).map Value.vstruct = some c := h
          cases hf : deepCopyFields ro flds with
          | none =>
              rw [hf] at h'
              cases h'
          | some f2 =>
              rw [hf] at h'
              cases h'
              have hrec := dcf_self flds ro f2 hf
              show (deepCopyFields false f2).map Value.vstruct = some (vstruct f2)
              rw [hrec]
              rfl
  | vslice items =>
      intro ds ro c h
      cases ds with
      | false => simp [deepCopyStored] at h
      | true =>
          have h' : (deepCopyElems ro items).map Value.vslice = some c := h
          cases he : deepCopyElems ro items with
          | none =>
              rw [he] at h'
              cases h'
          | some l2 =>
              rw [he] at h'
              cases h'
              have hrec := dce_self items ro l2 he
              show (deepCopyElems false l2).map Value.vslice = some (vslice l2)
              rw [hrec]
              rfl
  | vint a =>
      intro ds ro c h
      have h' : (if ds && !ro then some (vint a) else none) = some c := h
      cases hb : ds && !ro with
      | false =>
          rw [hb] at h'
          simp at h'
      | true =>
          rw [hb] at h'
          simp at h'
          subst h'
          rfl
  | vstr a =>
      intro ds ro c h
      have h' : (if ds && !ro then some (vstr a) else none) = some c := h
      cases hb : ds && !ro with
      | false =>
          rw [hb] at h'
          simp at h'
      | true =>
          rw [hb] at h'
          simp at h'
          subst h'
          rfl
  | vbool a =>
      intro ds ro c h
      have h' : (if ds && !ro then some (vbool a) else none) = some c := h
      cases hb : ds && !ro with
      | false =>
          rw [hb] at h'
          simp at h'
      | true =>
          rw [hb] at h'
          simp at h'
          subst h'
          rfl
  | vmap o =>
      intro ds ro c h
      have h' : (if ds && !ro then some (vmap o) else none) = some c := h
      cases hb : ds && !ro with
      | false =>
          rw [hb] at h'
          simp at h'
      | true =>
          rw [hb] at h'
          simp at h'
          subst h'
          rfl

termination_by sizeOf v
decreasing_by
  all_goals simp_wf
  all_goals simp_arith

/-- Field contents left by `deepCopy` re-copy verbatim. -/
theorem dcf_self (flds : List (String × Bool × Value)) :
    ∀ (ro : Bool) (flds' : List (String × Bool × Value)),
      deepCopyFields ro flds = some flds' → deepCopyFields false flds' = some flds' := by
  cases flds with
  | nil =>
      intro ro flds' h
      cases h
      rfl
  | cons p rest =>
      obtain ⟨n, ex, fv⟩ := p
      intro ro flds' h
      have h' : (match deepCopyStored ex (ro || !ex) fv with
                 | none => none
                 | some fv2 =>
                   match deepCopyFields ro rest with
                   | none => none
                   | some rest2 => some ((n, ex, fv2) :: rest2)) = some flds' := h
      cases h1 : deepCopyStored ex (ro || !ex) fv with
      | none =>
          rw [h1] at h'
          cases h'
      | some fv2 =>
          rw [h1] at h'
          cases h2 : deepCopyFields ro rest with
          | none =>
              rw [h2] at h'
              cases h'
          | some rest2 =>
              rw [h2] at h'
              cases h'
              have hrest := dcf_self rest ro rest2 h2
              have hhead : deepCopyStored ex (false || !ex) fv2 = some fv2 := by
                cases ex with
                | true => exact dcs_self fv true (ro || !true) fv2 h1
                | false =>
                    have hz : fv2 = vptr none := dcu h1
                    subst hz
                    rfl
              show (match deepCopyStored ex (false || !ex) fv2 with
                    | none => none
                    | some fv3 =>
                      match deepCopyFields false rest2 with
                      | none => none
                      | some rest3 => some ((n, ex, fv3) :: rest3))
                  = some ((n, ex, fv2) :: rest2)
              rw [hhead, hrest]

termination_by sizeOf flds
decreasing_by
  all_goals simp_wf
  all_goals simp_arith

/-- Slice contents left by `deepCopy` re-copy verbatim. -/
theorem dce_self (items : List Value) :
    ∀ (ro : Bool) (items' : List Value),
      deepCopyElems ro items = some items' → deepCopyElems false items' = some items' := by
  cases items with
  | nil =>
      intro ro items' h
      cases h
      rfl
  | cons it rest =>
      intro ro items' h
      have h' : (match deepCopyStored true ro it with
                 | none => none
                 | some it2 =>
                   match deepCopyElems ro rest with
                   | none => none
                   | some rest2 => some (it2 :: rest2)) = some items' := h
      cases h1 : deepCopyStored true ro it with
      | none =>
          rw [h1] at h'
          cases h'
      | some it2 =>
          rw [h1] at h'
          cases h2 : deepCopyElems ro rest with
          | none =>
              rw [h2] at h'
              cases h'
          | some rest2 =>
              rw [h2] at h'
              cases h'
              have hrest := dce_self rest ro rest2 h2
              have hhead : deepCopyStored true false it2 = some it2 :=
                dcs_self it true ro it2 h1
              show (match deepCopyStored true false it2 with
                    | none => none
                    | some it3 =>
                      match deepCopyElems false rest2 with
                      | none => none
                      | some rest3 => some (it3 :: rest3))
                  = some (it2 :: rest2)
              rw [hhead, hrest]
termination_by sizeOf items
decreasing_by
  all_goals simp_wf
  all_goals simp_arith

end

mutual

/-- Self-copying values stay self-copying under erasure. -/
theorem sf_erase (c : Value) :
    ∀ c', Erase c' c → deepCopyStored true false c = some c →
      deepCopyStored true false c' = some c' := by
  cases c with
  | vint a =>
      intro c' hE _
      obtain ⟨b, rfl⟩ := erase_vint_inv hE
      rfl
  | vstr a =>
      intro c' hE _
      obtain ⟨b, rfl⟩ := erase_vstr_inv hE
      rfl
  | vbool a =>
      intro c' hE _
      obtain ⟨b, rfl⟩ := erase_vbool_inv hE
      rfl
  | vmap o =>
      intro c' hE _
      rcases erase_vmap_inv hE with rfl | rfl
      · rfl
      · rfl
  | vptr o =>
      cases o with
      | none =>
          intro c' hE _
          have hcc := erase_vptr_none_inv hE
          subst hcc
          rfl
      | some t =>
          intro c' hE hc
          exfalso
          have h' : (deepCopyStored true false t).map (fun _ => vptr none)
              = some (vptr (some t)) := hc
          cases hi : deepCopyStored true false t with
          | none =>
              rw [hi] at h'
              cases h'
          | some x =>
              rw [hi] at h'
              cases h'
  | vstruct flds =>
      intro c' hE hc
      obtain ⟨f', rfl, hEF⟩ := erase_vstruct_inv hE
      have h' : (deepCopyFields false flds).map Value.vstruct = some (vstruct flds) := hc
      cases hf : deepCopyFields false flds with
      | none =>
          rw [hf] at h'
          cases h'
      | some f2 =>
          rw [hf] at h'
          cases h'
          have hrec := sfF_erase flds f' hEF hf
          show (deepCopyFields false f').map Value.vstruct = some (vstruct f')
          rw [hrec]
          rfl
  | vslice items =>
      intro c' hE hc
      obtain ⟨l', rfl, hL⟩ := erase_vslice_inv hE
      have h' : (deepCopyElems false items).map Value.vslice = some (vslice items) := hc
      cases he : deepCopyElems false items with
      | none =>
          rw [he] at h'
          cases h'
      | some l2 =>
          rw [he] at h'
          cases h'
          rcases hL with hL | rfl
          · have hrec := sfL_erase items l' hL he
            show (deepCopyElems false l').map Value.vslice = some (vslice l')
            rw [hrec]
            rfl
          · rfl

termination_by sizeOf c
decreasing_by
  all_goals simp_wf
  all_goals simp_arith

/-- Self-copying field lists stay self-copying under erasure. -/
theorem sfF_erase (flds : List (String × Bool × Value)) :
    ∀ flds', EraseF flds' flds → deepCopyFields false flds = some flds →
      deepCopyFields false flds' = some flds' := by
  cases flds with
  | nil =>
      intro flds' hEF _
      have h0 := eraseF_nil_inv hEF
      subst h0
      rfl
  | cons p rest =>
      obtain ⟨n, ex, fv⟩ := p
      intro flds' hEF hc
      obtain ⟨fv', rest', rfl, hEv, hEF'⟩ := eraseF_cons_inv hEF
      have h' : (match deepCopyStored ex (false || !ex) fv with
                 | none => none
                 | some fv2 =>
                   match deepCopyFields false rest with
                   | none => none
                   | some rest2 => some ((n, ex, fv2) :: rest2))
          = some ((n, ex, fv) :: rest) := hc
      cases h1 : deepCopyStored ex (false || !ex) fv with
      | none =>
          rw [h1] at h'
          cases h'
      | some fv2 =>
          rw [h1] at h'
          cases h2 : deepCopyFields false rest with
          | none =>
              rw [h2] at h'
              cases h'
          | some rest2 =>
              rw [h2] at h'
              cases h'
              have hrest := sfF_erase rest rest' hEF' h2
              have hhead : deepCopyStored ex (false || !ex) fv' = some fv' := by
                cases ex with
                | true => exact sf_erase fv fv' hEv h1
                | false =>
                    have hz : fv = vptr none := dcu h1
                    subst hz
                    have hz' := erase_vptr_none_inv hEv
                    subst hz'
                    rfl
              show (match deepCopyStored ex (false || !ex) fv' with
                    | none => none
                    | some fv3 =>
                      match deepCopyFields false rest' with
                      | none => none
                      | some rest3 => some ((n, ex, fv3) :: rest3))
                  = some ((n, ex, fv') :: rest')
              rw [hhead, hrest]

termination_by sizeOf flds
decreasing_by
  all_goals simp_wf
  all_goals simp_arith

/-- Self-copying element lists stay self-copying under erasure. -/
theorem sfL_erase (items : List Value) :
    ∀ items', EraseL items' items → deepCopyElems false items = some items →
      deepCopyElems false items' = some items' := by
  cases items with
  | nil =>
      intro items' hL _
      have h0 := eraseL_nil_inv hL
      subst h0
      rfl
  | cons it rest =>
      intro items' hL hc
      obtain ⟨it', rest', rfl, hEv, hL'⟩ := eraseL_cons_inv hL
      have h' : (match deepCopyStored true false it with
                 | none => none
                 | some it2 =>
                   match deepCopyElems false rest with
                   | none => none
                   | some rest2 => some (it2 :: rest2)) = some (it :: rest) := hc
      cases h1 : deepCopyStored true false it with
      | none =>
          rw [h1] at h'
          cases h'
      | some it2 =>
          rw [h1] at h'
          cases h2 : deepCopyElems false rest with
          | none =>
              rw [h2] at h'
              cases h'
          | some rest2 =>
              rw [h2] at h'
              cases h'
              have hrest := sfL_erase rest rest' hL' h2
              have hhead := sf_erase it it' hEv h1
              show (match deepCopyStored true false it' with
                    | none => none
                    | some it3 =>
                      match deepCopyElems false rest' with
                      | none => none
                      | some rest3 => some (it3 :: rest3))
                  = some (it' :: rest')
              rw [hhead, hrest]
termination_by sizeOf items
decreasing_by
  all_goals simp_wf
  all_goals simp_arith

end

/-- A value that `deepCopyStored` maps to itself is a fixed point of the
top-level `deepCopyRet` as well. -/
theorem selfFixed_ret {v1 : Value} (h : deepCopyStored true false v1 = some v1) :
    deepCopyRet v1 = some v1 := by
  cases v1 with
  | vptr o =>
      cases o with
      | none => rfl
      | some t =>
          exfalso
          have h' : (deepCopyStored true false t).map (fun _ => vptr none)
              = some (vptr (some t)) := h
          cases hi : deepCopyStored true false t with
          | none =>
              rw [hi] at h'
              cases h'
          | some x =>
              rw [hi] at h'
              cases h'
  | vint a => exact h
  | vstr a => exact h
  | vbool a => exact h
  | vmap o => exact h
  | vstruct flds => exact h
  | vslice items => exact h

/-- Any erasure of a `deepCopyRet` output is again a `deepCopyRet` fixed
point: the second `Simplify` call clones its input verbatim. -/
theorem deepCopyRet_self {v c v1 : Value} (hc : deepCopyRet v = some c)
    (hE : Erase v1 c) : deepCopyRet v1 = some v1 := by
  cases v with
  | vptr o =>
      cases o with
      | none =>
          cases hc
          have h0 := erase_vptr_none_inv hE
          subst h0
          rfl
      | some t =>
          have h' : (deepCopyStored true false t).map (fun ct => vptr (some ct))
              = some c := hc
          cases hi : deepCopyStored true false t with
          | none =>
              rw [hi] at h'
              cases h'
          | some ct =>
              rw [hi] at h'
              cases h'
              have hsf : deepCopyStored true false ct = some ct :=
                dcs_self t true false ct hi
              rcases erase_vptr_some_inv hE with rfl | ⟨t1, rfl, hEt⟩
              · rfl
              · have hsf1 := sf_erase ct t1 hEt hsf
                show (deepCopyStored true false t1).map (fun ct2 => vptr (some ct2))
                    = some (vptr (some t1))
                rw [hsf1]
                rfl
  | vint a => exact selfFixed_ret (sf_erase c v1 hE (dcs_self (vint a) true false c hc))
  | vstr a => exact selfFixed_ret (sf_erase c v1 hE (dcs_self (vstr a) true false c hc))
  | vbool a => exact selfFixed_ret (sf_erase c v1 hE (dcs_self (vbool a) true false c hc))
  | vmap o => exact selfFixed_ret (sf_erase c v1 hE (dcs_self (vmap o) true false c hc))
  | vstruct flds =>
      exact selfFixed_ret (sf_erase c v1 hE (dcs_self (vstruct flds) true false c hc))
  | vslice items =>
      exact selfFixed_ret (sf_erase c v1 hE (dcs_self (vslice items) true false c hc))

/-- The empty heap has no cycles. -/
theorem reach1_nil_false {a b : Nat} (h : Reach1 [] a b) : False := by
  obtain ⟨k, u, hk, _⟩ := h
  cases hk

theorem acyclic_nil : Acyclic [] := by
  intro a htg
  cases htg with
  | single h => exact reach1_nil_false h
  | tail _ h => exact reach1_nil_false h

/-- C4: `Simplify` is idempotent.  If a run on an acyclic heap succeeds and
returns `(h1, v1, e1)`, then running `Simplify` again on its own output
returns exactly the same heap, value and (nil) error: the clone of the
output copies verbatim and the traversal leaves the already-simplified
value and heap untouched. -/
theorem c4_simplify_idempotent (ps : List (String × Ruler)) (h : Heap) (v : Value)
    (hac : Acyclic h) {h1 : Heap} {v1 : Value} {e1 : Option String}
    (hrun : simplifyGo ps h v = some (h1, v1, e1)) :
    simplifyGo ps h1 v1 = some (h1, v1, e1) := by
  unfold simplifyGo at hrun ⊢
  cases hc : deepCopyRet v with
  | none =>
      rw [hc] at hrun
      cases hrun
  | some c =>
      rw [hc] at hrun
      have hr : ((applyImpl ps h true c).1, (applyImpl ps h true c).2, (none : Option String))
          = (h1, v1, e1) := Option.some.inj hrun
      have hh1 : (applyImpl ps h true c).1 = h1 := congrArg Prod.fst hr
      have hv1 : (applyImpl ps h true c).2 = v1 := congrArg (fun p => p.2.1) hr
      have he1 : (none : Option String) = e1 := congrArg (fun p => p.2.2) hr
      have hE : Erase v1 c := hv1 ▸ (t0_impl ps h true c).2
      have hret : deepCopyRet v1 = some v1 := deepCopyRet_self hc hE
      have hstab : stabImpl ps h1 true v1 = true := by
        have ht := t1_impl ps h true c hac
        rw [hh1, hv1] at ht
        exact ht
      have happ : applyImpl ps h1 true v1 = (h1, v1) := ss_impl ps h1 true v1 hstab
      rw [hret]
      show some ((applyImpl ps h1 true v1).1, (applyImpl ps h1 true v1).2,
          (none : Option String)) = some (h1, v1, e1)
      rw [happ, ← he1]

theorem c4_simplify_idempotent_witness :
    Acyclic []
      ∧ simplifyGo [("F", Ruler.remove)] [] (vstruct [("F", true, vint 7)])
          = some ([], vstruct [("F", true, vint 0)], none)
      ∧ simplifyGo [("F", Ruler.remove)] [] (vstruct [("F", true, vint 0)])
          = some ([], vstruct [("F", true, vint 0)], none) := by
  have hc : deepCopyRet (vstruct [("F", true, vint 7)])
      = some (vstruct [("F", true, vint 7)]) := by
    simp [deepCopyRet, deepCopyStored, deepCopyFields]
  have hsf : applyStructFields ([] : Heap) true [("F", true, vint 7)] [("F", Ruler.remove)]
      = ([], [("F", true, vint 0)]) := by
    simp [applyStructFields, fGet, fSet, zeroOf]
  have ha : applyImpl [("F", Ruler.remove)] [] true (vstruct [("F", true, vint 7)])
      = ([], vstruct [("F", true, vint 0)]) := by
    rw [applyImpl_notptr _ _ _ _ (by intro o hx; cases hx), applyValue_vstruct, hsf]
  have hrun : simplifyGo [("F", Ruler.remove)] [] (vstruct [("F", true, vint 7)])
      = some ([], vstruct [("F", true, vint 0)], none) := by
    show (deepCopyRet (vstruct [("F", true, vint 7)])).map
        (fun c => ((applyImpl [("F", Ruler.remove)] [] true c).1,
          (applyImpl [("F", Ruler.remove)] [] true c).2, (none : Option String)))
        = some ([], vstruct [("F", true, vint 0)], none)
    rw [hc]
    show some ((applyImpl [("F", Ruler.remove)] [] true (vstruct [("F", true, vint 7)])).1,
        (applyImpl [("F", Ruler.remove)] [] true (vstruct [("F", true, vint 7)])).2,
        (none : Option String)) = some ([], vstruct [("F", true, vint 0)], none)
    rw [ha]
  exact ⟨acyclic_nil, hrun,
    c4_simplify_idempotent [("F", Ruler.remove)] [] (vstruct [("F", true, vint 7)])
      acyclic_nil hrun⟩

end Gosimplifier
